import Mathlib

/-!
Shallow embedding of the deal.II `internal::hp::DoFLevel` compression engine
(`source/hp/dof_level.cc`): per-level storage of degree-of-freedom index
blocks with an invertible run-length compression pass, together with proofs
of the specified properties.

Arrays are modelled as Lean lists; the `(offset_type)(-1)` sentinel of the
offset table is modelled as `none`.  The element-variant catalog
(`fe_collection[...].n_dofs_per_object()`, an external collaborator queried
but never mutated) is modelled as a function `fe : Nat → Nat` from variant
id to block length.  The deal.II `Assert` macro signals a fatal
internal-consistency failure; it is modelled as an `Except` error carrying
the observable state at the failure point.
-/

set_option maxRecDepth 16000

namespace DealII

/-- Modelled from the spec: a per-cell tag of the Variant Tag Table, a
variant identifier together with the reserved compressed flag.  The source
packs the flag into one reserved bit of `active_fe_index_type` in the
`dof_level.h` header (not part of the sampled source); following the spec's
data model it is represented as a variant id plus an explicit Boolean. -/
structure FeTag where
  variant : Nat
  compressed : Bool
deriving Repr, DecidableEq

instance : Inhabited FeTag := ⟨⟨0, false⟩⟩

/-- Modelled from the spec: `DoFLevel::is_compressed_entry` — whether the
reserved compression bit of a tag is set. -/
def is_compressed_entry (t : FeTag) : Bool := t.compressed

/-- Modelled from the spec: `DoFLevel::get_toggled_compression_state` —
toggle the reserved compression bit, leaving the variant id unchanged. -/
def get_toggled_compression_state (t : FeTag) : FeTag := ⟨t.variant, !t.compressed⟩

/-- The `DoFLevel` data arrays: the per-cell offset table `dof_offsets`
(`none` is the sentinel `(offset_type)(-1)` marking an inactive cell), the
flat index array `dof_indices`, and the per-cell tag table
`active_fe_indices`. -/
structure DoFLevel where
  dof_offsets : List (Option Nat)
  dof_indices : List Nat
  active_fe_indices : List FeTag
deriving Repr, DecidableEq

/-- Length of the maximal `none` (inactive) prefix of an offset list. -/
def skipInactive : List (Option Nat) → Nat
  | [] => 0
  | some _ :: _ => 0
  | none :: rest => skipInactive rest + 1

/-- The `next_cell` scan of the source: starting at `i`, advance past the
inactive cells (`while ((next_cell < dof_offsets.size()) &&
(dof_offsets[next_cell] == -1)) ++next_cell`); the result is the first
active cell index `≥ i`, or `dof_offsets.size()` when there is none. -/
def nextActive (offs : List (Option Nat)) (i : Nat) : Nat :=
  i + skipInactive (offs.drop i)

/-- Whether cell `c` is active (its stored offset is not the sentinel). -/
def activeAt (offs : List (Option Nat)) (c : Nat) : Bool :=
  (offs.getD c none).isSome

/-- The `next_offset` computation of the source for active cell `c`: the
offset stored at the next active cell, or `dof_indices.size()` when `c` is
the last active cell. -/
def nextOffsetVal (offs : List (Option Nat)) (inds : List Nat) (c : Nat) : Nat :=
  if nextActive offs (c + 1) < offs.length then
    (offs.getD (nextActive offs (c + 1)) none).getD 0
  else inds.length

/-- The inner compressibility loop of `compress_data`: check
`dof_indices[j] == dof_indices[j-1] + 1` for every `j` in `[j, noff)`. -/
def runCheck (inds : List Nat) (j noff : Nat) : Bool :=
  if j < noff then
    (inds.getD j 0 == inds.getD (j - 1) 0 + 1) && runCheck inds (j + 1) noff
  else true
termination_by noff - j

/-- The compressibility test of `compress_data` for the block `[off, noff)`:
every value after the first equals its predecessor plus one. -/
def blockCompressible (inds : List Nat) (off noff : Nat) : Bool :=
  runCheck inds (off + 1) noff

/-- The verbatim copy loop of the source
(`for (i = dof_offsets[cell]; i < next_offset; ++i) push_back(dof_indices[i])`):
the sub-range `[off, noff)` of `inds`. -/
def blockSlice (inds : List Nat) (off noff : Nat) : List Nat :=
  (inds.drop off).take (noff - off)

/-- The stored block of cell `c` in raw arrays: empty for an inactive cell,
otherwise the index sub-range from the cell's offset to the next active
offset. -/
def cellBlockArr (offs : List (Option Nat)) (inds : List Nat) (c : Nat) : List Nat :=
  match offs.getD c none with
  | none => []
  | some off => blockSlice inds off (nextOffsetVal offs inds c)

/-- The stored block of cell `c` of a level. -/
def DoFLevel.cellBlock (L : DoFLevel) (c : Nat) : List Nat :=
  cellBlockArr L.dof_offsets L.dof_indices c

/-- The internal-consistency assertions of the two passes.
`invalidFeIndex` models the fatal index check inside
`fe_collection[active_fe_indices[cell]]` when the raw stored tag still
carries the compression bit: such a raw value is not a valid index into the
catalog, so the lookup itself fails before any length comparison. -/
inductive DoFErr where
  | invalidFeIndex
  | blockLengthMismatch
  | doubleCompression
  | compressedLengthNotOne
  | finalSizeMismatch
deriving Repr, DecidableEq

/-- A failed assertion: the error kind together with the observable
`DoFLevel` state at the failure point.  The tag table reflects the in-place
mutations made before the failure; the new offset/index arrays are local to
the pass and are never swapped in on failure. -/
structure Failure where
  err : DoFErr
  state : DoFLevel
deriving Repr, DecidableEq

/-- Sizing phase of `DoFLevel::compress_data` (first loop): count the slots
needed after compression, asserting that each active block's stored length
equals the catalog block length for the cell's tag.  The source indexes the
catalog with the raw stored tag (`fe_collection[active_fe_indices[cell]]`,
compression bit included): when the bit is set the raw value is not a valid
catalog id and the lookup itself fails fatally, before any length
comparison — modelled by the `is_compressed_entry` guard. -/
def compress_size (fe : Nat → Nat) (offs : List (Option Nat)) (inds : List Nat)
    (tags : List FeTag) (cell : Nat) : Except DoFErr Nat :=
  if h : cell < offs.length then
    match offs[cell] with
    | none => compress_size fe offs inds tags (cell + 1)
    | some off =>
        let next_cell := nextActive offs (cell + 1)
        let next_offset :=
          if next_cell < offs.length then (offs.getD next_cell none).getD 0
          else inds.length
        if is_compressed_entry (tags.getD cell default) then
          .error .invalidFeIndex
        else if next_offset - off ≠ fe (tags.getD cell default).variant then
          .error .blockLengthMismatch
        else
          match compress_size fe offs inds tags next_cell with
          | .error e => .error e
          | .ok rest =>
              .ok ((if off < next_offset then
                      if blockCompressible inds off next_offset then 1
                      else next_offset - off
                    else 0) + rest)
  else .ok 0
termination_by offs.length - cell
decreasing_by
· omega
· simp only [nextActive]; omega

/-- Writing phase of `DoFLevel::compress_data` (second loop): build the new
index array and offset table, collapsing each compressible block to its
first stored value and toggling the cell's compression flag in the tag
table in place (asserting it was not already set).  As in the sizing phase,
the length assertion indexes the catalog with the raw stored tag, so a tag
that still carries the compression bit fails fatally at the lookup itself;
the later not-already-compressed assertion of the source (kept verbatim
below) is therefore never reached with a compressed tag. -/
def compress_write (fe : Nat → Nat) (offs : List (Option Nat)) (inds : List Nat)
    (cell : Nat) (new_inds : List Nat) (new_offs : List (Option Nat))
    (tags : List FeTag) :
    Except Failure (List Nat × List (Option Nat) × List FeTag) :=
  if h : cell < offs.length then
    match offs[cell] with
    | none => compress_write fe offs inds (cell + 1) new_inds new_offs tags
    | some off =>
        let next_cell := nextActive offs (cell + 1)
        let next_offset :=
          if next_cell < offs.length then (offs.getD next_cell none).getD 0
          else inds.length
        if is_compressed_entry (tags.getD cell default) then
          .error ⟨.invalidFeIndex, ⟨offs, inds, tags⟩⟩
        else if next_offset - off ≠ fe (tags.getD cell default).variant then
          .error ⟨.blockLengthMismatch, ⟨offs, inds, tags⟩⟩
        else
          let new_offs2 := new_offs.set cell (some new_inds.length)
          if off < next_offset then
            if blockCompressible inds off next_offset then
              if is_compressed_entry (tags.getD cell default) then
                .error ⟨.doubleCompression, ⟨offs, inds, tags⟩⟩
              else
                compress_write fe offs inds next_cell
                  (new_inds ++ [inds.getD off 0]) new_offs2
                  (tags.set cell (get_toggled_compression_state (tags.getD cell default)))
            else
              compress_write fe offs inds next_cell
                (new_inds ++ blockSlice inds off next_offset) new_offs2 tags
          else
            compress_write fe offs inds next_cell new_inds new_offs2 tags
  else .ok (new_inds, new_offs, tags)
termination_by offs.length - cell
decreasing_by
· omega
· simp only [nextActive]; omega
· simp only [nextActive]; omega
· simp only [nextActive]; omega

/-- `DoFLevel::compress_data`: empty-level shortcut, sizing phase, writing
phase, final size assertion, then the swap of the freshly built arrays. -/
def DoFLevel.compress_data (fe : Nat → Nat) (L : DoFLevel) :
    Except Failure DoFLevel :=
  if L.dof_offsets.length = 0 ∨ L.dof_indices.length = 0 then .ok L
  else
    match compress_size fe L.dof_offsets L.dof_indices L.active_fe_indices 0 with
    | .error e => .error ⟨e, L⟩
    | .ok new_size =>
        match compress_write fe L.dof_offsets L.dof_indices 0 []
            (List.replicate L.dof_offsets.length none) L.active_fe_indices with
        | .error f => .error f
        | .ok (new_inds, new_offs, tags2) =>
            if new_inds.length ≠ new_size then
              .error ⟨.finalSizeMismatch, ⟨L.dof_offsets, L.dof_indices, tags2⟩⟩
            else .ok ⟨new_offs, new_inds, tags2⟩

/-- Sizing phase of `DoFLevel::uncompress_data`: sum the catalog block
length over the active cells.  The source reads the length through the
`active_fe_index` accessor, which strips the compression bit, so the
variant id is used whether or not the cell is compressed. -/
def uncompress_size (fe : Nat → Nat) (offs : List (Option Nat))
    (tags : List FeTag) (cell : Nat) : Nat :=
  if h : cell < offs.length then
    (match offs[cell] with
     | none => 0
     | some _ => fe (tags.getD cell default).variant) +
      uncompress_size fe offs tags (cell + 1)
  else 0
termination_by offs.length - cell

/-- Writing phase of `DoFLevel::uncompress_data`: copy each non-compressed
block verbatim (asserting its stored length against the catalog), and
expand each compressed block's single stored value `v` (asserting its
stored length is exactly 1) into the run `v, v+1, …, v+L-1` where `L` is
the catalog length for the untoggled tag, untoggling the flag in place. -/
def uncompress_write (fe : Nat → Nat) (offs : List (Option Nat)) (inds : List Nat)
    (cell : Nat) (new_inds : List Nat) (new_offs : List (Option Nat))
    (tags : List FeTag) :
    Except Failure (List Nat × List (Option Nat) × List FeTag) :=
  if h : cell < offs.length then
    match offs[cell] with
    | none => uncompress_write fe offs inds (cell + 1) new_inds new_offs tags
    | some off =>
        let next_cell := nextActive offs (cell + 1)
        let next_offset :=
          if next_cell < offs.length then (offs.getD next_cell none).getD 0
          else inds.length
        let new_offs2 := new_offs.set cell (some new_inds.length)
        if is_compressed_entry (tags.getD cell default) = false then
          if next_offset - off ≠ fe (tags.getD cell default).variant then
            .error ⟨.blockLengthMismatch, ⟨offs, inds, tags⟩⟩
          else
            uncompress_write fe offs inds next_cell
              (new_inds ++ blockSlice inds off next_offset) new_offs2 tags
        else
          if next_offset - off ≠ 1 then
            .error ⟨.compressedLengthNotOne, ⟨offs, inds, tags⟩⟩
          else
            let dofs_per_object :=
              fe (get_toggled_compression_state (tags.getD cell default)).variant
            uncompress_write fe offs inds next_cell
              (new_inds ++ (List.range dofs_per_object).map (fun i => inds.getD off 0 + i))
              new_offs2
              (tags.set cell (get_toggled_compression_state (tags.getD cell default)))
  else .ok (new_inds, new_offs, tags)
termination_by offs.length - cell
decreasing_by
· omega
· simp only [nextActive]; omega
· simp only [nextActive]; omega

/-- `DoFLevel::uncompress_data`: empty-level shortcut, sizing phase, writing
phase, final size assertion, then the swap of the freshly built arrays. -/
def DoFLevel.uncompress_data (fe : Nat → Nat) (L : DoFLevel) :
    Except Failure DoFLevel :=
  if L.dof_offsets.length = 0 ∨ L.dof_indices.length = 0 then .ok L
  else
    let new_size := uncompress_size fe L.dof_offsets L.active_fe_indices 0
    match uncompress_write fe L.dof_offsets L.dof_indices 0 []
        (List.replicate L.dof_offsets.length none) L.active_fe_indices with
    | .error f => .error f
    | .ok (new_inds, new_offs, tags2) =>
        if new_inds.length ≠ new_size then
          .error ⟨.finalSizeMismatch, ⟨L.dof_offsets, L.dof_indices, tags2⟩⟩
        else .ok ⟨new_offs, new_inds, tags2⟩

/-- `DoFLevel::normalize_active_fe_indices`: untoggle the compression bit of
every compressed tag, leaving `dof_offsets` and `dof_indices` untouched. -/
def DoFLevel.normalize_active_fe_indices (L : DoFLevel) : DoFLevel :=
  { L with
    active_fe_indices :=
      L.active_fe_indices.map fun t =>
        if is_compressed_entry t then get_toggled_compression_state t else t }

/-- The stored block length implied by a tag (the §3 invariant): exactly 1
for a compressed cell, the catalog length for the variant otherwise. -/
def storedLen (fe : Nat → Nat) (t : FeTag) : Nat :=
  if t.compressed then 1 else fe t.variant

/-- Canonical layout of a level fragment, the data-model invariant of the
spec: scanning the cells from `cell` on, every active cell's stored offset
equals the running position `pos`, positions advance by the stored block
length implied by the tag, and the final position is exactly
`dof_indices.size()` (blocks partition the index array in cell order). -/
def canonicalFromB (fe : Nat → Nat) (offs : List (Option Nat)) (inds : List Nat)
    (tags : List FeTag) (cell pos : Nat) : Bool :=
  if h : cell < offs.length then
    match offs[cell] with
    | none => canonicalFromB fe offs inds tags (cell + 1) pos
    | some off =>
        (off == pos) &&
          canonicalFromB fe offs inds tags (nextActive offs (cell + 1))
            (pos + storedLen fe (tags.getD cell default))
  else pos == inds.length
termination_by offs.length - cell
decreasing_by
· omega
· simp only [nextActive]; omega

/-- A level is canonical when its arrays satisfy the data-model invariants:
canonical layout from cell 0 at position 0 and one tag slot per cell. -/
def DoFLevel.canonical (fe : Nat → Nat) (L : DoFLevel) : Bool :=
  canonicalFromB fe L.dof_offsets L.dof_indices L.active_fe_indices 0 0 &&
    (L.active_fe_indices.length == L.dof_offsets.length)

/-- No tag of the table is marked compressed. -/
def allUncompressed (tags : List FeTag) : Bool :=
  tags.all fun t => !t.compressed

/-- The decoded per-cell block values of a level fragment, concatenated in
cell order: a compressed cell's single value `v` decodes to the run
`v, v+1, …, v+L-1` with `L` the catalog length of its variant; a
non-compressed cell's block decodes to itself. -/
def decodeFrom (fe : Nat → Nat) (offs : List (Option Nat)) (inds : List Nat)
    (tags : List FeTag) (cell : Nat) : List Nat :=
  if h : cell < offs.length then
    match offs[cell] with
    | none => decodeFrom fe offs inds tags (cell + 1)
    | some off =>
        let next_cell := nextActive offs (cell + 1)
        let next_offset :=
          if next_cell < offs.length then (offs.getD next_cell none).getD 0
          else inds.length
        (if (tags.getD cell default).compressed then
           (List.range (fe (tags.getD cell default).variant)).map
             (fun i => inds.getD off 0 + i)
         else blockSlice inds off next_offset) ++
          decodeFrom fe offs inds tags next_cell
  else []
termination_by offs.length - cell
decreasing_by
· omega
· simp only [nextActive]; omega

/-- Whether `compress_data` collapses the block of cell `c`: the cell is
active and its stored block is non-empty and compressible. -/
def collapses (offs : List (Option Nat)) (inds : List Nat) (c : Nat) : Bool :=
  match offs.getD c none with
  | none => false
  | some off =>
      decide (off < nextOffsetVal offs inds c) &&
        blockCompressible inds off (nextOffsetVal offs inds c)

/-- Untoggle a tag when its compression bit is set (the per-tag action of
`normalize_active_fe_indices`). -/
def normalizeTag (t : FeTag) : FeTag :=
  if is_compressed_entry t then get_toggled_compression_state t else t

/-- Every tag slot from `cell` on reads as not compressed. -/
def uncompressedFrom (tags : List FeTag) (cell : Nat) : Prop :=
  ∀ c, cell ≤ c → (tags.getD c default).compressed = false

/-- The claim-side sum for the size invariant of `compress_data`: every
cell from `cell` on is visited once; an active cell contributes one slot if
its block is collapsed (non-empty and compressible) and its true stored
block length otherwise. -/
def compressSizeSpecFrom (offs : List (Option Nat)) (inds : List Nat)
    (cell : Nat) : Nat :=
  if cell < offs.length then
    (match offs.getD cell none with
     | none => 0
     | some off =>
         if collapses offs inds cell then 1
         else nextOffsetVal offs inds cell - off) +
      compressSizeSpecFrom offs inds (cell + 1)
  else 0
termination_by offs.length - cell
decreasing_by omega

/-- Joint description of a successful run of `compress_write` from `cell`
with input position `pos`, write accumulator `acc`, fresh offset table
`noffs` and tag table `tags`, producing arrays `oI`, `oO`, `oT`. -/
structure CompressWriteSpec (fe : Nat → Nat) (offs : List (Option Nat))
    (inds : List Nat) (tags : List FeTag) (cell pos : Nat) (acc : List Nat)
    (noffs : List (Option Nat)) (oI : List Nat) (oO : List (Option Nat))
    (oT : List FeTag) : Prop where
  tail : ∃ t, oI = acc ++ t
  len_offs : oO.length = noffs.length
  len_tags : oT.length = tags.length
  frame_offs : ∀ c, c < cell → oO.getD c none = noffs.getD c none
  frame_tags : ∀ c, c < cell → oT.getD c default = tags.getD c default
  tag_desc : ∀ c, cell ≤ c →
      oT.getD c default =
        (if collapses offs inds c then
           get_toggled_compression_state (tags.getD c default)
         else tags.getD c default)
  activity : ∀ c, cell ≤ c → activeAt oO c = activeAt offs c
  canon : canonicalFromB fe oO oI oT cell acc.length = true
  decode : decodeFrom fe oO oI oT cell = inds.drop pos
  blocks : ∀ c, cell ≤ c → activeAt offs c = true →
      cellBlockArr oO oI c =
        (if collapses offs inds c then [inds.getD ((offs.getD c none).getD 0) 0]
         else cellBlockArr offs inds c)
  size : oI.length = acc.length + compressSizeSpecFrom offs inds cell

/-- Joint description of a successful run of `uncompress_write` from `cell`
with write accumulator `acc`, fresh offset table `noffs` and tag table
`tags`, producing arrays `oI`, `oO`, `oT`. -/
structure UncompressWriteSpec (fe : Nat → Nat) (offs : List (Option Nat))
    (inds : List Nat) (tags : List FeTag) (cell : Nat) (acc : List Nat)
    (noffs : List (Option Nat)) (oI : List Nat) (oO : List (Option Nat))
    (oT : List FeTag) : Prop where
  dec : oI = acc ++ decodeFrom fe offs inds tags cell
  len_offs : oO.length = noffs.length
  len_tags : oT.length = tags.length
  frame_offs : ∀ c, c < cell → oO.getD c none = noffs.getD c none
  frame_tags : ∀ c, c < cell → oT.getD c default = tags.getD c default
  tag_desc : ∀ c, cell ≤ c →
      oT.getD c default =
        (if activeAt offs c then normalizeTag (tags.getD c default)
         else tags.getD c default)
  activity : ∀ c, cell ≤ c → activeAt oO c = activeAt offs c
  canon : canonicalFromB fe oO oI oT cell acc.length = true
  blocks : ∀ c, cell ≤ c → activeAt offs c = true →
      cellBlockArr oO oI c =
        (if (tags.getD c default).compressed then
           (List.range (fe (tags.getD c default).variant)).map
             (fun i => inds.getD ((offs.getD c none).getD 0) 0 + i)
         else cellBlockArr offs inds c)

/-- Block-length invariant violation at cell `c` (checked by the
`compress_data` assertions): the cell is active and its stored block length
differs from the catalog block length for its tag's variant. -/
def lengthViolation (fe : Nat → Nat) (offs : List (Option Nat)) (inds : List Nat)
    (tags : List FeTag) (c : Nat) : Prop :=
  ∃ off, offs.getD c none = some off ∧
    nextOffsetVal offs inds c - off ≠ fe (tags.getD c default).variant

/-- Double-compression violation at cell `c` (checked by the
`compress_data` writing phase): the cell's block would be collapsed but its
tag is already marked compressed. -/
def doubleCompressionViolation (offs : List (Option Nat)) (inds : List Nat)
    (tags : List FeTag) (c : Nat) : Prop :=
  collapses offs inds c = true ∧ (tags.getD c default).compressed = true

/-- Invalid catalog lookup during the compress pass at cell `c`: the cell is
active and its raw stored tag still carries the compression bit, so
`fe_collection[active_fe_indices[cell]]` indexes the catalog with an
invalid id and fails fatally at the length assertion. -/
def invalidIndexViolation (offs : List (Option Nat)) (tags : List FeTag)
    (c : Nat) : Prop :=
  ∃ off, offs.getD c none = some off ∧ (tags.getD c default).compressed = true

/-- Block-length violation of a non-compressed cell, as checked by both
passes (by `compress_data` once the raw-tag lookup has succeeded, and by
the plain branch of `uncompress_data`): the cell is active, not marked
compressed, and its stored block length differs from the catalog length
for its variant. -/
def plainLenViolation (fe : Nat → Nat) (offs : List (Option Nat)) (inds : List Nat)
    (tags : List FeTag) (c : Nat) : Prop :=
  ∃ off, offs.getD c none = some off ∧
    (tags.getD c default).compressed = false ∧
    nextOffsetVal offs inds c - off ≠ fe (tags.getD c default).variant

/-- Stored-length violation of a compressed cell, as checked by
`uncompress_data`: the cell is active, marked compressed, and its stored
block length is not exactly 1. -/
def compressedLenViolation (offs : List (Option Nat)) (inds : List Nat)
    (tags : List FeTag) (c : Nat) : Prop :=
  ∃ off, offs.getD c none = some off ∧
    (tags.getD c default).compressed = true ∧
    nextOffsetVal offs inds c - off ≠ 1

/-- Sanity bound on the offset table: every active cell's offset does not
exceed the next active offset, which in turn is within the index array.
(The source indexes `dof_indices` with these bounds unchecked; a level
violating them has undefined behavior in C++.) -/
def offsetsInRangeB (offs : List (Option Nat)) (inds : List Nat) : Bool :=
  (List.range offs.length).all fun c =>
    match offs.getD c none with
    | none => true
    | some off =>
        decide (off ≤ nextOffsetVal offs inds c) &&
          decide (nextOffsetVal offs inds c ≤ inds.length)

/-- Full description of the result of a successful `uncompress_data` pass on
a canonical level `L`. -/
structure UncompressDataSpec (fe : Nat → Nat) (L M : DoFLevel) : Prop where
  len_offs : M.dof_offsets.length = L.dof_offsets.length
  len_tags : M.active_fe_indices.length = L.active_fe_indices.length
  tag_desc : ∀ c, M.active_fe_indices.getD c default =
      (if activeAt L.dof_offsets c then
         normalizeTag (L.active_fe_indices.getD c default)
       else L.active_fe_indices.getD c default)
  activity : ∀ c, activeAt M.dof_offsets c = activeAt L.dof_offsets c
  canon : canonicalFromB fe M.dof_offsets M.dof_indices M.active_fe_indices 0 0 = true
  inds_eq : M.dof_indices =
      decodeFrom fe L.dof_offsets L.dof_indices L.active_fe_indices 0
  blocks : ∀ c, activeAt L.dof_offsets c = true →
      M.cellBlock c =
        (if (L.active_fe_indices.getD c default).compressed then
           (List.range (fe (L.active_fe_indices.getD c default).variant)).map
             (fun i => L.dof_indices.getD ((L.dof_offsets.getD c none).getD 0) 0 + i)
         else L.cellBlock c)
  size : M.dof_indices.length = uncompress_size fe L.dof_offsets L.active_fe_indices 0

/-- Full description of the result of a successful `compress_data` pass on a
canonical fully uncompressed level `L`. -/
structure CompressDataSpec (fe : Nat → Nat) (L M : DoFLevel) : Prop where
  len_offs : M.dof_offsets.length = L.dof_offsets.length
  len_tags : M.active_fe_indices.length = L.active_fe_indices.length
  tag_desc : ∀ c, M.active_fe_indices.getD c default =
      (if collapses L.dof_offsets L.dof_indices c then
         get_toggled_compression_state (L.active_fe_indices.getD c default)
       else L.active_fe_indices.getD c default)
  activity : ∀ c, activeAt M.dof_offsets c = activeAt L.dof_offsets c
  canon : canonicalFromB fe M.dof_offsets M.dof_indices M.active_fe_indices 0 0 = true
  decode : decodeFrom fe M.dof_offsets M.dof_indices M.active_fe_indices 0 = L.dof_indices
  blocks : ∀ c, activeAt L.dof_offsets c = true →
      M.cellBlock c =
        (if collapses L.dof_offsets L.dof_indices c then
           [L.dof_indices.getD ((L.dof_offsets.getD c none).getD 0) 0]
         else L.cellBlock c)
  size : M.dof_indices.length = compressSizeSpecFrom L.dof_offsets L.dof_indices 0

/-! ## Basic list utilities -/

theorem getD_of_set_ne {α : Type} (l : List α) (i j : Nat) (v d : α) (h : i ≠ j) :
    (l.set i v).getD j d = l.getD j d := by
  rw [List.getD_eq_getElem?_getD, List.getElem?_set_ne h, ← List.getD_eq_getElem?_getD]

theorem getD_of_set_self {α : Type} (l : List α) (i : Nat) (v d : α)
    (h : i < l.length) : (l.set i v).getD i d = v := by
  rw [List.getD_eq_getElem?_getD, List.getElem?_set_eq_of_lt v h]
  rfl

theorem getD_replicate_none (n c : Nat) :
    (List.replicate n (none : Option Nat)).getD c none = none := by
  rw [List.getD_eq_getElem?_getD]
  rcases lt_or_le c n with h | h
  · rw [List.getElem?_replicate, if_pos h]; rfl
  · rw [List.getElem?_eq_none (by simpa using h)]; rfl

theorem getD_of_drop {α : Type} (l : List α) (i j : Nat) (d : α) :
    (l.drop i).getD j d = l.getD (i + j) d := by
  rw [List.getD_eq_getElem?_getD, List.getElem?_drop, List.getD_eq_getElem?_getD]

/-! ## Facts about the `next_cell` scan -/

theorem skipInactive_le_length (l : List (Option Nat)) :
    skipInactive l ≤ l.length := by
  induction l with
  | nil => simp [skipInactive]
  | cons x rest ih =>
      cases x with
      | none => simp only [skipInactive, List.length_cons]; omega
      | some v => simp [skipInactive]

theorem skipInactive_getD_of_lt (l : List (Option Nat)) (j : Nat)
    (h : j < skipInactive l) : l.getD j none = none := by
  induction l generalizing j with
  | nil => simp [skipInactive] at h
  | cons x rest ih =>
      cases x with
      | none =>
          cases j with
          | zero => rfl
          | succ j =>
              simp only [skipInactive] at h
              exact ih j (by omega)
      | some v => simp [skipInactive] at h

theorem skipInactive_active (l : List (Option Nat))
    (h : skipInactive l < l.length) : (l.getD (skipInactive l) none).isSome := by
  induction l with
  | nil => simp at h
  | cons x rest ih =>
      cases x with
      | none =>
          simp only [skipInactive] at h ⊢
          exact ih (by simpa using Nat.lt_of_succ_lt_succ (by simpa using h))
      | some v => simp [skipInactive]

theorem skipInactive_le_of_active (l : List (Option Nat)) (j : Nat)
    (h : (l.getD j none).isSome) : skipInactive l ≤ j := by
  by_contra hlt
  rw [skipInactive_getD_of_lt l j (by omega)] at h
  simp at h

theorem nextActive_ge (offs : List (Option Nat)) (i : Nat) :
    i ≤ nextActive offs i := Nat.le_add_right i _

theorem nextActive_le_length (offs : List (Option Nat)) (i : Nat)
    (h : i ≤ offs.length) : nextActive offs i ≤ offs.length := by
  have := skipInactive_le_length (offs.drop i)
  simp only [List.length_drop] at this
  simp only [nextActive]
  omega

theorem nextActive_of_ge_length (offs : List (Option Nat)) (i : Nat)
    (h : offs.length ≤ i) : nextActive offs i = i := by
  simp [nextActive, List.drop_eq_nil_of_le h, skipInactive]

theorem nextActive_active (offs : List (Option Nat)) (i : Nat)
    (h : nextActive offs i < offs.length) :
    activeAt offs (nextActive offs i) = true := by
  have hs := skipInactive_active (offs.drop i)
  simp only [nextActive] at h ⊢
  have hlen : skipInactive (offs.drop i) < (offs.drop i).length := by
    simp only [List.length_drop]; omega
  have := hs hlen
  rw [getD_of_drop] at this
  simpa [activeAt] using this

theorem nextActive_between (offs : List (Option Nat)) (i c : Nat)
    (h1 : i ≤ c) (h2 : c < nextActive offs i) : activeAt offs c = false := by
  have : (offs.drop i).getD (c - i) none = none := by
    apply skipInactive_getD_of_lt
    simp only [nextActive] at h2
    omega
  rw [getD_of_drop] at this
  have hc : i + (c - i) = c := by omega
  rw [hc] at this
  unfold activeAt
  rw [this]
  rfl

theorem nextActive_le_of_active (offs : List (Option Nat)) (i c : Nat)
    (h1 : i ≤ c) (h2 : activeAt offs c = true) : nextActive offs i ≤ c := by
  have : skipInactive (offs.drop i) ≤ c - i := by
    apply skipInactive_le_of_active
    rw [getD_of_drop]
    have hc : i + (c - i) = c := by omega
    rw [hc]
    simpa [activeAt] using h2
  simp only [nextActive]
  omega

theorem nextActive_congr (offs1 offs2 : List (Option Nat)) (i : Nat)
    (hl : offs1.length = offs2.length)
    (h : ∀ c, i ≤ c → activeAt offs1 c = activeAt offs2 c) :
    nextActive offs1 i = nextActive offs2 i := by
  rcases le_or_lt offs1.length i with hge | hlt
  · rw [nextActive_of_ge_length _ _ hge, nextActive_of_ge_length _ _ (hl ▸ hge)]
  · have hb1 : nextActive offs1 i ≤ offs1.length := nextActive_le_length _ _ (le_of_lt hlt)
    have hb2 : nextActive offs2 i ≤ offs2.length := nextActive_le_length _ _ (le_of_lt (hl ▸ hlt))
    rcases Nat.lt_trichotomy (nextActive offs1 i) (nextActive offs2 i) with hc | hc | hc
    · exfalso
      have ha : activeAt offs1 (nextActive offs1 i) = true :=
        nextActive_active offs1 i (by omega)
      rw [h _ (nextActive_ge offs1 i)] at ha
      rw [nextActive_between offs2 i _ (nextActive_ge offs1 i) hc] at ha
      exact Bool.noConfusion ha
    · exact hc
    · exfalso
      have ha : activeAt offs2 (nextActive offs2 i) = true :=
        nextActive_active offs2 i (by omega)
      rw [← h _ (nextActive_ge offs2 i)] at ha
      rw [nextActive_between offs1 i _ (nextActive_ge offs2 i) hc] at ha
      exact Bool.noConfusion ha

/-! ## Step equations for the traversals

Each pass walks the cells with the same skeleton: terminal once `cell` runs
off the offset table, step to `cell + 1` over an inactive cell, and a jump
to `nextActive offs (cell + 1)` after processing an active cell.  The
following equations unfold one step of each recursion. -/

theorem compress_size_end (fe : Nat → Nat) (offs : List (Option Nat))
    (inds : List Nat) (tags : List FeTag) (cell : Nat)
    (h : offs.length ≤ cell) :
    compress_size fe offs inds tags cell = .ok 0 := by
  rw [compress_size, dif_neg (Nat.not_lt.mpr h)]

theorem compress_size_inactive (fe : Nat → Nat) (offs : List (Option Nat))
    (inds : List Nat) (tags : List FeTag) (cell : Nat) (h : cell < offs.length)
    (ha : offs.getD cell none = none) :
    compress_size fe offs inds tags cell =
      compress_size fe offs inds tags (cell + 1) := by
  have hg : offs[cell] = none := by rw [← List.getD_eq_getElem offs none h, ha]
  rw [compress_size, dif_pos h]
  simp only [hg]

theorem compress_size_active (fe : Nat → Nat) (offs : List (Option Nat))
    (inds : List Nat) (tags : List FeTag) (cell : Nat) (off : Nat)
    (h : cell < offs.length) (ha : offs.getD cell none = some off) :
    compress_size fe offs inds tags cell =
      (if is_compressed_entry (tags.getD cell default) then
         .error .invalidFeIndex
       else if nextOffsetVal offs inds cell - off ≠ fe (tags.getD cell default).variant then
         .error .blockLengthMismatch
       else
         match compress_size fe offs inds tags (nextActive offs (cell + 1)) with
         | .error e => .error e
         | .ok rest =>
             .ok ((if off < nextOffsetVal offs inds cell then
                     if blockCompressible inds off (nextOffsetVal offs inds cell) then 1
                     else nextOffsetVal offs inds cell - off
                   else 0) + rest)) := by
  have hg : offs[cell] = some off := by rw [← List.getD_eq_getElem offs none h, ha]
  rw [compress_size, dif_pos h]
  simp only [hg]
  rfl

theorem compress_write_end (fe : Nat → Nat) (offs : List (Option Nat))
    (inds : List Nat) (cell : Nat) (new_inds : List Nat)
    (new_offs : List (Option Nat)) (tags : List FeTag)
    (h : offs.length ≤ cell) :
    compress_write fe offs inds cell new_inds new_offs tags =
      .ok (new_inds, new_offs, tags) := by
  rw [compress_write, dif_neg (Nat.not_lt.mpr h)]

theorem compress_write_inactive (fe : Nat → Nat) (offs : List (Option Nat))
    (inds : List Nat) (cell : Nat) (new_inds : List Nat)
    (new_offs : List (Option Nat)) (tags : List FeTag) (h : cell < offs.length)
    (ha : offs.getD cell none = none) :
    compress_write fe offs inds cell new_inds new_offs tags =
      compress_write fe offs inds (cell + 1) new_inds new_offs tags := by
  have hg : offs[cell] = none := by rw [← List.getD_eq_getElem offs none h, ha]
  rw [compress_write, dif_pos h]
  simp only [hg]

theorem compress_write_active (fe : Nat → Nat) (offs : List (Option Nat))
    (inds : List Nat) (cell : Nat) (new_inds : List Nat)
    (new_offs : List (Option Nat)) (tags : List FeTag) (off : Nat)
    (h : cell < offs.length) (ha : offs.getD cell none = some off) :
    compress_write fe offs inds cell new_inds new_offs tags =
      (if is_compressed_entry (tags.getD cell default) then
         .error ⟨.invalidFeIndex, ⟨offs, inds, tags⟩⟩
       else if nextOffsetVal offs inds cell - off ≠ fe (tags.getD cell default).variant then
         .error ⟨.blockLengthMismatch, ⟨offs, inds, tags⟩⟩
       else if off < nextOffsetVal offs inds cell then
         if blockCompressible inds off (nextOffsetVal offs inds cell) then
           if is_compressed_entry (tags.getD cell default) then
             .error ⟨.doubleCompression, ⟨offs, inds, tags⟩⟩
           else
             compress_write fe offs inds (nextActive offs (cell + 1))
               (new_inds ++ [inds.getD off 0])
               (new_offs.set cell (some new_inds.length))
               (tags.set cell (get_toggled_compression_state (tags.getD cell default)))
         else
           compress_write fe offs inds (nextActive offs (cell + 1))
             (new_inds ++ blockSlice inds off (nextOffsetVal offs inds cell))
             (new_offs.set cell (some new_inds.length)) tags
       else
         compress_write fe offs inds (nextActive offs (cell + 1)) new_inds
           (new_offs.set cell (some new_inds.length)) tags) := by
  have hg : offs[cell] = some off := by rw [← List.getD_eq_getElem offs none h, ha]
  rw [compress_write, dif_pos h]
  simp only [hg]
  rfl

theorem uncompress_size_end (fe : Nat → Nat) (offs : List (Option Nat))
    (tags : List FeTag) (cell : Nat) (h : offs.length ≤ cell) :
    uncompress_size fe offs tags cell = 0 := by
  rw [uncompress_size, dif_neg (Nat.not_lt.mpr h)]

theorem uncompress_size_inactive (fe : Nat → Nat) (offs : List (Option Nat))
    (tags : List FeTag) (cell : Nat) (h : cell < offs.length)
    (ha : offs.getD cell none = none) :
    uncompress_size fe offs tags cell = uncompress_size fe offs tags (cell + 1) := by
  have hg : offs[cell] = none := by rw [← List.getD_eq_getElem offs none h, ha]
  rw [uncompress_size, dif_pos h]
  simp only [hg, Nat.zero_add]

theorem uncompress_size_active (fe : Nat → Nat) (offs : List (Option Nat))
    (tags : List FeTag) (cell : Nat) (off : Nat) (h : cell < offs.length)
    (ha : offs.getD cell none = some off) :
    uncompress_size fe offs tags cell =
      fe (tags.getD cell default).variant + uncompress_size fe offs tags (cell + 1) := by
  have hg : offs[cell] = some off := by rw [← List.getD_eq_getElem offs none h, ha]
  rw [uncompress_size, dif_pos h]
  simp only [hg]

theorem uncompress_write_end (fe : Nat → Nat) (offs : List (Option Nat))
    (inds : List Nat) (cell : Nat) (new_inds : List Nat)
    (new_offs : List (Option Nat)) (tags : List FeTag)
    (h : offs.length ≤ cell) :
    uncompress_write fe offs inds cell new_inds new_offs tags =
      .ok (new_inds, new_offs, tags) := by
  rw [uncompress_write, dif_neg (Nat.not_lt.mpr h)]

theorem uncompress_write_inactive (fe : Nat → Nat) (offs : List (Option Nat))
    (inds : List Nat) (cell : Nat) (new_inds : List Nat)
    (new_offs : List (Option Nat)) (tags : List FeTag) (h : cell < offs.length)
    (ha : offs.getD cell none = none) :
    uncompress_write fe offs inds cell new_inds new_offs tags =
      uncompress_write fe offs inds (cell + 1) new_inds new_offs tags := by
  have hg : offs[cell] = none := by rw [← List.getD_eq_getElem offs none h, ha]
  rw [uncompress_write, dif_pos h]
  simp only [hg]

theorem uncompress_write_active (fe : Nat → Nat) (offs : List (Option Nat))
    (inds : List Nat) (cell : Nat) (new_inds : List Nat)
    (new_offs : List (Option Nat)) (tags : List FeTag) (off : Nat)
    (h : cell < offs.length) (ha : offs.getD cell none = some off) :
    uncompress_write fe offs inds cell new_inds new_offs tags =
      (if is_compressed_entry (tags.getD cell default) = false then
         if nextOffsetVal offs inds cell - off ≠ fe (tags.getD cell default).variant then
           .error ⟨.blockLengthMismatch, ⟨offs, inds, tags⟩⟩
         else
           uncompress_write fe offs inds (nextActive offs (cell + 1))
             (new_inds ++ blockSlice inds off (nextOffsetVal offs inds cell))
             (new_offs.set cell (some new_inds.length)) tags
       else
         if nextOffsetVal offs inds cell - off ≠ 1 then
           .error ⟨.compressedLengthNotOne, ⟨offs, inds, tags⟩⟩
         else
           uncompress_write fe offs inds (nextActive offs (cell + 1))
             (new_inds ++
               (List.range (fe (get_toggled_compression_state (tags.getD cell default)).variant)).map
                 (fun i => inds.getD off 0 + i))
             (new_offs.set cell (some new_inds.length))
             (tags.set cell (get_toggled_compression_state (tags.getD cell default)))) := by
  have hg : offs[cell] = some off := by rw [← List.getD_eq_getElem offs none h, ha]
  rw [uncompress_write, dif_pos h]
  simp only [hg]
  rfl

theorem canonicalFromB_end (fe : Nat → Nat) (offs : List (Option Nat))
    (inds : List Nat) (tags : List FeTag) (cell pos : Nat)
    (h : offs.length ≤ cell) :
    canonicalFromB fe offs inds tags cell pos = (pos == inds.length) := by
  rw [canonicalFromB, dif_neg (Nat.not_lt.mpr h)]

theorem canonicalFromB_inactive (fe : Nat → Nat) (offs : List (Option Nat))
    (inds : List Nat) (tags : List FeTag) (cell pos : Nat)
    (h : cell < offs.length) (ha : offs.getD cell none = none) :
    canonicalFromB fe offs inds tags cell pos =
      canonicalFromB fe offs inds tags (cell + 1) pos := by
  have hg : offs[cell] = none := by rw [← List.getD_eq_getElem offs none h, ha]
  rw [canonicalFromB, dif_pos h]
  simp only [hg]

theorem canonicalFromB_active (fe : Nat → Nat) (offs : List (Option Nat))
    (inds : List Nat) (tags : List FeTag) (cell pos : Nat) (off : Nat)
    (h : cell < offs.length) (ha : offs.getD cell none = some off) :
    canonicalFromB fe offs inds tags cell pos =
      ((off == pos) &&
        canonicalFromB fe offs inds tags (nextActive offs (cell + 1))
          (pos + storedLen fe (tags.getD cell default))) := by
  have hg : offs[cell] = some off := by rw [← List.getD_eq_getElem offs none h, ha]
  rw [canonicalFromB, dif_pos h]
  simp only [hg]

theorem decodeFrom_end (fe : Nat → Nat) (offs : List (Option Nat))
    (inds : List Nat) (tags : List FeTag) (cell : Nat)
    (h : offs.length ≤ cell) :
    decodeFrom fe offs inds tags cell = [] := by
  rw [decodeFrom, dif_neg (Nat.not_lt.mpr h)]

theorem decodeFrom_inactive (fe : Nat → Nat) (offs : List (Option Nat))
    (inds : List Nat) (tags : List FeTag) (cell : Nat)
    (h : cell < offs.length) (ha : offs.getD cell none = none) :
    decodeFrom fe offs inds tags cell = decodeFrom fe offs inds tags (cell + 1) := by
  have hg : offs[cell] = none := by rw [← List.getD_eq_getElem offs none h, ha]
  rw [decodeFrom, dif_pos h]
  simp only [hg]

theorem decodeFrom_active (fe : Nat → Nat) (offs : List (Option Nat))
    (inds : List Nat) (tags : List FeTag) (cell : Nat) (off : Nat)
    (h : cell < offs.length) (ha : offs.getD cell none = some off) :
    decodeFrom fe offs inds tags cell =
      (if (tags.getD cell default).compressed then
         (List.range (fe (tags.getD cell default).variant)).map
           (fun i => inds.getD off 0 + i)
       else blockSlice inds off (nextOffsetVal offs inds cell)) ++
        decodeFrom fe offs inds tags (nextActive offs (cell + 1)) := by
  have hg : offs[cell] = some off := by rw [← List.getD_eq_getElem offs none h, ha]
  rw [decodeFrom, dif_pos h]
  simp only [hg, nextOffsetVal]

/-! ## The compressibility test describes an arithmetic run -/

theorem runCheck_step (inds : List Nat) (j noff : Nat) (h : j < noff) :
    runCheck inds j noff =
      ((inds.getD j 0 == inds.getD (j - 1) 0 + 1) && runCheck inds (j + 1) noff) := by
  rw [runCheck, if_pos h]

theorem runCheck_end (inds : List Nat) (j noff : Nat) (h : noff ≤ j) :
    runCheck inds j noff = true := by
  rw [runCheck, if_neg (Nat.not_lt.mpr h)]

theorem runCheck_getD (inds : List Nat) :
    ∀ j noff, runCheck inds j noff = true →
      ∀ m, j ≤ m → m < noff → inds.getD m 0 = inds.getD (m - 1) 0 + 1 := by
  have main : ∀ k j noff, noff - j ≤ k → runCheck inds j noff = true →
      ∀ m, j ≤ m → m < noff → inds.getD m 0 = inds.getD (m - 1) 0 + 1 := by
    intro k
    induction k with
    | zero => intro j noff hk hc m h1 h2; omega
    | succ k ih =>
        intro j noff hk hc m h1 h2
        have hj : j < noff := by omega
        rw [runCheck_step inds j noff hj] at hc
        simp only [Bool.and_eq_true, beq_iff_eq] at hc
        rcases Nat.eq_or_lt_of_le h1 with rfl | hlt
        · exact hc.1
        · exact ih (j + 1) noff (by omega) hc.2 m (by omega) h2
  intro j noff hc m h1 h2
  exact main (noff - j) j noff le_rfl hc m h1 h2

theorem blockCompressible_getD (inds : List Nat) (off noff : Nat)
    (h : blockCompressible inds off noff = true) (k : Nat) (hk : off + k < noff) :
    inds.getD (off + k) 0 = inds.getD off 0 + k := by
  induction k with
  | zero => simp
  | succ n ih =>
      have hstep := runCheck_getD inds (off + 1) noff h (off + n + 1) (by omega) (by omega)
      have hm : off + n + 1 - 1 = off + n := by omega
      rw [hm] at hstep
      have : off + (n + 1) = off + n + 1 := by omega
      rw [this, hstep, ih (by omega)]
      omega

theorem blockSlice_length (inds : List Nat) (off noff : Nat)
    (hr : noff ≤ inds.length) : (blockSlice inds off noff).length = noff - off := by
  simp only [blockSlice, List.length_take, List.length_drop]
  omega

theorem blockSlice_getD (inds : List Nat) (off noff i : Nat)
    (hi : i < noff - off) :
    (blockSlice inds off noff).getD i 0 = inds.getD (off + i) 0 := by
  rw [List.getD_eq_getElem?_getD, List.getD_eq_getElem?_getD]
  simp only [blockSlice]
  rw [List.getElem?_take_of_lt hi, List.getElem?_drop]

theorem blockCompressible_slice (inds : List Nat) (off noff : Nat)
    (hc : blockCompressible inds off noff = true) (hr : noff ≤ inds.length) :
    blockSlice inds off noff =
      (List.range (noff - off)).map (fun i => inds.getD off 0 + i) := by
  apply List.ext_getElem
  · rw [blockSlice_length inds off noff hr]
    simp
  · intro i h1 h2
    rw [blockSlice_length inds off noff hr] at h1
    have hL : (blockSlice inds off noff)[i] = (blockSlice inds off noff).getD i 0 :=
      (List.getD_eq_getElem _ _ (by rw [blockSlice_length inds off noff hr]; omega)).symm
    rw [hL, blockSlice_getD inds off noff i h1]
    rw [List.getElem_map, List.getElem_range]
    exact blockCompressible_getD inds off noff hc i (by omega)

theorem blockSlice_of_append (acc rest : List Nat) (n : Nat) :
    blockSlice (acc ++ rest) acc.length (acc.length + n) = rest.take n := by
  simp only [blockSlice, List.drop_left]
  congr 1
  omega

theorem blockSlice_self (inds : List Nat) (a : Nat) : blockSlice inds a a = [] := by
  simp [blockSlice]

/-! ## Structural facts about canonical layouts -/

theorem canonicalFromB_pos_le (fe : Nat → Nat) (offs : List (Option Nat))
    (inds : List Nat) (tags : List FeTag) :
    ∀ cell pos, canonicalFromB fe offs inds tags cell pos = true →
      pos ≤ inds.length := by
  have main : ∀ k cell pos, offs.length - cell ≤ k →
      canonicalFromB fe offs inds tags cell pos = true → pos ≤ inds.length := by
    intro k
    induction k with
    | zero =>
        intro cell pos hk hc
        rw [canonicalFromB_end fe offs inds tags cell pos (by omega)] at hc
        simp only [beq_iff_eq] at hc
        omega
    | succ k ih =>
        intro cell pos hk hc
        by_cases h : cell < offs.length
        · cases hoc : offs.getD cell none with
          | none =>
              rw [canonicalFromB_inactive fe offs inds tags cell pos h hoc] at hc
              exact ih (cell + 1) pos (by omega) hc
          | some off =>
              rw [canonicalFromB_active fe offs inds tags cell pos off h hoc] at hc
              simp only [Bool.and_eq_true, beq_iff_eq] at hc
              have hnc := nextActive_ge offs (cell + 1)
              have := ih (nextActive offs (cell + 1)) _ (by omega) hc.2
              omega
        · rw [canonicalFromB_end fe offs inds tags cell pos (by omega)] at hc
          simp only [beq_iff_eq] at hc
          omega
  intro cell pos
  exact main (offs.length - cell) cell pos le_rfl

theorem canonicalFromB_congr_tags (fe : Nat → Nat) (offs : List (Option Nat))
    (inds : List Nat) (tags1 tags2 : List FeTag) :
    ∀ cell pos, (∀ c, cell ≤ c → tags1.getD c default = tags2.getD c default) →
      canonicalFromB fe offs inds tags1 cell pos =
        canonicalFromB fe offs inds tags2 cell pos := by
  have main : ∀ k cell pos, offs.length - cell ≤ k →
      (∀ c, cell ≤ c → tags1.getD c default = tags2.getD c default) →
      canonicalFromB fe offs inds tags1 cell pos =
        canonicalFromB fe offs inds tags2 cell pos := by
    intro k
    induction k with
    | zero =>
        intro cell pos hk ht
        rw [canonicalFromB_end fe offs inds tags1 cell pos (by omega),
          canonicalFromB_end fe offs inds tags2 cell pos (by omega)]
    | succ k ih =>
        intro cell pos hk ht
        by_cases h : cell < offs.length
        · cases hoc : offs.getD cell none with
          | none =>
              rw [canonicalFromB_inactive fe offs inds tags1 cell pos h hoc,
                canonicalFromB_inactive fe offs inds tags2 cell pos h hoc]
              exact ih (cell + 1) pos (by omega) fun c hc => ht c (by omega)
          | some off =>
              rw [canonicalFromB_active fe offs inds tags1 cell pos off h hoc,
                canonicalFromB_active fe offs inds tags2 cell pos off h hoc]
              rw [ht cell le_rfl]
              have hnc := nextActive_ge offs (cell + 1)
              rw [ih (nextActive offs (cell + 1)) _ (by omega)
                fun c hc => ht c (by omega)]
        · rw [canonicalFromB_end fe offs inds tags1 cell pos (by omega),
            canonicalFromB_end fe offs inds tags2 cell pos (by omega)]
  intro cell pos
  exact main (offs.length - cell) cell pos le_rfl

theorem canonicalFromB_block (fe : Nat → Nat) (offs : List (Option Nat))
    (inds : List Nat) (tags : List FeTag) :
    ∀ cell pos, canonicalFromB fe offs inds tags cell pos = true →
      ∀ c, cell ≤ c → ∀ off, offs.getD c none = some off →
        nextOffsetVal offs inds c = off + storedLen fe (tags.getD c default) ∧
          off + storedLen fe (tags.getD c default) ≤ inds.length := by
  have main : ∀ k cell pos, offs.length - cell ≤ k →
      canonicalFromB fe offs inds tags cell pos = true →
      ∀ c, cell ≤ c → ∀ off, offs.getD c none = some off →
        nextOffsetVal offs inds c = off + storedLen fe (tags.getD c default) ∧
          off + storedLen fe (tags.getD c default) ≤ inds.length := by
    intro k
    induction k with
    | zero =>
        intro cell pos hk hc c hcc off hoff
        have hlen : offs.length ≤ c := by omega
        rw [List.getD_eq_default] at hoff
        · exact Option.noConfusion hoff
        · exact hlen
    | succ k ih =>
        intro cell pos hk hc c hcc off hoff
        by_cases h : cell < offs.length
        · cases hoc : offs.getD cell none with
          | none =>
              rw [canonicalFromB_inactive fe offs inds tags cell pos h hoc] at hc
              have hne : cell ≠ c := fun he => by rw [he, hoff] at hoc; exact Option.noConfusion hoc
              exact ih (cell + 1) pos (by omega) hc c (by omega) off hoff
          | some off0 =>
              rw [canonicalFromB_active fe offs inds tags cell pos off0 h hoc] at hc
              simp only [Bool.and_eq_true, beq_iff_eq] at hc
              rcases Nat.eq_or_lt_of_le hcc with rfl | hlt
              · rw [hoff] at hoc
                have hoe : off0 = off := (Option.some.inj hoc).symm
                subst hoe
                have hple := canonicalFromB_pos_le fe offs inds tags _ _ hc.2
                constructor
                · unfold nextOffsetVal
                  by_cases hnc : nextActive offs (cell + 1) < offs.length
                  · have hact := nextActive_active offs (cell + 1) hnc
                    unfold activeAt at hact
                    cases hoc2 : offs.getD (nextActive offs (cell + 1)) none with
                    | none => rw [hoc2] at hact; exact Bool.noConfusion hact
                    | some off2 =>
                        rw [canonicalFromB_active fe offs inds tags _ _ off2 hnc hoc2] at hc
                        have hc2 := hc.2
                        simp only [Bool.and_eq_true, beq_iff_eq] at hc2
                        rw [if_pos hnc]
                        simp only [Option.getD_some]
                        omega
                  · rw [canonicalFromB_end fe offs inds tags _ _ (by omega)] at hc
                    have hc2 := hc.2
                    simp only [beq_iff_eq] at hc2
                    rw [if_neg hnc]
                    omega
                · omega
              · have hact : activeAt offs c = true := by
                  unfold activeAt; rw [hoff]; rfl
                have hle : nextActive offs (cell + 1) ≤ c :=
                  nextActive_le_of_active offs (cell + 1) c (by omega) hact
                have hge := nextActive_ge offs (cell + 1)
                exact ih (nextActive offs (cell + 1)) _ (by omega) hc.2 c hle off hoff
        · have hlen : offs.length ≤ c := by omega
          rw [List.getD_eq_default] at hoff
          · exact Option.noConfusion hoff
          · exact hlen
  intro cell pos
  exact main (offs.length - cell) cell pos le_rfl

/-! ## Helpers for the write-phase descriptions -/

theorem getD_append_at {α : Type} (a b : List α) (d : α) :
    (a ++ b).getD a.length d = b.getD 0 d := by
  rw [List.getD_append_right a b d a.length le_rfl, Nat.sub_self]

theorem blockSlice_append_drop (inds : List Nat) (pos n : Nat) :
    blockSlice inds pos (pos + n) ++ inds.drop (pos + n) = inds.drop pos := by
  have h1 : blockSlice inds pos (pos + n) = (inds.drop pos).take n := by
    simp only [blockSlice, Nat.add_sub_cancel_left]
  have h2 : inds.drop (pos + n) = (inds.drop pos).drop n := by
    rw [List.drop_drop, Nat.add_comm]
  rw [h1, h2, List.take_append_drop]

theorem collapses_of_inactive (offs : List (Option Nat)) (inds : List Nat)
    (c : Nat) (h : activeAt offs c = false) : collapses offs inds c = false := by
  unfold activeAt at h
  unfold collapses
  cases hoc : offs.getD c none with
  | none => rfl
  | some off => rw [hoc] at h; exact Bool.noConfusion h

theorem collapses_active (offs : List (Option Nat)) (inds : List Nat)
    (c off : Nat) (h : offs.getD c none = some off) :
    collapses offs inds c =
      (decide (off < nextOffsetVal offs inds c) &&
        blockCompressible inds off (nextOffsetVal offs inds c)) := by
  unfold collapses
  rw [h]

theorem compressSizeSpecFrom_end (offs : List (Option Nat)) (inds : List Nat)
    (cell : Nat) (h : offs.length ≤ cell) :
    compressSizeSpecFrom offs inds cell = 0 := by
  rw [compressSizeSpecFrom, if_neg (Nat.not_lt.mpr h)]

theorem compressSizeSpecFrom_inactive (offs : List (Option Nat)) (inds : List Nat)
    (cell : Nat) (h : cell < offs.length) (ha : offs.getD cell none = none) :
    compressSizeSpecFrom offs inds cell = compressSizeSpecFrom offs inds (cell + 1) := by
  rw [compressSizeSpecFrom, if_pos h, ha]
  simp

theorem compressSizeSpecFrom_active (offs : List (Option Nat)) (inds : List Nat)
    (cell off : Nat) (h : cell < offs.length) (ha : offs.getD cell none = some off) :
    compressSizeSpecFrom offs inds cell =
      (if collapses offs inds cell then 1 else nextOffsetVal offs inds cell - off) +
        compressSizeSpecFrom offs inds (cell + 1) := by
  rw [compressSizeSpecFrom, if_pos h, ha]

theorem compressSizeSpecFrom_skip (offs : List (Option Nat)) (inds : List Nat) :
    ∀ i m, i ≤ m → (∀ c, i ≤ c → c < m → activeAt offs c = false) →
      compressSizeSpecFrom offs inds i = compressSizeSpecFrom offs inds m := by
  have main : ∀ k i m, m - i ≤ k → i ≤ m →
      (∀ c, i ≤ c → c < m → activeAt offs c = false) →
      compressSizeSpecFrom offs inds i = compressSizeSpecFrom offs inds m := by
    intro k
    induction k with
    | zero =>
        intro i m hk hi _
        have : i = m := by omega
        rw [this]
    | succ k ih =>
        intro i m hk hi hin
        rcases Nat.eq_or_lt_of_le hi with rfl | hlt
        · rfl
        · by_cases h : i < offs.length
          · have hia : activeAt offs i = false := hin i le_rfl hlt
            unfold activeAt at hia
            have hoc : offs.getD i none = none := by
              cases hoc : offs.getD i none with
              | none => rfl
              | some v => rw [hoc] at hia; exact Bool.noConfusion hia
            rw [compressSizeSpecFrom_inactive offs inds i h hoc]
            exact ih (i + 1) m (by omega) (by omega) fun c h1 h2 => hin c (by omega) h2
          · rw [compressSizeSpecFrom_end offs inds i (by omega),
              compressSizeSpecFrom_end offs inds m (by omega)]
  intro i m hi hin
  exact main (m - i) i m le_rfl hi hin

/-! ## The writing phase of `compress_data` on a canonical uncompressed level -/

theorem activeAt_of_getD_none {offs : List (Option Nat)} {c : Nat}
    (h : offs.getD c none = none) : activeAt offs c = false := by
  unfold activeAt
  rw [h]
  rfl

theorem activeAt_of_getD_some {offs : List (Option Nat)} {c v : Nat}
    (h : offs.getD c none = some v) : activeAt offs c = true := by
  unfold activeAt
  rw [h]
  rfl

theorem getD_none_of_inactive {offs : List (Option Nat)} {c : Nat}
    (h : activeAt offs c = false) : offs.getD c none = none := by
  unfold activeAt at h
  cases hoc : offs.getD c none with
  | none => rfl
  | some v => rw [hoc] at h; exact Bool.noConfusion h

theorem cellBlockArr_some (offs : List (Option Nat)) (inds : List Nat)
    (c off : Nat) (h : offs.getD c none = some off) :
    cellBlockArr offs inds c = blockSlice inds off (nextOffsetVal offs inds c) := by
  unfold cellBlockArr
  rw [h]

theorem cellBlockArr_none (offs : List (Option Nat)) (inds : List Nat)
    (c : Nat) (h : offs.getD c none = none) : cellBlockArr offs inds c = [] := by
  unfold cellBlockArr
  rw [h]

theorem compress_write_ok (fe : Nat → Nat) (offs : List (Option Nat)) (inds : List Nat) :
    ∀ cell pos acc noffs tags,
      canonicalFromB fe offs inds tags cell pos = true →
      uncompressedFrom tags cell →
      (∀ c, cell ≤ c → noffs.getD c none = none) →
      noffs.length = offs.length →
      tags.length = offs.length →
      ∃ oI oO oT,
        compress_write fe offs inds cell acc noffs tags = .ok (oI, oO, oT) ∧
          CompressWriteSpec fe offs inds tags cell pos acc noffs oI oO oT := by
  have base : ∀ cell pos acc noffs tags, offs.length ≤ cell →
      canonicalFromB fe offs inds tags cell pos = true →
      (∀ c, cell ≤ c → noffs.getD c none = none) →
      noffs.length = offs.length →
      ∃ oI oO oT,
        compress_write fe offs inds cell acc noffs tags = .ok (oI, oO, oT) ∧
          CompressWriteSpec fe offs inds tags cell pos acc noffs oI oO oT := by
    intro cell pos acc noffs tags hcl hcan hsent hnl
    have hpos : pos = inds.length := by
      rw [canonicalFromB_end fe offs inds tags cell pos hcl] at hcan
      simpa using hcan
    refine ⟨acc, noffs, tags,
      compress_write_end fe offs inds cell acc noffs tags hcl, ?_⟩
    have hinact : ∀ c, cell ≤ c → activeAt offs c = false := fun c hc =>
      activeAt_of_getD_none (List.getD_eq_default offs none (by omega))
    exact
      { tail := ⟨[], (List.append_nil acc).symm⟩
        len_offs := rfl
        len_tags := rfl
        frame_offs := fun c _ => rfl
        frame_tags := fun c _ => rfl
        tag_desc := fun c hc => by
          rw [collapses_of_inactive offs inds c (hinact c hc)]
          simp
        activity := fun c hc => by
          rw [activeAt_of_getD_none (hsent c hc), hinact c hc]
        canon := by
          rw [canonicalFromB_end fe noffs acc tags cell acc.length (by omega)]
          exact beq_self_eq_true acc.length
        decode := by
          rw [decodeFrom_end fe noffs acc tags cell (by omega), hpos,
            List.drop_length]
        blocks := fun c hc hact => absurd hact (by rw [hinact c hc]; simp)
        size := by
          rw [compressSizeSpecFrom_end offs inds cell hcl]
          omega }

  have main : ∀ k cell pos acc noffs tags, offs.length - cell ≤ k →
      canonicalFromB fe offs inds tags cell pos = true →
      uncompressedFrom tags cell →
      (∀ c, cell ≤ c → noffs.getD c none = none) →
      noffs.length = offs.length →
      tags.length = offs.length →
      ∃ oI oO oT,
        compress_write fe offs inds cell acc noffs tags = .ok (oI, oO, oT) ∧
          CompressWriteSpec fe offs inds tags cell pos acc noffs oI oO oT := by
    intro k
    induction k with
    | zero =>
        intro cell pos acc noffs tags hk hcan hunc hsent hnl htl
        exact base cell pos acc noffs tags (by omega) hcan hsent hnl
    | succ k ih =>
        intro cell pos acc noffs tags hk hcan hunc hsent hnl htl
        by_cases h : cell < offs.length
        · cases hoc : offs.getD cell none with
          | none =>
              rw [canonicalFromB_inactive fe offs inds tags cell pos h hoc] at hcan
              obtain ⟨oI, oO, oT, hw, hs⟩ :=
                ih (cell + 1) pos acc noffs tags (by omega) hcan
                  (fun c hc => hunc c (by omega)) (fun c hc => hsent c (by omega))
                  hnl htl
              refine ⟨oI, oO, oT, ?_, ?_⟩
              · rw [compress_write_inactive fe offs inds cell acc noffs tags h hoc]
                exact hw
              · have hoOcell : oO.getD cell none = none := by
                  rw [hs.frame_offs cell (by omega)]
                  exact hsent cell le_rfl
                exact
                  { tail := hs.tail
                    len_offs := hs.len_offs
                    len_tags := hs.len_tags
                    frame_offs := fun c hc => hs.frame_offs c (by omega)
                    frame_tags := fun c hc => hs.frame_tags c (by omega)
                    tag_desc := fun c hc => by
                      rcases Nat.eq_or_lt_of_le hc with rfl | hlt
                      · rw [hs.frame_tags cell (by omega),
                          collapses_of_inactive offs inds cell (activeAt_of_getD_none hoc)]
                        simp
                      · exact hs.tag_desc c (by omega)
                    activity := fun c hc => by
                      rcases Nat.eq_or_lt_of_le hc with rfl | hlt
                      · rw [activeAt_of_getD_none hoOcell, activeAt_of_getD_none hoc]
                      · exact hs.activity c (by omega)
                    canon := by
                      rw [canonicalFromB_inactive fe oO oI oT cell acc.length
                        (by rw [hs.len_offs, hnl]; exact h) hoOcell]
                      exact hs.canon
                    decode := by
                      rw [decodeFrom_inactive fe oO oI oT cell
                        (by rw [hs.len_offs, hnl]; exact h) hoOcell]
                      exact hs.decode
                    blocks := fun c hc hact => by
                      rcases Nat.eq_or_lt_of_le hc with rfl | hlt
                      · rw [activeAt_of_getD_none hoc] at hact
                        exact Bool.noConfusion hact
                      · exact hs.blocks c (by omega) hact
                    size := by
                      rw [compressSizeSpecFrom_inactive offs inds cell h hoc]
                      exact hs.size }
          | some off =>
              rw [canonicalFromB_active fe offs inds tags cell pos off h hoc] at hcan
              rw [Bool.and_eq_true, beq_iff_eq] at hcan
              obtain ⟨hpos, hcan2⟩ := hcan
              subst hpos
              have huncc : (tags.getD cell default).compressed = false :=
                hunc cell le_rfl
              have hsl : storedLen fe (tags.getD cell default) =
                  fe (tags.getD cell default).variant := by
                unfold storedLen
                rw [huncc]
                simp
              obtain ⟨hnoffv, hbound⟩ :=
                canonicalFromB_block fe offs inds tags cell off
                  (by rw [canonicalFromB_active fe offs inds tags cell off off h hoc,
                        Bool.and_eq_true, beq_iff_eq]
                      exact ⟨rfl, hcan2⟩)
                  cell le_rfl off hoc
              rw [hsl] at hnoffv hbound
              rw [hsl] at hcan2
              set fev := fe (tags.getD cell default).variant with hfev
              set nc := nextActive offs (cell + 1) with hnc
              have hnc_ge : cell + 1 ≤ nc := nextActive_ge offs (cell + 1)
              have hnc_le : nc ≤ offs.length := nextActive_le_length offs (cell + 1) (by omega)
              have hbetween : ∀ c, cell + 1 ≤ c → c < nc → activeAt offs c = false :=
                fun c h1 h2 => nextActive_between offs (cell + 1) c h1 h2
              have hskip : compressSizeSpecFrom offs inds (cell + 1) =
                  compressSizeSpecFrom offs inds nc :=
                compressSizeSpecFrom_skip offs inds (cell + 1) nc hnc_ge hbetween
              have hlencheck : ¬ (nextOffsetVal offs inds cell - off ≠ fev) := by
                rw [hnoffv]; omega
              have hnoffs2_len : (noffs.set cell (some acc.length)).length = offs.length := by
                rw [List.length_set]; exact hnl
              have hnoffs2_cell :
                  (noffs.set cell (some acc.length)).getD cell none = some acc.length :=
                getD_of_set_self noffs cell (some acc.length) none (by omega)
              have hnoffs2_ne : ∀ c, c ≠ cell →
                  (noffs.set cell (some acc.length)).getD c none = noffs.getD c none :=
                fun c hcne => getD_of_set_ne noffs cell c (some acc.length) none
                  (fun he => hcne he.symm)
              have hsent2 : ∀ c, nc ≤ c →
                  (noffs.set cell (some acc.length)).getD c none = none := fun c hc => by
                rw [hnoffs2_ne c (by omega)]
                exact hsent c (by omega)
              by_cases hfe : off < nextOffsetVal offs inds cell
              · by_cases hbc : blockCompressible inds off (nextOffsetVal offs inds cell) = true
                · -- compressible non-empty block: collapse and toggle
                  set tags2 := tags.set cell
                    (get_toggled_compression_state (tags.getD cell default)) with htags2
                  have htags2_ne : ∀ c, c ≠ cell →
                      tags2.getD c default = tags.getD c default :=
                    fun c hcne => getD_of_set_ne tags cell c _ default
                      (fun he => hcne he.symm)
                  have htags2_cell : tags2.getD cell default =
                      get_toggled_compression_state (tags.getD cell default) :=
                    getD_of_set_self tags cell _ default (by omega)
                  have hcan2' : canonicalFromB fe offs inds tags2 nc (off + fev) = true := by
                    rw [← canonicalFromB_congr_tags fe offs inds tags tags2 nc (off + fev)
                      (fun c hc => (htags2_ne c (by omega)).symm)]
                    exact hcan2
                  obtain ⟨oI, oO, oT, hw, hs⟩ :=
                    ih nc (off + fev) (acc ++ [inds.getD off 0])
                      (noffs.set cell (some acc.length)) tags2 (by omega) hcan2'
                      (fun c hc => by rw [htags2_ne c (by omega)]; exact hunc c (by omega))
                      hsent2 hnoffs2_len (by rw [htags2, List.length_set]; exact htl)
                  have hcollapse : collapses offs inds cell = true := by
                    rw [collapses_active offs inds cell off hoc, hbc,
                      Bool.and_true, decide_eq_true_eq]
                    exact hfe
                  have hoO_cell : oO.getD cell none = some acc.length := by
                    rw [hs.frame_offs cell (by omega)]
                    exact hnoffs2_cell
                  have hoT_cell : oT.getD cell default =
                      get_toggled_compression_state (tags.getD cell default) := by
                    rw [hs.frame_tags cell (by omega)]
                    exact htags2_cell
                  have hact_all : ∀ c, cell ≤ c → activeAt oO c = activeAt offs c := by
                    intro c hc
                    rcases Nat.eq_or_lt_of_le hc with rfl | hlt
                    · rw [activeAt_of_getD_some hoO_cell, activeAt_of_getD_some hoc]
                    · rcases Nat.lt_or_ge c nc with hcnc | hcnc
                      · have : oO.getD c none = none := by
                          rw [hs.frame_offs c hcnc, hnoffs2_ne c (by omega)]
                          exact hsent c (by omega)
                        rw [activeAt_of_getD_none this, hbetween c (by omega) hcnc]
                      · exact hs.activity c hcnc
                  have hnext_oO : nextActive oO (cell + 1) = nc := by
                    rw [nextActive_congr oO offs (cell + 1)
                      (by rw [hs.len_offs, hnoffs2_len])
                      (fun c hc => hact_all c (by omega))]
                  obtain ⟨t, ht⟩ := hs.tail
                  have hoI : oI = acc ++ ([inds.getD off 0] ++ t) := by
                    rw [ht, List.append_assoc]
                  have hcanon : canonicalFromB fe oO oI oT cell acc.length = true := by
                    rw [canonicalFromB_active fe oO oI oT cell acc.length acc.length
                      (by rw [hs.len_offs, hnoffs2_len]; exact h) hoO_cell]
                    rw [Bool.and_eq_true, beq_iff_eq]
                    refine ⟨rfl, ?_⟩
                    rw [hnext_oO, hoT_cell]
                    have : storedLen fe (get_toggled_compression_state
                        (tags.getD cell default)) = 1 := by
                      unfold storedLen get_toggled_compression_state
                      rw [huncc]
                      simp
                    rw [this]
                    have hlen2 : (acc ++ [inds.getD off 0]).length = acc.length + 1 := by
                      simp
                    rw [← hlen2]
                    exact hs.canon
                  refine ⟨oI, oO, oT, ?_, ?_⟩
                  · rw [compress_write_active fe offs inds cell acc noffs tags off h hoc,
                      if_neg hlencheck, if_pos hfe, if_pos hbc]
                    rw [if_neg (show ¬ is_compressed_entry (tags.getD cell default) = true from fun hbad => Bool.noConfusion (huncc.symm.trans hbad))]
                    rw [if_neg (show ¬ is_compressed_entry (tags.getD cell default) = true from fun hbad => Bool.noConfusion (huncc.symm.trans hbad))]
                    exact hw
                  · refine
                      { tail := ⟨[inds.getD off 0] ++ t, hoI⟩
                        len_offs := by rw [hs.len_offs, List.length_set]
                        len_tags := by rw [hs.len_tags, htags2, List.length_set]
                        frame_offs := fun c hc => by
                          rw [hs.frame_offs c (by omega), hnoffs2_ne c (by omega)]
                        frame_tags := fun c hc => by
                          rw [hs.frame_tags c (by omega), htags2_ne c (by omega)]
                        tag_desc := fun c hc => ?_
                        activity := hact_all
                        canon := hcanon
                        decode := ?_
                        blocks := fun c hc hact => ?_
                        size := ?_ }
                    · -- tag_desc
                      rcases Nat.eq_or_lt_of_le hc with rfl | hlt
                      · rw [hoT_cell, hcollapse]
                        simp
                      · rcases Nat.lt_or_ge c nc with hcnc | hcnc
                        · rw [hs.frame_tags c hcnc, htags2_ne c (by omega),
                            collapses_of_inactive offs inds c (hbetween c (by omega) hcnc)]
                          simp
                        · rw [hs.tag_desc c hcnc, htags2_ne c (by omega)]
                    · -- decode
                      rw [decodeFrom_active fe oO oI oT cell acc.length
                        (by rw [hs.len_offs, hnoffs2_len]; exact h) hoO_cell]
                      rw [hnext_oO, hs.decode]
                      have hcomp2 : (oT.getD cell default).compressed = true := by
                        rw [hoT_cell]
                        unfold get_toggled_compression_state
                        rw [huncc]
                        rfl
                      rw [hcomp2]
                      simp only [if_true]
                      have hvar : (oT.getD cell default).variant =
                          (tags.getD cell default).variant := by
                        rw [hoT_cell]
                        rfl
                      have hgv : oI.getD acc.length 0 = inds.getD off 0 := by
                        rw [hoI, getD_append_at]
                        rfl
                      rw [hvar, hgv, ← hfev]
                      have hslice := blockCompressible_slice inds off
                        (nextOffsetVal offs inds cell) hbc (by rw [hnoffv]; exact hbound)
                      rw [hnoffv] at hslice
                      have : (nextOffsetVal offs inds cell) = off + fev := hnoffv
                      rw [show off + fev - off = fev by omega] at hslice
                      rw [← hslice]
                      exact blockSlice_append_drop inds off fev
                    · -- blocks
                      rcases Nat.eq_or_lt_of_le hc with rfl | hlt
                      · obtain ⟨hno2, _⟩ :=
                          canonicalFromB_block fe oO oI oT cell acc.length hcanon cell le_rfl
                            acc.length hoO_cell
                        have hst1 : storedLen fe (get_toggled_compression_state
                            (tags.getD cell default)) = 1 := by
                          unfold storedLen get_toggled_compression_state
                          rw [huncc]
                          simp
                        rw [cellBlockArr_some oO oI cell acc.length hoO_cell, hno2,
                          hoT_cell, hst1, hoI,
                          blockSlice_of_append acc ([inds.getD off 0] ++ t) 1,
                          hcollapse, hoc]
                        simp
                      · rcases Nat.lt_or_ge c nc with hcnc | hcnc
                        · rw [hbetween c (by omega) hcnc] at hact
                          exact Bool.noConfusion hact
                        · rw [hs.blocks c hcnc hact]
                    · -- size
                      rw [compressSizeSpecFrom_active offs inds cell off h hoc, hcollapse,
                        if_pos rfl, hskip, hs.size]
                      simp
                      omega
                · -- non-compressible non-empty block: verbatim copy
                  have hbcf : blockCompressible inds off (nextOffsetVal offs inds cell) = false := by
                    revert hbc
                    cases blockCompressible inds off (nextOffsetVal offs inds cell) <;> simp
                  set blk := blockSlice inds off (nextOffsetVal offs inds cell) with hblk
                  have hblk_len : blk.length = fev := by
                    rw [hblk, blockSlice_length inds off _ (by rw [hnoffv]; exact hbound),
                      hnoffv]
                    omega
                  obtain ⟨oI, oO, oT, hw, hs⟩ :=
                    ih nc (off + fev) (acc ++ blk)
                      (noffs.set cell (some acc.length)) tags (by omega) hcan2
                      (fun c hc => hunc c (by omega))
                      hsent2 hnoffs2_len htl
                  have hcollapse : collapses offs inds cell = false := by
                    rw [collapses_active offs inds cell off hoc, hbcf, Bool.and_false]
                  have hoO_cell : oO.getD cell none = some acc.length := by
                    rw [hs.frame_offs cell (by omega)]
                    exact hnoffs2_cell
                  have hoT_cell : oT.getD cell default = tags.getD cell default :=
                    hs.frame_tags cell (by omega)
                  have hact_all : ∀ c, cell ≤ c → activeAt oO c = activeAt offs c := by
                    intro c hc
                    rcases Nat.eq_or_lt_of_le hc with rfl | hlt
                    · rw [activeAt_of_getD_some hoO_cell, activeAt_of_getD_some hoc]
                    · rcases Nat.lt_or_ge c nc with hcnc | hcnc
                      · have : oO.getD c none = none := by
                          rw [hs.frame_offs c hcnc, hnoffs2_ne c (by omega)]
                          exact hsent c (by omega)
                        rw [activeAt_of_getD_none this, hbetween c (by omega) hcnc]
                      · exact hs.activity c hcnc
                  have hnext_oO : nextActive oO (cell + 1) = nc := by
                    rw [nextActive_congr oO offs (cell + 1)
                      (by rw [hs.len_offs, hnoffs2_len])
                      (fun c hc => hact_all c (by omega))]
                  obtain ⟨t, ht⟩ := hs.tail
                  have hoI : oI = acc ++ (blk ++ t) := by
                    rw [ht, List.append_assoc]
                  have hlenacc : (acc ++ blk).length = acc.length + fev := by
                    rw [List.length_append, hblk_len]
                  have hcanon : canonicalFromB fe oO oI oT cell acc.length = true := by
                    rw [canonicalFromB_active fe oO oI oT cell acc.length acc.length
                      (by rw [hs.len_offs, hnoffs2_len]; exact h) hoO_cell]
                    rw [Bool.and_eq_true, beq_iff_eq]
                    refine ⟨rfl, ?_⟩
                    rw [hnext_oO, hoT_cell, hsl, ← hlenacc]
                    exact hs.canon
                  have hslice_oI : blockSlice oI acc.length (acc.length + fev) = blk := by
                    rw [hoI, blockSlice_of_append acc (blk ++ t) fev, ← hblk_len,
                      List.take_left]
                  refine ⟨oI, oO, oT, ?_, ?_⟩
                  · rw [compress_write_active fe offs inds cell acc noffs tags off h hoc,
                      if_neg (show ¬ is_compressed_entry (tags.getD cell default) = true from fun hbad => Bool.noConfusion (huncc.symm.trans hbad)),
                      if_neg hlencheck, if_pos hfe, if_neg hbc]
                    exact hw
                  · refine
                      { tail := ⟨blk ++ t, hoI⟩
                        len_offs := by rw [hs.len_offs, List.length_set]
                        len_tags := hs.len_tags
                        frame_offs := fun c hc => by
                          rw [hs.frame_offs c (by omega), hnoffs2_ne c (by omega)]
                        frame_tags := fun c hc => hs.frame_tags c (by omega)
                        tag_desc := fun c hc => ?_
                        activity := hact_all
                        canon := hcanon
                        decode := ?_
                        blocks := fun c hc hact => ?_
                        size := ?_ }
                    · -- tag_desc
                      rcases Nat.eq_or_lt_of_le hc with rfl | hlt
                      · rw [hoT_cell, hcollapse]
                        simp
                      · rcases Nat.lt_or_ge c nc with hcnc | hcnc
                        · rw [hs.frame_tags c hcnc,
                            collapses_of_inactive offs inds c (hbetween c (by omega) hcnc)]
                          simp
                        · exact hs.tag_desc c hcnc
                    · -- decode
                      rw [decodeFrom_active fe oO oI oT cell acc.length
                        (by rw [hs.len_offs, hnoffs2_len]; exact h) hoO_cell]
                      rw [hnext_oO, hs.decode]
                      have hcomp2 : (oT.getD cell default).compressed = false := by
                        rw [hoT_cell]
                        exact huncc
                      rw [hcomp2]
                      simp only [Bool.false_eq_true, if_false]
                      obtain ⟨hno2, _⟩ :=
                        canonicalFromB_block fe oO oI oT cell acc.length hcanon cell le_rfl
                          acc.length hoO_cell
                      rw [hno2, hoT_cell, hsl, hslice_oI, hblk, hnoffv]
                      exact blockSlice_append_drop inds off fev
                    · -- blocks
                      rcases Nat.eq_or_lt_of_le hc with rfl | hlt
                      · obtain ⟨hno2, _⟩ :=
                          canonicalFromB_block fe oO oI oT cell acc.length hcanon cell le_rfl
                            acc.length hoO_cell
                        rw [cellBlockArr_some oO oI cell acc.length hoO_cell, hno2,
                          hoT_cell, hsl, hslice_oI, hcollapse,
                          cellBlockArr_some offs inds cell off hoc]
                        simp [hblk]
                      · rcases Nat.lt_or_ge c nc with hcnc | hcnc
                        · rw [hbetween c (by omega) hcnc] at hact
                          exact Bool.noConfusion hact
                        · rw [hs.blocks c hcnc hact]
                    · -- size
                      rw [compressSizeSpecFrom_active offs inds cell off h hoc, hcollapse,
                        hskip, hnoffv]
                      have := hs.size
                      rw [hlenacc] at this
                      rw [this]
                      simp
                      omega
              · -- empty block: nothing to copy, offset recorded
                have hfev0 : fev = 0 := by
                  rw [hnoffv] at hfe
                  omega
                obtain ⟨oI, oO, oT, hw, hs⟩ :=
                  ih nc (off + fev) acc
                    (noffs.set cell (some acc.length)) tags (by omega) hcan2
                    (fun c hc => hunc c (by omega))
                    hsent2 hnoffs2_len htl
                have hcollapse : collapses offs inds cell = false := by
                  rw [collapses_active offs inds cell off hoc,
                    decide_eq_false hfe, Bool.false_and]
                have hoO_cell : oO.getD cell none = some acc.length := by
                  rw [hs.frame_offs cell (by omega)]
                  exact hnoffs2_cell
                have hoT_cell : oT.getD cell default = tags.getD cell default :=
                  hs.frame_tags cell (by omega)
                have hact_all : ∀ c, cell ≤ c → activeAt oO c = activeAt offs c := by
                  intro c hc
                  rcases Nat.eq_or_lt_of_le hc with rfl | hlt
                  · rw [activeAt_of_getD_some hoO_cell, activeAt_of_getD_some hoc]
                  · rcases Nat.lt_or_ge c nc with hcnc | hcnc
                    · have : oO.getD c none = none := by
                        rw [hs.frame_offs c hcnc, hnoffs2_ne c (by omega)]
                        exact hsent c (by omega)
                      rw [activeAt_of_getD_none this, hbetween c (by omega) hcnc]
                    · exact hs.activity c hcnc
                have hnext_oO : nextActive oO (cell + 1) = nc := by
                  rw [nextActive_congr oO offs (cell + 1)
                    (by rw [hs.len_offs, hnoffs2_len])
                    (fun c hc => hact_all c (by omega))]
                have hcanon : canonicalFromB fe oO oI oT cell acc.length = true := by
                  rw [canonicalFromB_active fe oO oI oT cell acc.length acc.length
                    (by rw [hs.len_offs, hnoffs2_len]; exact h) hoO_cell]
                  rw [Bool.and_eq_true, beq_iff_eq]
                  refine ⟨rfl, ?_⟩
                  rw [hnext_oO, hoT_cell, hsl, hfev0, Nat.add_zero]
                  exact hs.canon
                refine ⟨oI, oO, oT, ?_, ?_⟩
                · rw [compress_write_active fe offs inds cell acc noffs tags off h hoc,
                    if_neg (show ¬ is_compressed_entry (tags.getD cell default) = true from fun hbad => Bool.noConfusion (huncc.symm.trans hbad)),
                    if_neg hlencheck, if_neg hfe]
                  exact hw
                · refine
                    { tail := hs.tail
                      len_offs := by rw [hs.len_offs, List.length_set]
                      len_tags := hs.len_tags
                      frame_offs := fun c hc => by
                        rw [hs.frame_offs c (by omega), hnoffs2_ne c (by omega)]
                      frame_tags := fun c hc => hs.frame_tags c (by omega)
                      tag_desc := fun c hc => ?_
                      activity := hact_all
                      canon := hcanon
                      decode := ?_
                      blocks := fun c hc hact => ?_
                      size := ?_ }
                  · -- tag_desc
                    rcases Nat.eq_or_lt_of_le hc with rfl | hlt
                    · rw [hoT_cell, hcollapse]
                      simp
                    · rcases Nat.lt_or_ge c nc with hcnc | hcnc
                      · rw [hs.frame_tags c hcnc,
                          collapses_of_inactive offs inds c (hbetween c (by omega) hcnc)]
                        simp
                      · exact hs.tag_desc c hcnc
                  · -- decode
                    rw [decodeFrom_active fe oO oI oT cell acc.length
                      (by rw [hs.len_offs, hnoffs2_len]; exact h) hoO_cell]
                    rw [hnext_oO, hs.decode]
                    have hcomp2 : (oT.getD cell default).compressed = false := by
                      rw [hoT_cell]
                      exact huncc
                    rw [hcomp2]
                    simp only [Bool.false_eq_true, if_false]
                    obtain ⟨hno2, _⟩ :=
                      canonicalFromB_block fe oO oI oT cell acc.length hcanon cell le_rfl
                        acc.length hoO_cell
                    rw [hno2, hoT_cell, hsl, hfev0, Nat.add_zero, blockSlice_self,
                      List.nil_append, Nat.add_zero]
                  · -- blocks
                    rcases Nat.eq_or_lt_of_le hc with rfl | hlt
                    · obtain ⟨hno2, _⟩ :=
                        canonicalFromB_block fe oO oI oT cell acc.length hcanon cell le_rfl
                          acc.length hoO_cell
                      rw [cellBlockArr_some oO oI cell acc.length hoO_cell, hno2,
                        hoT_cell, hsl, hfev0, Nat.add_zero, blockSlice_self,
                        hcollapse, cellBlockArr_some offs inds cell off hoc, hnoffv,
                        hfev0, Nat.add_zero, blockSlice_self]
                      simp
                    · rcases Nat.lt_or_ge c nc with hcnc | hcnc
                      · rw [hbetween c (by omega) hcnc] at hact
                        exact Bool.noConfusion hact
                      · rw [hs.blocks c hcnc hact]
                  · -- size
                    rw [compressSizeSpecFrom_active offs inds cell off h hoc, hcollapse,
                      hskip, hnoffv, hs.size]
                    simp
                    omega
        · exact base cell pos acc noffs tags (by omega) hcan hsent hnl
  intro cell pos acc noffs tags hcan hunc hsent hnl htl
  exact main (offs.length - cell) cell pos acc noffs tags le_rfl hcan hunc hsent hnl htl

/-! ## The sizing phase of `compress_data` on a canonical uncompressed level -/

theorem compress_size_ok (fe : Nat → Nat) (offs : List (Option Nat)) (inds : List Nat)
    (tags : List FeTag) :
    ∀ cell pos, canonicalFromB fe offs inds tags cell pos = true →
      uncompressedFrom tags cell →
      compress_size fe offs inds tags cell = .ok (compressSizeSpecFrom offs inds cell) := by
  have main : ∀ k cell pos, offs.length - cell ≤ k →
      canonicalFromB fe offs inds tags cell pos = true →
      uncompressedFrom tags cell →
      compress_size fe offs inds tags cell = .ok (compressSizeSpecFrom offs inds cell) := by
    intro k
    induction k with
    | zero =>
        intro cell pos hk hcan hunc
        rw [compress_size_end fe offs inds tags cell (by omega),
          compressSizeSpecFrom_end offs inds cell (by omega)]
    | succ k ih =>
        intro cell pos hk hcan hunc
        by_cases h : cell < offs.length
        · cases hoc : offs.getD cell none with
          | none =>
              rw [canonicalFromB_inactive fe offs inds tags cell pos h hoc] at hcan
              rw [compress_size_inactive fe offs inds tags cell h hoc,
                compressSizeSpecFrom_inactive offs inds cell h hoc]
              exact ih (cell + 1) pos (by omega) hcan fun c hc => hunc c (by omega)
          | some off =>
              rw [canonicalFromB_active fe offs inds tags cell pos off h hoc] at hcan
              rw [Bool.and_eq_true, beq_iff_eq] at hcan
              obtain ⟨hpos, hcan2⟩ := hcan
              have huncc : (tags.getD cell default).compressed = false :=
                hunc cell le_rfl
              have hsl : storedLen fe (tags.getD cell default) =
                  fe (tags.getD cell default).variant := by
                unfold storedLen
                rw [huncc]
                simp
              obtain ⟨hnoffv, hbound⟩ :=
                canonicalFromB_block fe offs inds tags cell pos
                  (by rw [canonicalFromB_active fe offs inds tags cell pos off h hoc,
                        Bool.and_eq_true, beq_iff_eq]
                      exact ⟨hpos, hcan2⟩)
                  cell le_rfl off hoc
              rw [hsl] at hnoffv hbound
              have hnc_ge := nextActive_ge offs (cell + 1)
              have hnc_le := nextActive_le_length offs (cell + 1) (by omega)
              have hbetween : ∀ c, cell + 1 ≤ c → c < nextActive offs (cell + 1) →
                  activeAt offs c = false :=
                fun c h1 h2 => nextActive_between offs (cell + 1) c h1 h2
              rw [compress_size_active fe offs inds tags cell off h hoc,
                if_neg (show ¬ is_compressed_entry (tags.getD cell default) = true from fun hbad => Bool.noConfusion (huncc.symm.trans hbad)),
                if_neg (by rw [hnoffv]; omega)]
              rw [ih (nextActive offs (cell + 1)) _ (by omega) hcan2
                (fun c hc => hunc c (by omega))]
              rw [compressSizeSpecFrom_active offs inds cell off h hoc,
                compressSizeSpecFrom_skip offs inds (cell + 1) (nextActive offs (cell + 1))
                  hnc_ge hbetween]
              rw [collapses_active offs inds cell off hoc]
              by_cases hfe : off < nextOffsetVal offs inds cell
              · by_cases hbc : blockCompressible inds off (nextOffsetVal offs inds cell) = true
                · rw [if_pos hfe, hbc, if_pos (by simp [hfe])]
                  simp [hfe]
                · have hbcf : blockCompressible inds off (nextOffsetVal offs inds cell) = false := by
                    revert hbc
                    cases blockCompressible inds off (nextOffsetVal offs inds cell) <;> simp
                  rw [if_pos hfe, hbcf, if_neg (by simp)]
                  simp [hfe]
              · rw [if_neg hfe, if_neg (by simp [hfe])]
                have h0 : nextOffsetVal offs inds cell - off = 0 := by omega
                rw [h0]
        · rw [compress_size_end fe offs inds tags cell (by omega),
            compressSizeSpecFrom_end offs inds cell (by omega)]
  intro cell pos hcan hunc
  exact main (offs.length - cell) cell pos le_rfl hcan hunc

theorem canonicalFromB_skip (fe : Nat → Nat) (offs : List (Option Nat))
    (inds : List Nat) (tags : List FeTag) :
    ∀ i m pos, i ≤ m → (∀ c, i ≤ c → c < m → activeAt offs c = false) →
      canonicalFromB fe offs inds tags i pos =
        canonicalFromB fe offs inds tags m pos := by
  have main : ∀ k i m pos, m - i ≤ k → i ≤ m →
      (∀ c, i ≤ c → c < m → activeAt offs c = false) →
      canonicalFromB fe offs inds tags i pos =
        canonicalFromB fe offs inds tags m pos := by
    intro k
    induction k with
    | zero =>
        intro i m pos hk hi _
        have : i = m := by omega
        rw [this]
    | succ k ih =>
        intro i m pos hk hi hin
        rcases Nat.eq_or_lt_of_le hi with rfl | hlt
        · rfl
        · by_cases h : i < offs.length
          · have hoc := getD_none_of_inactive (hin i le_rfl hlt)
            rw [canonicalFromB_inactive fe offs inds tags i pos h hoc]
            exact ih (i + 1) m pos (by omega) (by omega)
              fun c h1 h2 => hin c (by omega) h2
          · rw [canonicalFromB_end fe offs inds tags i pos (by omega),
              canonicalFromB_end fe offs inds tags m pos (by omega)]
  intro i m pos hi hin
  exact main (m - i) i m pos le_rfl hi hin

/-! ## Degenerate canonical levels with an empty index array -/

theorem canonical_nil_collapses (fe : Nat → Nat) (offs : List (Option Nat))
    (tags : List FeTag) (cell pos : Nat)
    (hcan : canonicalFromB fe offs ([] : List Nat) tags cell pos = true)
    (c : Nat) (hc : cell ≤ c) (off : Nat) (hoc : offs.getD c none = some off) :
    storedLen fe (tags.getD c default) = 0 ∧ collapses offs [] c = false := by
  obtain ⟨hno, hb⟩ := canonicalFromB_block fe offs [] tags cell pos hcan c hc off hoc
  simp only [List.length_nil, Nat.le_zero] at hb
  have hsl0 : storedLen fe (tags.getD c default) = 0 := by omega
  refine ⟨hsl0, ?_⟩
  rw [collapses_active offs [] c off hoc, hno, hsl0,
    decide_eq_false (by omega), Bool.false_and]

theorem decodeFrom_nil (fe : Nat → Nat) (offs : List (Option Nat)) (tags : List FeTag) :
    ∀ cell pos, canonicalFromB fe offs ([] : List Nat) tags cell pos = true →
      decodeFrom fe offs ([] : List Nat) tags cell = [] := by
  have main : ∀ k cell pos, offs.length - cell ≤ k →
      canonicalFromB fe offs ([] : List Nat) tags cell pos = true →
      decodeFrom fe offs ([] : List Nat) tags cell = [] := by
    intro k
    induction k with
    | zero =>
        intro cell pos hk hcan
        rw [decodeFrom_end fe offs [] tags cell (by omega)]
    | succ k ih =>
        intro cell pos hk hcan
        by_cases h : cell < offs.length
        · cases hoc : offs.getD cell none with
          | none =>
              rw [canonicalFromB_inactive fe offs [] tags cell pos h hoc] at hcan
              rw [decodeFrom_inactive fe offs [] tags cell h hoc]
              exact ih (cell + 1) pos (by omega) hcan
          | some off =>
              obtain ⟨hsl0, _⟩ :=
                canonical_nil_collapses fe offs tags cell pos hcan cell le_rfl off hoc
              have hcmp : (tags.getD cell default).compressed = false := by
                unfold storedLen at hsl0
                by_cases hx : (tags.getD cell default).compressed = true
                · rw [if_pos hx] at hsl0
                  exact absurd hsl0 (by omega)
                · revert hx
                  cases (tags.getD cell default).compressed <;> simp
              rw [canonicalFromB_active fe offs [] tags cell pos off h hoc,
                Bool.and_eq_true, beq_iff_eq] at hcan
              have hnc_ge := nextActive_ge offs (cell + 1)
              rw [decodeFrom_active fe offs [] tags cell off h hoc, hcmp]
              simp only [Bool.false_eq_true, if_false]
              rw [ih (nextActive offs (cell + 1)) _ (by omega) hcan.2]
              simp [blockSlice]
        · rw [decodeFrom_end fe offs [] tags cell (by omega)]
  intro cell pos
  exact main (offs.length - cell) cell pos le_rfl

theorem compressSizeSpecFrom_nil (fe : Nat → Nat) (offs : List (Option Nat))
    (tags : List FeTag) :
    ∀ cell pos, canonicalFromB fe offs ([] : List Nat) tags cell pos = true →
      compressSizeSpecFrom offs ([] : List Nat) cell = 0 := by
  have main : ∀ k cell pos, offs.length - cell ≤ k →
      canonicalFromB fe offs ([] : List Nat) tags cell pos = true →
      compressSizeSpecFrom offs ([] : List Nat) cell = 0 := by
    intro k
    induction k with
    | zero =>
        intro cell pos hk hcan
        rw [compressSizeSpecFrom_end offs [] cell (by omega)]
    | succ k ih =>
        intro cell pos hk hcan
        by_cases h : cell < offs.length
        · cases hoc : offs.getD cell none with
          | none =>
              rw [canonicalFromB_inactive fe offs [] tags cell pos h hoc] at hcan
              rw [compressSizeSpecFrom_inactive offs [] cell h hoc]
              exact ih (cell + 1) pos (by omega) hcan
          | some off =>
              obtain ⟨hno, hb⟩ :=
                canonicalFromB_block fe offs [] tags cell pos hcan cell le_rfl off hoc
              obtain ⟨hsl0, hclp⟩ :=
                canonical_nil_collapses fe offs tags cell pos hcan cell le_rfl off hoc
              rw [canonicalFromB_active fe offs [] tags cell pos off h hoc,
                Bool.and_eq_true, beq_iff_eq] at hcan
              have hnc_ge := nextActive_ge offs (cell + 1)
              have hcan1 : canonicalFromB fe offs [] tags (cell + 1)
                  (pos + storedLen fe (tags.getD cell default)) = true := by
                rw [canonicalFromB_skip fe offs [] tags (cell + 1)
                  (nextActive offs (cell + 1)) _ hnc_ge
                  (fun c h1 h2 => nextActive_between offs (cell + 1) c h1 h2)]
                exact hcan.2
              rw [compressSizeSpecFrom_active offs [] cell off h hoc, hclp]
              simp only [List.length_nil, Nat.le_zero] at hb
              rw [ih (cell + 1) _ (by omega) hcan1]
              simp only [Bool.false_eq_true, if_false, Nat.add_zero]
              omega
        · rw [compressSizeSpecFrom_end offs [] cell (by omega)]
  intro cell pos
  exact main (offs.length - cell) cell pos le_rfl

/-! ## `compress_data` on a canonical fully uncompressed level -/

theorem uncompressedFrom_of_all (tags : List FeTag)
    (h : allUncompressed tags = true) (cell : Nat) : uncompressedFrom tags cell := by
  intro c _
  rcases lt_or_le c tags.length with hc | hc
  · have hmem : tags.getD c default ∈ tags := by
      rw [List.getD_eq_getElem tags default hc]
      exact List.getElem_mem hc
    have := (List.all_eq_true.mp h) _ hmem
    revert this
    cases (tags.getD c default).compressed <;> simp
  · rw [List.getD_eq_default tags default hc]
    rfl

theorem compress_data_ok (fe : Nat → Nat) (L : DoFLevel)
    (hcan : canonicalFromB fe L.dof_offsets L.dof_indices L.active_fe_indices 0 0 = true)
    (hunc : allUncompressed L.active_fe_indices = true)
    (htl : L.active_fe_indices.length = L.dof_offsets.length) :
    ∃ M, L.compress_data fe = .ok M ∧ CompressDataSpec fe L M := by
  by_cases hemp : L.dof_offsets.length = 0 ∨ L.dof_indices.length = 0
  · -- empty-level shortcut: the pass returns the level unchanged
    have hinds : L.dof_indices = [] := by
      rcases hemp with h0 | h0
      · rw [canonicalFromB_end fe L.dof_offsets L.dof_indices L.active_fe_indices 0 0
          (by omega)] at hcan
        simp only [beq_iff_eq] at hcan
        exact List.length_eq_zero.mp hcan.symm
      · exact List.length_eq_zero.mp h0
    have hret : L.compress_data fe = .ok L := by
      unfold DoFLevel.compress_data
      rw [if_pos hemp]
    refine ⟨L, hret, ?_⟩
    rw [hinds] at hcan
    have hclps : ∀ c, collapses L.dof_offsets L.dof_indices c = false := by
      intro c
      rw [hinds]
      cases hoc : L.dof_offsets.getD c none with
      | none => exact collapses_of_inactive _ _ c (activeAt_of_getD_none hoc)
      | some off =>
          exact (canonical_nil_collapses fe L.dof_offsets L.active_fe_indices 0 0 hcan
            c (Nat.zero_le c) off hoc).2
    exact
      { len_offs := rfl
        len_tags := rfl
        tag_desc := fun c => by rw [hclps c]; simp
        activity := fun c => rfl
        canon := by rw [hinds]; exact hcan
        decode := by
          rw [hinds]
          exact decodeFrom_nil fe L.dof_offsets L.active_fe_indices 0 0 hcan
        blocks := fun c hact => by rw [hclps c]; simp
        size := by
          rw [hinds]
          rw [compressSizeSpecFrom_nil fe L.dof_offsets L.active_fe_indices 0 0 hcan]
          rfl }
  · obtain ⟨oI, oO, oT, hw, hs⟩ :=
      compress_write_ok fe L.dof_offsets L.dof_indices 0 0 []
        (List.replicate L.dof_offsets.length none) L.active_fe_indices hcan
        (uncompressedFrom_of_all L.active_fe_indices hunc 0)
        (fun c _ => getD_replicate_none L.dof_offsets.length c)
        (List.length_replicate L.dof_offsets.length none) htl
    have hsz := compress_size_ok fe L.dof_offsets L.dof_indices L.active_fe_indices 0 0
      hcan (uncompressedFrom_of_all L.active_fe_indices hunc 0)
    have hoIlen : oI.length = compressSizeSpecFrom L.dof_offsets L.dof_indices 0 := by
      have := hs.size
      simpa using this
    have hret : L.compress_data fe = .ok ⟨oO, oI, oT⟩ := by
      unfold DoFLevel.compress_data
      rw [if_neg hemp, hsz, hw]
      simp only [hoIlen]
      rw [if_neg (by omega)]
    refine ⟨⟨oO, oI, oT⟩, hret, ?_⟩
    exact
      { len_offs := by
          have := hs.len_offs
          rw [List.length_replicate] at this
          exact this
        len_tags := hs.len_tags
        tag_desc := fun c => hs.tag_desc c (Nat.zero_le c)
        activity := fun c => hs.activity c (Nat.zero_le c)
        canon := by
          have := hs.canon
          simpa using this
        decode := by
          have := hs.decode
          rw [List.drop_zero] at this
          exact this
        blocks := fun c hact => hs.blocks c (Nat.zero_le c) hact
        size := hoIlen }

/-! ## The writing phase of `uncompress_data` on a canonical level -/

theorem decodeFrom_congr_tags (fe : Nat → Nat) (offs : List (Option Nat))
    (inds : List Nat) (tags1 tags2 : List FeTag) :
    ∀ cell, (∀ c, cell ≤ c → tags1.getD c default = tags2.getD c default) →
      decodeFrom fe offs inds tags1 cell = decodeFrom fe offs inds tags2 cell := by
  have main : ∀ k cell, offs.length - cell ≤ k →
      (∀ c, cell ≤ c → tags1.getD c default = tags2.getD c default) →
      decodeFrom fe offs inds tags1 cell = decodeFrom fe offs inds tags2 cell := by
    intro k
    induction k with
    | zero =>
        intro cell hk ht
        rw [decodeFrom_end fe offs inds tags1 cell (by omega),
          decodeFrom_end fe offs inds tags2 cell (by omega)]
    | succ k ih =>
        intro cell hk ht
        by_cases h : cell < offs.length
        · cases hoc : offs.getD cell none with
          | none =>
              rw [decodeFrom_inactive fe offs inds tags1 cell h hoc,
                decodeFrom_inactive fe offs inds tags2 cell h hoc]
              exact ih (cell + 1) (by omega) fun c hc => ht c (by omega)
          | some off =>
              rw [decodeFrom_active fe offs inds tags1 cell off h hoc,
                decodeFrom_active fe offs inds tags2 cell off h hoc,
                ht cell le_rfl]
              have hnc_ge := nextActive_ge offs (cell + 1)
              rw [ih (nextActive offs (cell + 1)) (by omega)
                fun c hc => ht c (by omega)]
        · rw [decodeFrom_end fe offs inds tags1 cell (by omega),
            decodeFrom_end fe offs inds tags2 cell (by omega)]
  intro cell ht
  exact main (offs.length - cell) cell le_rfl ht

theorem normalizeTag_default : normalizeTag default = (default : FeTag) := rfl

theorem uncompress_write_ok (fe : Nat → Nat) (offs : List (Option Nat)) (inds : List Nat) :
    ∀ cell pos acc noffs tags,
      canonicalFromB fe offs inds tags cell pos = true →
      (∀ c, cell ≤ c → noffs.getD c none = none) →
      noffs.length = offs.length →
      tags.length = offs.length →
      ∃ oI oO oT,
        uncompress_write fe offs inds cell acc noffs tags = .ok (oI, oO, oT) ∧
          UncompressWriteSpec fe offs inds tags cell acc noffs oI oO oT := by
  have base : ∀ cell pos acc noffs tags, offs.length ≤ cell →
      canonicalFromB fe offs inds tags cell pos = true →
      (∀ c, cell ≤ c → noffs.getD c none = none) →
      noffs.length = offs.length →
      tags.length = offs.length →
      ∃ oI oO oT,
        uncompress_write fe offs inds cell acc noffs tags = .ok (oI, oO, oT) ∧
          UncompressWriteSpec fe offs inds tags cell acc noffs oI oO oT := by
    intro cell pos acc noffs tags hcl hcan hsent hnl htl
    refine ⟨acc, noffs, tags,
      uncompress_write_end fe offs inds cell acc noffs tags hcl, ?_⟩
    have hinact : ∀ c, cell ≤ c → activeAt offs c = false := fun c hc =>
      activeAt_of_getD_none (List.getD_eq_default offs none (by omega))
    exact
      { dec := by
          rw [decodeFrom_end fe offs inds tags cell hcl, List.append_nil]
        len_offs := rfl
        len_tags := rfl
        frame_offs := fun c _ => rfl
        frame_tags := fun c _ => rfl
        tag_desc := fun c hc => by
          rw [hinact c hc]
          simp
        activity := fun c hc => by
          rw [activeAt_of_getD_none (hsent c hc), hinact c hc]
        canon := by
          rw [canonicalFromB_end fe noffs acc tags cell acc.length (by omega)]
          exact beq_self_eq_true acc.length
        blocks := fun c hc hact => absurd hact (by rw [hinact c hc]; simp) }
  have main : ∀ k cell pos acc noffs tags, offs.length - cell ≤ k →
      canonicalFromB fe offs inds tags cell pos = true →
      (∀ c, cell ≤ c → noffs.getD c none = none) →
      noffs.length = offs.length →
      tags.length = offs.length →
      ∃ oI oO oT,
        uncompress_write fe offs inds cell acc noffs tags = .ok (oI, oO, oT) ∧
          UncompressWriteSpec fe offs inds tags cell acc noffs oI oO oT := by
    intro k
    induction k with
    | zero =>
        intro cell pos acc noffs tags hk hcan hsent hnl htl
        exact base cell pos acc noffs tags (by omega) hcan hsent hnl htl
    | succ k ih =>
        intro cell pos acc noffs tags hk hcan hsent hnl htl
        by_cases h : cell < offs.length
        · cases hoc : offs.getD cell none with
          | none =>
              rw [canonicalFromB_inactive fe offs inds tags cell pos h hoc] at hcan
              obtain ⟨oI, oO, oT, hw, hs⟩ :=
                ih (cell + 1) pos acc noffs tags (by omega) hcan
                  (fun c hc => hsent c (by omega)) hnl htl
              refine ⟨oI, oO, oT, ?_, ?_⟩
              · rw [uncompress_write_inactive fe offs inds cell acc noffs tags h hoc]
                exact hw
              · have hoOcell : oO.getD cell none = none := by
                  rw [hs.frame_offs cell (by omega)]
                  exact hsent cell le_rfl
                exact
                  { dec := by
                      rw [decodeFrom_inactive fe offs inds tags cell h hoc]
                      exact hs.dec
                    len_offs := hs.len_offs
                    len_tags := hs.len_tags
                    frame_offs := fun c hc => hs.frame_offs c (by omega)
                    frame_tags := fun c hc => hs.frame_tags c (by omega)
                    tag_desc := fun c hc => by
                      rcases Nat.eq_or_lt_of_le hc with rfl | hlt
                      · rw [activeAt_of_getD_none hoc]
                        simp only [Bool.false_eq_true, if_false]
                        exact hs.frame_tags cell (by omega)
                      · exact hs.tag_desc c (by omega)
                    activity := fun c hc => by
                      rcases Nat.eq_or_lt_of_le hc with rfl | hlt
                      · rw [activeAt_of_getD_none hoOcell, activeAt_of_getD_none hoc]
                      · exact hs.activity c (by omega)
                    canon := by
                      rw [canonicalFromB_inactive fe oO oI oT cell acc.length
                        (by rw [hs.len_offs, hnl]; exact h) hoOcell]
                      exact hs.canon
                    blocks := fun c hc hact => by
                      rcases Nat.eq_or_lt_of_le hc with rfl | hlt
                      · rw [activeAt_of_getD_none hoc] at hact
                        exact Bool.noConfusion hact
                      · exact hs.blocks c (by omega) hact }
          | some off =>
              rw [canonicalFromB_active fe offs inds tags cell pos off h hoc] at hcan
              rw [Bool.and_eq_true, beq_iff_eq] at hcan
              obtain ⟨hpos, hcan2⟩ := hcan
              subst hpos
              obtain ⟨hnoffv, hbound⟩ :=
                canonicalFromB_block fe offs inds tags cell off
                  (by rw [canonicalFromB_active fe offs inds tags cell off off h hoc,
                        Bool.and_eq_true, beq_iff_eq]
                      exact ⟨rfl, hcan2⟩)
                  cell le_rfl off hoc
              set nc := nextActive offs (cell + 1) with hnc
              have hnc_ge : cell + 1 ≤ nc := nextActive_ge offs (cell + 1)
              have hnc_le : nc ≤ offs.length := nextActive_le_length offs (cell + 1) (by omega)
              have hbetween : ∀ c, cell + 1 ≤ c → c < nc → activeAt offs c = false :=
                fun c h1 h2 => nextActive_between offs (cell + 1) c h1 h2
              have hnoffs2_len : (noffs.set cell (some acc.length)).length = offs.length := by
                rw [List.length_set]; exact hnl
              have hnoffs2_cell :
                  (noffs.set cell (some acc.length)).getD cell none = some acc.length :=
                getD_of_set_self noffs cell (some acc.length) none (by omega)
              have hnoffs2_ne : ∀ c, c ≠ cell →
                  (noffs.set cell (some acc.length)).getD c none = noffs.getD c none :=
                fun c hcne => getD_of_set_ne noffs cell c (some acc.length) none
                  (fun he => hcne he.symm)
              have hsent2 : ∀ c, nc ≤ c →
                  (noffs.set cell (some acc.length)).getD c none = none := fun c hc => by
                rw [hnoffs2_ne c (by omega)]
                exact hsent c (by omega)
              by_cases hcmp : (tags.getD cell default).compressed = true
              · -- compressed cell: expand the single stored value and untoggle
                have hsl1 : storedLen fe (tags.getD cell default) = 1 := by
                  unfold storedLen
                  rw [hcmp]
                  simp
                rw [hsl1] at hnoffv hbound hcan2
                set fev := fe (tags.getD cell default).variant with hfev
                set tags2 := tags.set cell
                  (get_toggled_compression_state (tags.getD cell default)) with htags2
                have htags2_ne : ∀ c, c ≠ cell →
                    tags2.getD c default = tags.getD c default :=
                  fun c hcne => getD_of_set_ne tags cell c _ default
                    (fun he => hcne he.symm)
                have htags2_cell : tags2.getD cell default =
                    get_toggled_compression_state (tags.getD cell default) :=
                  getD_of_set_self tags cell _ default (by omega)
                have hcan2' : canonicalFromB fe offs inds tags2 nc (off + 1) = true := by
                  rw [← canonicalFromB_congr_tags fe offs inds tags tags2 nc (off + 1)
                    (fun c hc => (htags2_ne c (by omega)).symm)]
                  exact hcan2
                set exp := (List.range fev).map (fun i => inds.getD off 0 + i) with hexp
                have hexp_len : exp.length = fev := by
                  rw [hexp, List.length_map, List.length_range]
                obtain ⟨oI, oO, oT, hw, hs⟩ :=
                  ih nc (off + 1) (acc ++ exp)
                    (noffs.set cell (some acc.length)) tags2 (by omega) hcan2'
                    hsent2 hnoffs2_len (by rw [htags2, List.length_set]; exact htl)
                have hoO_cell : oO.getD cell none = some acc.length := by
                  rw [hs.frame_offs cell (by omega)]
                  exact hnoffs2_cell
                have hoT_cell : oT.getD cell default =
                    get_toggled_compression_state (tags.getD cell default) := by
                  rw [hs.frame_tags cell (by omega)]
                  exact htags2_cell
                have hact_all : ∀ c, cell ≤ c → activeAt oO c = activeAt offs c := by
                  intro c hc
                  rcases Nat.eq_or_lt_of_le hc with rfl | hlt
                  · rw [activeAt_of_getD_some hoO_cell, activeAt_of_getD_some hoc]
                  · rcases Nat.lt_or_ge c nc with hcnc | hcnc
                    · have : oO.getD c none = none := by
                        rw [hs.frame_offs c hcnc, hnoffs2_ne c (by omega)]
                        exact hsent c (by omega)
                      rw [activeAt_of_getD_none this, hbetween c (by omega) hcnc]
                    · exact hs.activity c hcnc
                have hnext_oO : nextActive oO (cell + 1) = nc := by
                  rw [nextActive_congr oO offs (cell + 1)
                    (by rw [hs.len_offs, hnoffs2_len])
                    (fun c hc => hact_all c (by omega))]
                have hdecnc : decodeFrom fe offs inds tags2 nc =
                    decodeFrom fe offs inds tags nc :=
                  decodeFrom_congr_tags fe offs inds tags2 tags nc
                    (fun c hc => htags2_ne c (by omega))
                have hoI : oI = acc ++ (exp ++ decodeFrom fe offs inds tags nc) := by
                  rw [hs.dec, hdecnc, List.append_assoc]
                have huntog_cmp : (get_toggled_compression_state
                    (tags.getD cell default)).compressed = false := by
                  unfold get_toggled_compression_state
                  rw [hcmp]
                  rfl
                have hstored_oT : storedLen fe (oT.getD cell default) = fev := by
                  rw [hoT_cell]
                  unfold storedLen
                  rw [huntog_cmp, if_neg (by simp)]
                  exact hfev.symm
                have hcanon : canonicalFromB fe oO oI oT cell acc.length = true := by
                  rw [canonicalFromB_active fe oO oI oT cell acc.length acc.length
                    (by rw [hs.len_offs, hnoffs2_len]; exact h) hoO_cell]
                  rw [Bool.and_eq_true, beq_iff_eq]
                  refine ⟨rfl, ?_⟩
                  rw [hnext_oO, hstored_oT]
                  have hlen2 : (acc ++ exp).length = acc.length + fev := by
                    rw [List.length_append, hexp_len]
                  rw [← hlen2]
                  exact hs.canon
                refine ⟨oI, oO, oT, ?_, ?_⟩
                · rw [uncompress_write_active fe offs inds cell acc noffs tags off h hoc,
                    if_neg (by rw [show is_compressed_entry (tags.getD cell default) =
                      (tags.getD cell default).compressed from rfl, hcmp]; simp),
                    if_neg (by rw [hnoffv]; omega)]
                  exact hw
                · refine
                    { dec := ?_
                      len_offs := by rw [hs.len_offs, List.length_set]
                      len_tags := by rw [hs.len_tags, htags2, List.length_set]
                      frame_offs := fun c hc => by
                        rw [hs.frame_offs c (by omega), hnoffs2_ne c (by omega)]
                      frame_tags := fun c hc => by
                        rw [hs.frame_tags c (by omega), htags2_ne c (by omega)]
                      tag_desc := fun c hc => ?_
                      activity := hact_all
                      canon := hcanon
                      blocks := fun c hc hact => ?_ }
                  · -- dec
                    rw [decodeFrom_active fe offs inds tags cell off h hoc, hcmp]
                    simp only [if_true]
                    exact hoI
                  · -- tag_desc
                    rcases Nat.eq_or_lt_of_le hc with rfl | hlt
                    · rw [activeAt_of_getD_some hoc, hoT_cell]
                      unfold normalizeTag is_compressed_entry
                      rw [hcmp]
                      simp
                    · rcases Nat.lt_or_ge c nc with hcnc | hcnc
                      · rw [hs.frame_tags c hcnc, htags2_ne c (by omega),
                          hbetween c (by omega) hcnc]
                        simp
                      · rw [hs.tag_desc c hcnc, htags2_ne c (by omega)]
                  · -- blocks
                    rcases Nat.eq_or_lt_of_le hc with rfl | hlt
                    · obtain ⟨hno2, _⟩ :=
                        canonicalFromB_block fe oO oI oT cell acc.length hcanon cell le_rfl
                          acc.length hoO_cell
                      rw [cellBlockArr_some oO oI cell acc.length hoO_cell, hno2,
                        hstored_oT, hoI,
                        blockSlice_of_append acc
                          (exp ++ decodeFrom fe offs inds tags nc) fev,
                        ← hexp_len, List.take_left, hcmp]
                      simp only [if_true]
                      rw [hoc]
                      simp only [Option.getD_some]
                    · rcases Nat.lt_or_ge c nc with hcnc | hcnc
                      · rw [hbetween c (by omega) hcnc] at hact
                        exact Bool.noConfusion hact
                      · rw [hs.blocks c hcnc hact, htags2_ne c (by omega)]
              · -- non-compressed cell: verbatim copy
                have huncc : (tags.getD cell default).compressed = false := by
                  revert hcmp
                  cases (tags.getD cell default).compressed <;> simp
                have hslf : storedLen fe (tags.getD cell default) =
                    fe (tags.getD cell default).variant := by
                  unfold storedLen
                  rw [huncc]
                  simp
                rw [hslf] at hnoffv hbound hcan2
                set fev := fe (tags.getD cell default).variant with hfev
                set blk := blockSlice inds off (nextOffsetVal offs inds cell) with hblk
                have hblk_len : blk.length = fev := by
                  rw [hblk, blockSlice_length inds off _ (by rw [hnoffv]; exact hbound),
                    hnoffv]
                  omega
                obtain ⟨oI, oO, oT, hw, hs⟩ :=
                  ih nc (off + fev) (acc ++ blk)
                    (noffs.set cell (some acc.length)) tags (by omega) hcan2
                    hsent2 hnoffs2_len htl
                have hoO_cell : oO.getD cell none = some acc.length := by
                  rw [hs.frame_offs cell (by omega)]
                  exact hnoffs2_cell
                have hoT_cell : oT.getD cell default = tags.getD cell default :=
                  hs.frame_tags cell (by omega)
                have hact_all : ∀ c, cell ≤ c → activeAt oO c = activeAt offs c := by
                  intro c hc
                  rcases Nat.eq_or_lt_of_le hc with rfl | hlt
                  · rw [activeAt_of_getD_some hoO_cell, activeAt_of_getD_some hoc]
                  · rcases Nat.lt_or_ge c nc with hcnc | hcnc
                    · have : oO.getD c none = none := by
                        rw [hs.frame_offs c hcnc, hnoffs2_ne c (by omega)]
                        exact hsent c (by omega)
                      rw [activeAt_of_getD_none this, hbetween c (by omega) hcnc]
                    · exact hs.activity c hcnc
                have hnext_oO : nextActive oO (cell + 1) = nc := by
                  rw [nextActive_congr oO offs (cell + 1)
                    (by rw [hs.len_offs, hnoffs2_len])
                    (fun c hc => hact_all c (by omega))]
                have hoI : oI = acc ++ (blk ++ decodeFrom fe offs inds tags nc) := by
                  rw [hs.dec, List.append_assoc]
                have hlenacc : (acc ++ blk).length = acc.length + fev := by
                  rw [List.length_append, hblk_len]
                have hcanon : canonicalFromB fe oO oI oT cell acc.length = true := by
                  rw [canonicalFromB_active fe oO oI oT cell acc.length acc.length
                    (by rw [hs.len_offs, hnoffs2_len]; exact h) hoO_cell]
                  rw [Bool.and_eq_true, beq_iff_eq]
                  refine ⟨rfl, ?_⟩
                  rw [hnext_oO, hoT_cell, hslf, ← hlenacc]
                  exact hs.canon
                refine ⟨oI, oO, oT, ?_, ?_⟩
                · rw [uncompress_write_active fe offs inds cell acc noffs tags off h hoc,
                    if_pos (show is_compressed_entry (tags.getD cell default) = false
                      from huncc),
                    if_neg (by rw [hnoffv]; omega)]
                  exact hw
                · refine
                    { dec := ?_
                      len_offs := by rw [hs.len_offs, List.length_set]
                      len_tags := hs.len_tags
                      frame_offs := fun c hc => by
                        rw [hs.frame_offs c (by omega), hnoffs2_ne c (by omega)]
                      frame_tags := fun c hc => hs.frame_tags c (by omega)
                      tag_desc := fun c hc => ?_
                      activity := hact_all
                      canon := hcanon
                      blocks := fun c hc hact => ?_ }
                  · -- dec
                    rw [decodeFrom_active fe offs inds tags cell off h hoc, huncc]
                    simp only [Bool.false_eq_true, if_false]
                    exact hoI
                  · -- tag_desc
                    rcases Nat.eq_or_lt_of_le hc with rfl | hlt
                    · rw [activeAt_of_getD_some hoc, hoT_cell]
                      unfold normalizeTag is_compressed_entry
                      rw [huncc]
                      simp
                    · rcases Nat.lt_or_ge c nc with hcnc | hcnc
                      · rw [hs.frame_tags c hcnc, hbetween c (by omega) hcnc]
                        simp
                      · rw [hs.tag_desc c hcnc]
                  · -- blocks
                    rcases Nat.eq_or_lt_of_le hc with rfl | hlt
                    · obtain ⟨hno2, _⟩ :=
                        canonicalFromB_block fe oO oI oT cell acc.length hcanon cell le_rfl
                          acc.length hoO_cell
                      rw [cellBlockArr_some oO oI cell acc.length hoO_cell, hno2,
                        hoT_cell, hslf, hoI,
                        blockSlice_of_append acc
                          (blk ++ decodeFrom fe offs inds tags nc) fev,
                        ← hblk_len, List.take_left, huncc]
                      simp only [Bool.false_eq_true, if_false]
                      rw [cellBlockArr_some offs inds cell off hoc]
                    · rcases Nat.lt_or_ge c nc with hcnc | hcnc
                      · rw [hbetween c (by omega) hcnc] at hact
                        exact Bool.noConfusion hact
                      · rw [hs.blocks c hcnc hact]
        · exact base cell pos acc noffs tags (by omega) hcan hsent hnl htl
  intro cell pos acc noffs tags hcan hsent hnl htl
  exact main (offs.length - cell) cell pos acc noffs tags le_rfl hcan hsent hnl htl

/-! ## The sizing phase of `uncompress_data` on a canonical level -/

theorem uncompress_size_skip (fe : Nat → Nat) (offs : List (Option Nat))
    (tags : List FeTag) :
    ∀ i m, i ≤ m → (∀ c, i ≤ c → c < m → activeAt offs c = false) →
      uncompress_size fe offs tags i = uncompress_size fe offs tags m := by
  have main : ∀ k i m, m - i ≤ k → i ≤ m →
      (∀ c, i ≤ c → c < m → activeAt offs c = false) →
      uncompress_size fe offs tags i = uncompress_size fe offs tags m := by
    intro k
    induction k with
    | zero =>
        intro i m hk hi _
        have : i = m := by omega
        rw [this]
    | succ k ih =>
        intro i m hk hi hin
        rcases Nat.eq_or_lt_of_le hi with rfl | hlt
        · rfl
        · by_cases h : i < offs.length
          · have hoc := getD_none_of_inactive (hin i le_rfl hlt)
            rw [uncompress_size_inactive fe offs tags i h hoc]
            exact ih (i + 1) m (by omega) (by omega) fun c h1 h2 => hin c (by omega) h2
          · rw [uncompress_size_end fe offs tags i (by omega),
              uncompress_size_end fe offs tags m (by omega)]
  intro i m hi hin
  exact main (m - i) i m le_rfl hi hin

theorem decodeFrom_length_eq (fe : Nat → Nat) (offs : List (Option Nat))
    (inds : List Nat) (tags : List FeTag) :
    ∀ cell pos, canonicalFromB fe offs inds tags cell pos = true →
      (decodeFrom fe offs inds tags cell).length = uncompress_size fe offs tags cell := by
  have main : ∀ k cell pos, offs.length - cell ≤ k →
      canonicalFromB fe offs inds tags cell pos = true →
      (decodeFrom fe offs inds tags cell).length = uncompress_size fe offs tags cell := by
    intro k
    induction k with
    | zero =>
        intro cell pos hk hcan
        rw [decodeFrom_end fe offs inds tags cell (by omega),
          uncompress_size_end fe offs tags cell (by omega)]
        rfl
    | succ k ih =>
        intro cell pos hk hcan
        by_cases h : cell < offs.length
        · cases hoc : offs.getD cell none with
          | none =>
              rw [canonicalFromB_inactive fe offs inds tags cell pos h hoc] at hcan
              rw [decodeFrom_inactive fe offs inds tags cell h hoc,
                uncompress_size_inactive fe offs tags cell h hoc]
              exact ih (cell + 1) pos (by omega) hcan
          | some off =>
              obtain ⟨hnoffv, hbound⟩ :=
                canonicalFromB_block fe offs inds tags cell pos hcan cell le_rfl off hoc
              rw [canonicalFromB_active fe offs inds tags cell pos off h hoc,
                Bool.and_eq_true, beq_iff_eq] at hcan
              have hnc_ge := nextActive_ge offs (cell + 1)
              have hnc_le := nextActive_le_length offs (cell + 1) (by omega)
              rw [decodeFrom_active fe offs inds tags cell off h hoc,
                uncompress_size_active fe offs tags cell off h hoc,
                uncompress_size_skip fe offs tags (cell + 1) (nextActive offs (cell + 1))
                  hnc_ge (fun c h1 h2 => nextActive_between offs (cell + 1) c h1 h2)]
              rw [List.length_append,
                ih (nextActive offs (cell + 1)) _ (by omega) hcan.2]
              congr 1
              by_cases hcmp : (tags.getD cell default).compressed = true
              · rw [hcmp]
                simp
              · have huncc : (tags.getD cell default).compressed = false := by
                  revert hcmp
                  cases (tags.getD cell default).compressed <;> simp
                have hsl : storedLen fe (tags.getD cell default) =
                    fe (tags.getD cell default).variant := by
                  unfold storedLen
                  rw [huncc]
                  simp
                rw [hsl] at hnoffv hbound
                rw [huncc]
                simp only [Bool.false_eq_true, if_false]
                rw [blockSlice_length inds off (nextOffsetVal offs inds cell)
                  (by rw [hnoffv]; exact hbound), hnoffv]
                omega
        · rw [decodeFrom_end fe offs inds tags cell (by omega),
            uncompress_size_end fe offs tags cell (by omega)]
          rfl
  intro cell pos
  exact main (offs.length - cell) cell pos le_rfl

theorem uncompress_size_nil (fe : Nat → Nat) (offs : List (Option Nat))
    (tags : List FeTag) :
    ∀ cell pos, canonicalFromB fe offs ([] : List Nat) tags cell pos = true →
      uncompress_size fe offs tags cell = 0 := by
  intro cell pos hcan
  have := decodeFrom_length_eq fe offs [] tags cell pos hcan
  rw [decodeFrom_nil fe offs tags cell pos hcan] at this
  simpa using this.symm

/-! ## `uncompress_data` on a canonical level -/

theorem uncompress_data_ok (fe : Nat → Nat) (L : DoFLevel)
    (hcan : canonicalFromB fe L.dof_offsets L.dof_indices L.active_fe_indices 0 0 = true)
    (htl : L.active_fe_indices.length = L.dof_offsets.length) :
    ∃ M, L.uncompress_data fe = .ok M ∧ UncompressDataSpec fe L M := by
  by_cases hemp : L.dof_offsets.length = 0 ∨ L.dof_indices.length = 0
  · -- empty-level shortcut: the pass returns the level unchanged
    have hinds : L.dof_indices = [] := by
      rcases hemp with h0 | h0
      · rw [canonicalFromB_end fe L.dof_offsets L.dof_indices L.active_fe_indices 0 0
          (by omega)] at hcan
        simp only [beq_iff_eq] at hcan
        exact List.length_eq_zero.mp hcan.symm
      · exact List.length_eq_zero.mp h0
    have hret : L.uncompress_data fe = .ok L := by
      unfold DoFLevel.uncompress_data
      rw [if_pos hemp]
    refine ⟨L, hret, ?_⟩
    rw [hinds] at hcan
    have hcmpf : ∀ c off, L.dof_offsets.getD c none = some off →
        (L.active_fe_indices.getD c default).compressed = false := by
      intro c off hoc
      obtain ⟨hsl0, _⟩ :=
        canonical_nil_collapses fe L.dof_offsets L.active_fe_indices 0 0 hcan
          c (Nat.zero_le c) off hoc
      unfold storedLen at hsl0
      by_cases hx : (L.active_fe_indices.getD c default).compressed = true
      · rw [if_pos hx] at hsl0
        exact absurd hsl0 (by omega)
      · revert hx
        cases (L.active_fe_indices.getD c default).compressed <;> simp
    exact
      { len_offs := rfl
        len_tags := rfl
        tag_desc := fun c => by
          cases hoc : L.dof_offsets.getD c none with
          | none => rw [activeAt_of_getD_none hoc]; simp
          | some off =>
              rw [activeAt_of_getD_some hoc]
              simp only [if_true]
              unfold normalizeTag is_compressed_entry
              rw [hcmpf c off hoc]
              simp
        activity := fun c => rfl
        canon := by rw [hinds]; exact hcan
        inds_eq := by
          rw [hinds]
          exact (decodeFrom_nil fe L.dof_offsets L.active_fe_indices 0 0 hcan).symm
        blocks := fun c hact => by
          cases hoc : L.dof_offsets.getD c none with
          | none =>
              rw [activeAt_of_getD_none hoc] at hact
              exact Bool.noConfusion hact
          | some off =>
              rw [hcmpf c off hoc]
              simp
        size := by
          rw [hinds,
            uncompress_size_nil fe L.dof_offsets L.active_fe_indices 0 0 hcan]
          rfl }
  · obtain ⟨oI, oO, oT, hw, hs⟩ :=
      uncompress_write_ok fe L.dof_offsets L.dof_indices 0 0 []
        (List.replicate L.dof_offsets.length none) L.active_fe_indices hcan
        (fun c _ => getD_replicate_none L.dof_offsets.length c)
        (List.length_replicate L.dof_offsets.length none) htl
    have hoI : oI = decodeFrom fe L.dof_offsets L.dof_indices L.active_fe_indices 0 := by
      have := hs.dec
      simpa using this
    have hoIlen : oI.length = uncompress_size fe L.dof_offsets L.active_fe_indices 0 := by
      rw [hoI]
      exact decodeFrom_length_eq fe L.dof_offsets L.dof_indices L.active_fe_indices
        0 0 hcan
    have hret : L.uncompress_data fe = .ok ⟨oO, oI, oT⟩ := by
      unfold DoFLevel.uncompress_data
      rw [if_neg hemp, hw]
      simp only [hoIlen]
      rw [if_neg (by omega)]
    refine ⟨⟨oO, oI, oT⟩, hret, ?_⟩
    exact
      { len_offs := by
          have := hs.len_offs
          rw [List.length_replicate] at this
          exact this
        len_tags := hs.len_tags
        tag_desc := fun c => hs.tag_desc c (Nat.zero_le c)
        activity := fun c => hs.activity c (Nat.zero_le c)
        canon := by
          have := hs.canon
          simpa using this
        inds_eq := hoI
        blocks := fun c hact => hs.blocks c (Nat.zero_le c) hact
        size := hoIlen }

/-! ## Round trip: uncompress after compress restores the level -/

theorem list_eq_of_getD {α : Type} (d : α) (l1 l2 : List α)
    (hl : l1.length = l2.length) (h : ∀ c, l1.getD c d = l2.getD c d) :
    l1 = l2 := by
  apply List.ext_getElem hl
  intro i h1 h2
  have := h i
  rwa [List.getD_eq_getElem l1 d h1, List.getD_eq_getElem l2 d h2] at this

theorem DoFLevel.eq_of_fields (A B : DoFLevel)
    (h1 : A.dof_offsets = B.dof_offsets) (h2 : A.dof_indices = B.dof_indices)
    (h3 : A.active_fe_indices = B.active_fe_indices) : A = B := by
  cases A
  cases B
  simp_all

theorem FeTag.mk_variant_false (t : FeTag) (h : t.compressed = false) :
    (⟨t.variant, false⟩ : FeTag) = t := by
  cases t with
  | mk v cmp =>
      simp only at h ⊢
      rw [h]

theorem collapses_active_imp (offs : List (Option Nat)) (inds : List Nat)
    (c : Nat) (h : collapses offs inds c = true) : activeAt offs c = true := by
  unfold collapses at h
  cases hoc : offs.getD c none with
  | none => rw [hoc] at h; exact Bool.noConfusion h
  | some off => exact activeAt_of_getD_some hoc

theorem canonical_offsets_det (fe : Nat → Nat) (inds : List Nat) (tags : List FeTag)
    (offs1 offs2 : List (Option Nat)) (hl : offs1.length = offs2.length)
    (hact : ∀ c, activeAt offs1 c = activeAt offs2 c) :
    ∀ cell pos, canonicalFromB fe offs1 inds tags cell pos = true →
      canonicalFromB fe offs2 inds tags cell pos = true →
      ∀ c, cell ≤ c → offs1.getD c none = offs2.getD c none := by
  have main : ∀ k cell pos, offs1.length - cell ≤ k →
      canonicalFromB fe offs1 inds tags cell pos = true →
      canonicalFromB fe offs2 inds tags cell pos = true →
      ∀ c, cell ≤ c → offs1.getD c none = offs2.getD c none := by
    intro k
    induction k with
    | zero =>
        intro cell pos hk _ _ c hc
        rw [List.getD_eq_default offs1 none (by omega),
          List.getD_eq_default offs2 none (by omega)]
    | succ k ih =>
        intro cell pos hk hcan1 hcan2 c hc
        by_cases h : cell < offs1.length
        · cases hoc : offs1.getD cell none with
          | none =>
              have hoc2 : offs2.getD cell none = none := by
                have := hact cell
                rw [activeAt_of_getD_none hoc] at this
                exact getD_none_of_inactive this.symm
              rcases Nat.eq_or_lt_of_le hc with rfl | hlt
              · rw [hoc, hoc2]
              · rw [canonicalFromB_inactive fe offs1 inds tags cell pos h hoc] at hcan1
                rw [canonicalFromB_inactive fe offs2 inds tags cell pos
                  (by omega) hoc2] at hcan2
                exact ih (cell + 1) pos (by omega) hcan1 hcan2 c (by omega)
          | some off =>
              have hoc2 : ∃ off2, offs2.getD cell none = some off2 := by
                have := hact cell
                rw [activeAt_of_getD_some hoc] at this
                cases hx : offs2.getD cell none with
                | none => rw [activeAt_of_getD_none hx] at this; exact Bool.noConfusion this
                | some v => exact ⟨v, rfl⟩
              obtain ⟨off2, hoc2⟩ := hoc2
              rw [canonicalFromB_active fe offs1 inds tags cell pos off h hoc,
                Bool.and_eq_true, beq_iff_eq] at hcan1
              rw [canonicalFromB_active fe offs2 inds tags cell pos off2
                (by omega) hoc2, Bool.and_eq_true, beq_iff_eq] at hcan2
              have hnext : nextActive offs1 (cell + 1) = nextActive offs2 (cell + 1) :=
                nextActive_congr offs1 offs2 (cell + 1) hl fun c _ => hact c
              have hnc_ge := nextActive_ge offs1 (cell + 1)
              rcases Nat.eq_or_lt_of_le hc with rfl | hlt
              · rw [hoc, hoc2, hcan1.1, hcan2.1]
              · rcases Nat.lt_or_ge c (nextActive offs1 (cell + 1)) with hcnc | hcnc
                · have hin1 : activeAt offs1 c = false :=
                    nextActive_between offs1 (cell + 1) c (by omega) hcnc
                  have hin2 : activeAt offs2 c = false := by
                    rw [← hact c]; exact hin1
                  rw [getD_none_of_inactive hin1, getD_none_of_inactive hin2]
                · have hc2 := hcan2.2
                  rw [← hnext] at hc2
                  exact ih (nextActive offs1 (cell + 1)) _ (by omega) hcan1.2 hc2
                    c (by omega)
        · rw [List.getD_eq_default offs1 none (by omega),
            List.getD_eq_default offs2 none (by omega)]
  intro cell pos hcan1 hcan2 c hc
  exact main (offs1.length - cell) cell pos le_rfl hcan1 hcan2 c hc

theorem compress_uncompress_roundtrip (fe : Nat → Nat) (L : DoFLevel)
    (hcan : canonicalFromB fe L.dof_offsets L.dof_indices L.active_fe_indices 0 0 = true)
    (hunc : allUncompressed L.active_fe_indices = true)
    (htl : L.active_fe_indices.length = L.dof_offsets.length) :
    ∃ M, L.compress_data fe = .ok M ∧ M.uncompress_data fe = .ok L := by
  obtain ⟨M, hM, hsM⟩ := compress_data_ok fe L hcan hunc htl
  obtain ⟨N, hN, hsN⟩ := uncompress_data_ok fe M hsM.canon
    (by rw [hsM.len_tags, hsM.len_offs]; exact htl)
  have huncL : ∀ c, (L.active_fe_indices.getD c default).compressed = false :=
    fun c => uncompressedFrom_of_all L.active_fe_indices hunc 0 c (Nat.zero_le c)
  have htags : N.active_fe_indices = L.active_fe_indices := by
    apply list_eq_of_getD default
    · rw [hsN.len_tags, hsM.len_tags]
    · intro c
      rw [hsN.tag_desc c, hsM.activity c, hsM.tag_desc c]
      by_cases hclp : collapses L.dof_offsets L.dof_indices c = true
      · rw [hclp, collapses_active_imp L.dof_offsets L.dof_indices c hclp]
        simp only [if_true]
        unfold normalizeTag is_compressed_entry get_toggled_compression_state
        rw [huncL c]
        simp only [Bool.not_false, if_true, Bool.not_true]
        exact FeTag.mk_variant_false _ (huncL c)
      · have hclpf : collapses L.dof_offsets L.dof_indices c = false := by
          revert hclp
          cases collapses L.dof_offsets L.dof_indices c <;> simp
        rw [hclpf]
        simp only [Bool.false_eq_true, if_false]
        by_cases hactc : activeAt L.dof_offsets c = true
        · rw [hactc]
          simp only [if_true]
          unfold normalizeTag is_compressed_entry
          rw [huncL c]
          simp
        · have : activeAt L.dof_offsets c = false := by
            revert hactc
            cases activeAt L.dof_offsets c <;> simp
          rw [this]
          simp
  have hinds : N.dof_indices = L.dof_indices := by
    rw [hsN.inds_eq, hsM.decode]
  have hoffs : N.dof_offsets = L.dof_offsets := by
    apply list_eq_of_getD none
    · rw [hsN.len_offs, hsM.len_offs]
    · intro c
      have hcanN := hsN.canon
      rw [hinds, htags] at hcanN
      have hactN : ∀ c, activeAt N.dof_offsets c = activeAt L.dof_offsets c := by
        intro c
        rw [hsN.activity c, hsM.activity c]
      exact canonical_offsets_det fe L.dof_indices L.active_fe_indices
        N.dof_offsets L.dof_offsets
        (by rw [hsN.len_offs, hsM.len_offs]) hactN 0 0 hcanN hcan c (Nat.zero_le c)
  have hNL : N = L := DoFLevel.eq_of_fields N L hoffs hinds htags
  rw [hNL] at hN
  exact ⟨M, hM, hN⟩

/-! ## Facts about `normalize_active_fe_indices` -/

theorem normalizeTag_idem (t : FeTag) : normalizeTag (normalizeTag t) = normalizeTag t := by
  unfold normalizeTag is_compressed_entry get_toggled_compression_state
  cases t with
  | mk v cmp => cases cmp <;> simp

theorem normalize_map_eq (L : DoFLevel) :
    L.normalize_active_fe_indices.active_fe_indices =
      L.active_fe_indices.map normalizeTag := rfl

theorem normalize_offs_eq (L : DoFLevel) :
    L.normalize_active_fe_indices.dof_offsets = L.dof_offsets := rfl

theorem normalize_inds_eq (L : DoFLevel) :
    L.normalize_active_fe_indices.dof_indices = L.dof_indices := rfl

theorem normalize_getD (L : DoFLevel) (c : Nat) :
    L.normalize_active_fe_indices.active_fe_indices.getD c default =
      normalizeTag (L.active_fe_indices.getD c default) := by
  rw [normalize_map_eq]
  rw [show (default : FeTag) = normalizeTag default from rfl]
  exact List.getD_map L.active_fe_indices default normalizeTag

theorem normalize_idem (L : DoFLevel) :
    L.normalize_active_fe_indices.normalize_active_fe_indices =
      L.normalize_active_fe_indices := by
  apply DoFLevel.eq_of_fields
  · rfl
  · rfl
  · rw [normalize_map_eq, normalize_map_eq, List.map_map]
    apply List.map_congr_left
    intro t _
    exact normalizeTag_idem t

/-! ## Unconditional frame facts about the writing phases -/

theorem compress_write_frame (fe : Nat → Nat) (offs : List (Option Nat))
    (inds : List Nat) :
    ∀ cell acc noffs tags oI oO oT,
      (∀ c, cell ≤ c → noffs.getD c none = none) →
      noffs.length = offs.length →
      compress_write fe offs inds cell acc noffs tags = .ok (oI, oO, oT) →
      oO.length = noffs.length ∧
        (∀ c, c < cell → oO.getD c none = noffs.getD c none) ∧
        (∀ c, cell ≤ c → (oO.getD c none).isSome = activeAt offs c) := by
  have hbase : ∀ cell acc (noffs : List (Option Nat)) (tags : List FeTag) oI oO oT,
      offs.length ≤ cell →
      (∀ c, cell ≤ c → noffs.getD c none = none) →
      compress_write fe offs inds cell acc noffs tags = .ok (oI, oO, oT) →
      oO.length = noffs.length ∧
        (∀ c, c < cell → oO.getD c none = noffs.getD c none) ∧
        (∀ c, cell ≤ c → (oO.getD c none).isSome = activeAt offs c) := by
    intro cell acc noffs tags oI oO oT hcl hsent hw
    rw [compress_write_end fe offs inds cell acc noffs tags hcl] at hw
    simp only [Except.ok.injEq, Prod.mk.injEq] at hw
    obtain ⟨h1, h2, h3⟩ := hw
    subst h2
    refine ⟨rfl, fun c _ => rfl, fun c hc => ?_⟩
    rw [hsent c hc,
      activeAt_of_getD_none (List.getD_eq_default offs none (by omega))]
    rfl
  have main : ∀ k cell acc noffs tags oI oO oT, offs.length - cell ≤ k →
      (∀ c, cell ≤ c → noffs.getD c none = none) →
      noffs.length = offs.length →
      compress_write fe offs inds cell acc noffs tags = .ok (oI, oO, oT) →
      oO.length = noffs.length ∧
        (∀ c, c < cell → oO.getD c none = noffs.getD c none) ∧
        (∀ c, cell ≤ c → (oO.getD c none).isSome = activeAt offs c) := by
    intro k
    induction k with
    | zero =>
        intro cell acc noffs tags oI oO oT hk hsent hnl hw
        exact hbase cell acc noffs tags oI oO oT (by omega) hsent hw
    | succ k ih =>
        intro cell acc noffs tags oI oO oT hk hsent hnl hw
        by_cases h : cell < offs.length
        · cases hoc : offs.getD cell none with
          | none =>
              rw [compress_write_inactive fe offs inds cell acc noffs tags h hoc] at hw
              obtain ⟨hlen, hfr, hact⟩ := ih (cell + 1) acc noffs tags oI oO oT
                (by omega) (fun c hc => hsent c (by omega)) hnl hw
              refine ⟨hlen, fun c hc => hfr c (by omega), fun c hc => ?_⟩
              rcases Nat.eq_or_lt_of_le hc with rfl | hlt
              · rw [hfr cell (by omega), hsent cell le_rfl,
                  activeAt_of_getD_none hoc]
                rfl
              · exact hact c (by omega)
          | some off =>
              rw [compress_write_active fe offs inds cell acc noffs tags off h hoc] at hw
              have hnc_ge := nextActive_ge offs (cell + 1)
              have hsent2 : ∀ c, nextActive offs (cell + 1) ≤ c →
                  (noffs.set cell (some acc.length)).getD c none = none := fun c hc => by
                rw [getD_of_set_ne noffs cell c _ none (by omega)]
                exact hsent c (by omega)
              have hnl2 : (noffs.set cell (some acc.length)).length = offs.length := by
                rw [List.length_set]
                exact hnl
              have handle : ∀ acc2 tags2,
                  compress_write fe offs inds (nextActive offs (cell + 1)) acc2
                    (noffs.set cell (some acc.length)) tags2 = .ok (oI, oO, oT) →
                  oO.length = noffs.length ∧
                    (∀ c, c < cell → oO.getD c none = noffs.getD c none) ∧
                    (∀ c, cell ≤ c → (oO.getD c none).isSome = activeAt offs c) := by
                intro acc2 tags2 hw2
                obtain ⟨hlen, hfr, hact⟩ := ih (nextActive offs (cell + 1)) acc2
                  (noffs.set cell (some acc.length)) tags2 oI oO oT (by omega)
                  hsent2 hnl2 hw2
                refine ⟨by rw [hlen, List.length_set], fun c hc => ?_, fun c hc => ?_⟩
                · rw [hfr c (by omega), getD_of_set_ne noffs cell c _ none (by omega)]
                · rcases Nat.eq_or_lt_of_le hc with rfl | hlt
                  · rw [hfr cell (by omega),
                      getD_of_set_self noffs cell (some acc.length) none (by omega),
                      activeAt_of_getD_some hoc]
                    rfl
                  · rcases Nat.lt_or_ge c (nextActive offs (cell + 1)) with hcnc | hcnc
                    · rw [hfr c hcnc, getD_of_set_ne noffs cell c _ none (by omega),
                        hsent c (by omega),
                        nextActive_between offs (cell + 1) c (by omega) hcnc]
                      rfl
                    · exact hact c hcnc
              by_cases hce : is_compressed_entry (tags.getD cell default) = true
              · rw [if_pos hce] at hw
                exact absurd hw (by simp)
              · rw [if_neg hce] at hw
                by_cases hlc : nextOffsetVal offs inds cell - off ≠
                    fe (tags.getD cell default).variant
                · rw [if_pos hlc] at hw
                  exact absurd hw (by simp)
                · rw [if_neg hlc] at hw
                  by_cases hfe : off < nextOffsetVal offs inds cell
                  · rw [if_pos hfe] at hw
                    by_cases hbc : blockCompressible inds off
                        (nextOffsetVal offs inds cell) = true
                    · rw [if_pos hbc] at hw
                      rw [if_neg hce] at hw
                      exact handle _ _ hw
                    · rw [if_neg hbc] at hw
                      exact handle _ _ hw
                  · rw [if_neg hfe] at hw
                    exact handle _ _ hw
        · exact hbase cell acc noffs tags oI oO oT (by omega) hsent hw
  intro cell acc noffs tags oI oO oT hsent hnl hw
  exact main (offs.length - cell) cell acc noffs tags oI oO oT le_rfl hsent hnl hw

theorem uncompress_write_frame (fe : Nat → Nat) (offs : List (Option Nat))
    (inds : List Nat) :
    ∀ cell acc noffs tags oI oO oT,
      (∀ c, cell ≤ c → noffs.getD c none = none) →
      noffs.length = offs.length →
      uncompress_write fe offs inds cell acc noffs tags = .ok (oI, oO, oT) →
      oO.length = noffs.length ∧
        (∀ c, c < cell → oO.getD c none = noffs.getD c none) ∧
        (∀ c, cell ≤ c → (oO.getD c none).isSome = activeAt offs c) := by
  have hbase : ∀ cell acc (noffs : List (Option Nat)) (tags : List FeTag) oI oO oT,
      offs.length ≤ cell →
      (∀ c, cell ≤ c → noffs.getD c none = none) →
      uncompress_write fe offs inds cell acc noffs tags = .ok (oI, oO, oT) →
      oO.length = noffs.length ∧
        (∀ c, c < cell → oO.getD c none = noffs.getD c none) ∧
        (∀ c, cell ≤ c → (oO.getD c none).isSome = activeAt offs c) := by
    intro cell acc noffs tags oI oO oT hcl hsent hw
    rw [uncompress_write_end fe offs inds cell acc noffs tags hcl] at hw
    simp only [Except.ok.injEq, Prod.mk.injEq] at hw
    obtain ⟨h1, h2, h3⟩ := hw
    subst h2
    refine ⟨rfl, fun c _ => rfl, fun c hc => ?_⟩
    rw [hsent c hc,
      activeAt_of_getD_none (List.getD_eq_default offs none (by omega))]
    rfl
  have main : ∀ k cell acc noffs tags oI oO oT, offs.length - cell ≤ k →
      (∀ c, cell ≤ c → noffs.getD c none = none) →
      noffs.length = offs.length →
      uncompress_write fe offs inds cell acc noffs tags = .ok (oI, oO, oT) →
      oO.length = noffs.length ∧
        (∀ c, c < cell → oO.getD c none = noffs.getD c none) ∧
        (∀ c, cell ≤ c → (oO.getD c none).isSome = activeAt offs c) := by
    intro k
    induction k with
    | zero =>
        intro cell acc noffs tags oI oO oT hk hsent hnl hw
        exact hbase cell acc noffs tags oI oO oT (by omega) hsent hw
    | succ k ih =>
        intro cell acc noffs tags oI oO oT hk hsent hnl hw
        by_cases h : cell < offs.length
        · cases hoc : offs.getD cell none with
          | none =>
              rw [uncompress_write_inactive fe offs inds cell acc noffs tags h hoc] at hw
              obtain ⟨hlen, hfr, hact⟩ := ih (cell + 1) acc noffs tags oI oO oT
                (by omega) (fun c hc => hsent c (by omega)) hnl hw
              refine ⟨hlen, fun c hc => hfr c (by omega), fun c hc => ?_⟩
              rcases Nat.eq_or_lt_of_le hc with rfl | hlt
              · rw [hfr cell (by omega), hsent cell le_rfl,
                  activeAt_of_getD_none hoc]
                rfl
              · exact hact c (by omega)
          | some off =>
              rw [uncompress_write_active fe offs inds cell acc noffs tags off h hoc] at hw
              have hnc_ge := nextActive_ge offs (cell + 1)
              have hsent2 : ∀ c, nextActive offs (cell + 1) ≤ c →
                  (noffs.set cell (some acc.length)).getD c none = none := fun c hc => by
                rw [getD_of_set_ne noffs cell c _ none (by omega)]
                exact hsent c (by omega)
              have hnl2 : (noffs.set cell (some acc.length)).length = offs.length := by
                rw [List.length_set]
                exact hnl
              have handle : ∀ acc2 tags2,
                  uncompress_write fe offs inds (nextActive offs (cell + 1)) acc2
                    (noffs.set cell (some acc.length)) tags2 = .ok (oI, oO, oT) →
                  oO.length = noffs.length ∧
                    (∀ c, c < cell → oO.getD c none = noffs.getD c none) ∧
                    (∀ c, cell ≤ c → (oO.getD c none).isSome = activeAt offs c) := by
                intro acc2 tags2 hw2
                obtain ⟨hlen, hfr, hact⟩ := ih (nextActive offs (cell + 1)) acc2
                  (noffs.set cell (some acc.length)) tags2 oI oO oT (by omega)
                  hsent2 hnl2 hw2
                refine ⟨by rw [hlen, List.length_set], fun c hc => ?_, fun c hc => ?_⟩
                · rw [hfr c (by omega), getD_of_set_ne noffs cell c _ none (by omega)]
                · rcases Nat.eq_or_lt_of_le hc with rfl | hlt
                  · rw [hfr cell (by omega),
                      getD_of_set_self noffs cell (some acc.length) none (by omega),
                      activeAt_of_getD_some hoc]
                    rfl
                  · rcases Nat.lt_or_ge c (nextActive offs (cell + 1)) with hcnc | hcnc
                    · rw [hfr c hcnc, getD_of_set_ne noffs cell c _ none (by omega),
                        hsent c (by omega),
                        nextActive_between offs (cell + 1) c (by omega) hcnc]
                      rfl
                    · exact hact c hcnc
              by_cases hcm : is_compressed_entry (tags.getD cell default) = false
              · rw [if_pos hcm] at hw
                by_cases hlc : nextOffsetVal offs inds cell - off ≠
                    fe (tags.getD cell default).variant
                · rw [if_pos hlc] at hw
                  exact absurd hw (by simp)
                · rw [if_neg hlc] at hw
                  exact handle _ _ hw
              · rw [if_neg hcm] at hw
                by_cases hlc : nextOffsetVal offs inds cell - off ≠ 1
                · rw [if_pos hlc] at hw
                  exact absurd hw (by simp)
                · rw [if_neg hlc] at hw
                  exact handle _ _ hw
        · exact hbase cell acc noffs tags oI oO oT (by omega) hsent hw
  intro cell acc noffs tags oI oO oT hsent hnl hw
  exact main (offs.length - cell) cell acc noffs tags oI oO oT le_rfl hsent hnl hw

/-! ## On failure the original offset and index arrays are untouched -/

theorem compress_write_err_state (fe : Nat → Nat) (offs : List (Option Nat))
    (inds : List Nat) :
    ∀ cell acc noffs tags f,
      compress_write fe offs inds cell acc noffs tags = .error f →
      f.state.dof_offsets = offs ∧ f.state.dof_indices = inds := by
  have main : ∀ k cell acc noffs tags f, offs.length - cell ≤ k →
      compress_write fe offs inds cell acc noffs tags = .error f →
      f.state.dof_offsets = offs ∧ f.state.dof_indices = inds := by
    intro k
    induction k with
    | zero =>
        intro cell acc noffs tags f hk hw
        rw [compress_write_end fe offs inds cell acc noffs tags (by omega)] at hw
        exact absurd hw (by simp)
    | succ k ih =>
        intro cell acc noffs tags f hk hw
        by_cases h : cell < offs.length
        · cases hoc : offs.getD cell none with
          | none =>
              rw [compress_write_inactive fe offs inds cell acc noffs tags h hoc] at hw
              exact ih (cell + 1) acc noffs tags f (by omega) hw
          | some off =>
              rw [compress_write_active fe offs inds cell acc noffs tags off h hoc] at hw
              have hnc_ge := nextActive_ge offs (cell + 1)
              by_cases hce : is_compressed_entry (tags.getD cell default) = true
              · rw [if_pos hce] at hw
                have := Except.error.inj hw
                rw [← this]
                exact ⟨rfl, rfl⟩
              · rw [if_neg hce] at hw
                by_cases hlc : nextOffsetVal offs inds cell - off ≠
                    fe (tags.getD cell default).variant
                · rw [if_pos hlc] at hw
                  have := Except.error.inj hw
                  rw [← this]
                  exact ⟨rfl, rfl⟩
                · rw [if_neg hlc] at hw
                  by_cases hfe : off < nextOffsetVal offs inds cell
                  · rw [if_pos hfe] at hw
                    by_cases hbc : blockCompressible inds off
                        (nextOffsetVal offs inds cell) = true
                    · rw [if_pos hbc] at hw
                      rw [if_neg hce] at hw
                      exact ih _ _ _ _ f (by omega) hw
                    · rw [if_neg hbc] at hw
                      exact ih _ _ _ _ f (by omega) hw
                  · rw [if_neg hfe] at hw
                    exact ih _ _ _ _ f (by omega) hw
        · rw [compress_write_end fe offs inds cell acc noffs tags (by omega)] at hw
          exact absurd hw (by simp)
  intro cell acc noffs tags f hw
  exact main (offs.length - cell) cell acc noffs tags f le_rfl hw

theorem uncompress_write_err_state (fe : Nat → Nat) (offs : List (Option Nat))
    (inds : List Nat) :
    ∀ cell acc noffs tags f,
      uncompress_write fe offs inds cell acc noffs tags = .error f →
      f.state.dof_offsets = offs ∧ f.state.dof_indices = inds := by
  have main : ∀ k cell acc noffs tags f, offs.length - cell ≤ k →
      uncompress_write fe offs inds cell acc noffs tags = .error f →
      f.state.dof_offsets = offs ∧ f.state.dof_indices = inds := by
    intro k
    induction k with
    | zero =>
        intro cell acc noffs tags f hk hw
        rw [uncompress_write_end fe offs inds cell acc noffs tags (by omega)] at hw
        exact absurd hw (by simp)
    | succ k ih =>
        intro cell acc noffs tags f hk hw
        by_cases h : cell < offs.length
        · cases hoc : offs.getD cell none with
          | none =>
              rw [uncompress_write_inactive fe offs inds cell acc noffs tags h hoc] at hw
              exact ih (cell + 1) acc noffs tags f (by omega) hw
          | some off =>
              rw [uncompress_write_active fe offs inds cell acc noffs tags off h hoc] at hw
              have hnc_ge := nextActive_ge offs (cell + 1)
              by_cases hcm : is_compressed_entry (tags.getD cell default) = false
              · rw [if_pos hcm] at hw
                by_cases hlc : nextOffsetVal offs inds cell - off ≠
                    fe (tags.getD cell default).variant
                · rw [if_pos hlc] at hw
                  have := Except.error.inj hw
                  rw [← this]
                  exact ⟨rfl, rfl⟩
                · rw [if_neg hlc] at hw
                  exact ih _ _ _ _ f (by omega) hw
              · rw [if_neg hcm] at hw
                by_cases hlc : nextOffsetVal offs inds cell - off ≠ 1
                · rw [if_pos hlc] at hw
                  have := Except.error.inj hw
                  rw [← this]
                  exact ⟨rfl, rfl⟩
                · rw [if_neg hlc] at hw
                  exact ih _ _ _ _ f (by omega) hw
        · rw [uncompress_write_end fe offs inds cell acc noffs tags (by omega)] at hw
          exact absurd hw (by simp)
  intro cell acc noffs tags f hw
  exact main (offs.length - cell) cell acc noffs tags f le_rfl hw

theorem compress_data_err_state (fe : Nat → Nat) (L : DoFLevel) (f : Failure)
    (hw : L.compress_data fe = .error f) :
    f.state.dof_offsets = L.dof_offsets ∧ f.state.dof_indices = L.dof_indices := by
  unfold DoFLevel.compress_data at hw
  by_cases hemp : L.dof_offsets.length = 0 ∨ L.dof_indices.length = 0
  · rw [if_pos hemp] at hw
    exact absurd hw (by simp)
  · rw [if_neg hemp] at hw
    split at hw
    · have := Except.error.inj hw
      rw [← this]
      exact ⟨rfl, rfl⟩
    · split at hw
      · rename_i hwr
        exact compress_write_err_state fe L.dof_offsets L.dof_indices 0 []
          (List.replicate L.dof_offsets.length none) L.active_fe_indices f
          (by rw [hwr]; exact congrArg Except.error (Except.error.inj hw).symm ▸ rfl)
      · split at hw
        · have := Except.error.inj hw
          rw [← this]
          exact ⟨rfl, rfl⟩
        · exact absurd hw (by simp)

theorem uncompress_data_err_state (fe : Nat → Nat) (L : DoFLevel) (f : Failure)
    (hw : L.uncompress_data fe = .error f) :
    f.state.dof_offsets = L.dof_offsets ∧ f.state.dof_indices = L.dof_indices := by
  unfold DoFLevel.uncompress_data at hw
  by_cases hemp : L.dof_offsets.length = 0 ∨ L.dof_indices.length = 0
  · rw [if_pos hemp] at hw
    exact absurd hw (by simp)
  · rw [if_neg hemp] at hw
    dsimp only at hw
    split at hw
    · rename_i hwr
      exact uncompress_write_err_state fe L.dof_offsets L.dof_indices 0 []
        (List.replicate L.dof_offsets.length none) L.active_fe_indices f
        (by rw [hwr]; exact congrArg Except.error (Except.error.inj hw).symm ▸ rfl)
    · split at hw
      · have := Except.error.inj hw
        rw [← this]
        exact ⟨rfl, rfl⟩
      · exact absurd hw (by simp)

theorem compress_data_activity (fe : Nat → Nat) (L out : DoFLevel)
    (hw : L.compress_data fe = .ok out) :
    ∀ c, activeAt out.dof_offsets c = activeAt L.dof_offsets c := by
  unfold DoFLevel.compress_data at hw
  by_cases hemp : L.dof_offsets.length = 0 ∨ L.dof_indices.length = 0
  · rw [if_pos hemp] at hw
    have h := Except.ok.inj hw
    rw [← h]
    intro c
    rfl
  · rw [if_neg hemp] at hw
    split at hw
    · exact absurd hw (by simp)
    · split at hw
      · exact absurd hw (by simp)
      · rename_i new_size hsz t new_inds new_offs tags2 hwr
        split at hw
        · exact absurd hw (by simp)
        · have h := Except.ok.inj hw
          obtain ⟨hlen, hfr, hact⟩ := compress_write_frame fe L.dof_offsets
            L.dof_indices 0 [] (List.replicate L.dof_offsets.length none)
            L.active_fe_indices new_inds new_offs tags2
            (fun c _ => getD_replicate_none _ c)
            (List.length_replicate _ _) hwr
          intro c
          rw [← h]
          exact hact c (Nat.zero_le c)

theorem uncompress_data_activity (fe : Nat → Nat) (L out : DoFLevel)
    (hw : L.uncompress_data fe = .ok out) :
    ∀ c, activeAt out.dof_offsets c = activeAt L.dof_offsets c := by
  unfold DoFLevel.uncompress_data at hw
  by_cases hemp : L.dof_offsets.length = 0 ∨ L.dof_indices.length = 0
  · rw [if_pos hemp] at hw
    have h := Except.ok.inj hw
    rw [← h]
    intro c
    rfl
  · rw [if_neg hemp] at hw
    dsimp only at hw
    split at hw
    · exact absurd hw (by simp)
    · rename_i t new_inds new_offs tags2 hwr
      split at hw
      · exact absurd hw (by simp)
      · have h := Except.ok.inj hw
        obtain ⟨hlen, hfr, hact⟩ := uncompress_write_frame fe L.dof_offsets
          L.dof_indices 0 [] (List.replicate L.dof_offsets.length none)
          L.active_fe_indices new_inds new_offs tags2
          (fun c _ => getD_replicate_none _ c)
          (List.length_replicate _ _) hwr
        intro c
        rw [← h]
        exact hact c (Nat.zero_le c)

/-! ## Characterization of the internal-consistency failures -/

theorem offsetsInRangeB_spec (offs : List (Option Nat)) (inds : List Nat)
    (h : offsetsInRangeB offs inds = true) :
    ∀ c off, offs.getD c none = some off →
      off ≤ nextOffsetVal offs inds c ∧ nextOffsetVal offs inds c ≤ inds.length := by
  intro c off hoc
  by_cases hc : c < offs.length
  · have hall := List.all_eq_true.mp h c (List.mem_range.mpr hc)
    rw [hoc] at hall
    simp only [Bool.and_eq_true, decide_eq_true_eq] at hall
    exact hall
  · rw [List.getD_eq_default offs none (by omega)] at hoc
    exact Option.noConfusion hoc

theorem not_compressed_of_guard {t : FeTag} (h : ¬ is_compressed_entry t = true) :
    t.compressed = false := by
  cases hb : t.compressed
  · rfl
  · exact absurd (show is_compressed_entry t = true from hb) h

theorem compress_size_err_of_violation (fe : Nat → Nat) (offs : List (Option Nat))
    (inds : List Nat) (tags : List FeTag) :
    ∀ cell, (∃ c, cell ≤ c ∧ (invalidIndexViolation offs tags c ∨
        plainLenViolation fe offs inds tags c)) →
      ∃ e, compress_size fe offs inds tags cell = .error e := by
  have main : ∀ k cell, offs.length - cell ≤ k →
      (∃ c, cell ≤ c ∧ (invalidIndexViolation offs tags c ∨
        plainLenViolation fe offs inds tags c)) →
      ∃ e, compress_size fe offs inds tags cell = .error e := by
    intro k
    induction k with
    | zero =>
        intro cell hk hv
        obtain ⟨c, hc, hviol⟩ := hv
        rcases hviol with ⟨off, hoff, _⟩ | ⟨off, hoff, _, _⟩ <;>
          · rw [List.getD_eq_default offs none (by omega)] at hoff
            exact Option.noConfusion hoff
    | succ k ih =>
        intro cell hk hv
        obtain ⟨c, hc, hviol⟩ := hv
        by_cases h : cell < offs.length
        · cases hoc : offs.getD cell none with
          | none =>
              rw [compress_size_inactive fe offs inds tags cell h hoc]
              have hne : cell ≠ c := by
                intro he
                subst he
                rcases hviol with ⟨off, hoff, _⟩ | ⟨off, hoff, _, _⟩ <;>
                  · rw [hoff] at hoc
                    exact Option.noConfusion hoc
              exact ih (cell + 1) (by omega) ⟨c, by omega, hviol⟩
          | some off =>
              rw [compress_size_active fe offs inds tags cell off h hoc]
              by_cases hce : is_compressed_entry (tags.getD cell default) = true
              · rw [if_pos hce]
                exact ⟨.invalidFeIndex, rfl⟩
              · rw [if_neg hce]
                have hcf : (tags.getD cell default).compressed = false :=
                  not_compressed_of_guard hce
                by_cases hlc : nextOffsetVal offs inds cell - off ≠
                    fe (tags.getD cell default).variant
                · rw [if_pos hlc]
                  exact ⟨.blockLengthMismatch, rfl⟩
                · rw [if_neg hlc]
                  have hnc_ge := nextActive_ge offs (cell + 1)
                  have hcnc : nextActive offs (cell + 1) ≤ c := by
                    rcases Nat.eq_or_lt_of_le hc with rfl | hlt
                    · exfalso
                      rcases hviol with ⟨off2, hoff2, hcomp⟩ | ⟨off2, hoff2, _, hbad⟩
                      · rw [hcomp] at hcf
                        exact Bool.noConfusion hcf
                      · rw [hoc] at hoff2
                        have he : off = off2 := Option.some.inj hoff2
                        subst he
                        exact hlc hbad
                    · by_contra hcon
                      have hinact : activeAt offs c = false :=
                        nextActive_between offs (cell + 1) c (by omega) (by omega)
                      rcases hviol with ⟨off2, hoff2, _⟩ | ⟨off2, hoff2, _, _⟩ <;>
                        · rw [getD_none_of_inactive hinact] at hoff2
                          exact Option.noConfusion hoff2
                  obtain ⟨e, he⟩ := ih (nextActive offs (cell + 1)) (by omega)
                    ⟨c, hcnc, hviol⟩
                  rw [he]
                  exact ⟨e, rfl⟩
        · rcases hviol with ⟨off, hoff, _⟩ | ⟨off, hoff, _, _⟩ <;>
            · rw [List.getD_eq_default offs none (by omega)] at hoff
              exact Option.noConfusion hoff
  intro cell hv
  exact main (offs.length - cell) cell le_rfl hv

theorem compress_size_violation_of_err (fe : Nat → Nat) (offs : List (Option Nat))
    (inds : List Nat) (tags : List FeTag) :
    ∀ cell e, compress_size fe offs inds tags cell = .error e →
      ∃ c, cell ≤ c ∧ (invalidIndexViolation offs tags c ∨
        plainLenViolation fe offs inds tags c) := by
  have main : ∀ k cell e, offs.length - cell ≤ k →
      compress_size fe offs inds tags cell = .error e →
      ∃ c, cell ≤ c ∧ (invalidIndexViolation offs tags c ∨
        plainLenViolation fe offs inds tags c) := by
    intro k
    induction k with
    | zero =>
        intro cell e hk hw
        rw [compress_size_end fe offs inds tags cell (by omega)] at hw
        exact absurd hw (by simp)
    | succ k ih =>
        intro cell e hk hw
        by_cases h : cell < offs.length
        · cases hoc : offs.getD cell none with
          | none =>
              rw [compress_size_inactive fe offs inds tags cell h hoc] at hw
              obtain ⟨c, hc, hviol⟩ := ih (cell + 1) e (by omega) hw
              exact ⟨c, by omega, hviol⟩
          | some off =>
              rw [compress_size_active fe offs inds tags cell off h hoc] at hw
              by_cases hce : is_compressed_entry (tags.getD cell default) = true
              · exact ⟨cell, le_rfl, Or.inl ⟨off, hoc, hce⟩⟩
              · rw [if_neg hce] at hw
                have hcf : (tags.getD cell default).compressed = false :=
                  not_compressed_of_guard hce
                by_cases hlc : nextOffsetVal offs inds cell - off ≠
                    fe (tags.getD cell default).variant
                · exact ⟨cell, le_rfl, Or.inr ⟨off, hoc, hcf, hlc⟩⟩
                · rw [if_neg hlc] at hw
                  have hnc_ge := nextActive_ge offs (cell + 1)
                  cases hrec : compress_size fe offs inds tags (nextActive offs (cell + 1)) with
                  | error e2 =>
                      obtain ⟨c, hc, hviol⟩ := ih (nextActive offs (cell + 1)) e2
                        (by omega) hrec
                      exact ⟨c, by omega, hviol⟩
                  | ok n =>
                      rw [hrec] at hw
                      exact absurd hw (by simp)
        · rw [compress_size_end fe offs inds tags cell (by omega)] at hw
          exact absurd hw (by simp)
  intro cell e hw
  exact main (offs.length - cell) cell e le_rfl hw

theorem compress_size_ok_of_no_violation (fe : Nat → Nat) (offs : List (Option Nat))
    (inds : List Nat) (tags : List FeTag) :
    ∀ cell, (∀ c, cell ≤ c → ¬ invalidIndexViolation offs tags c) →
      (∀ c, cell ≤ c → ¬ plainLenViolation fe offs inds tags c) →
      compress_size fe offs inds tags cell = .ok (compressSizeSpecFrom offs inds cell) := by
  have main : ∀ k cell, offs.length - cell ≤ k →
      (∀ c, cell ≤ c → ¬ invalidIndexViolation offs tags c) →
      (∀ c, cell ≤ c → ¬ plainLenViolation fe offs inds tags c) →
      compress_size fe offs inds tags cell = .ok (compressSizeSpecFrom offs inds cell) := by
    intro k
    induction k with
    | zero =>
        intro cell hk _ _
        rw [compress_size_end fe offs inds tags cell (by omega),
          compressSizeSpecFrom_end offs inds cell (by omega)]
    | succ k ih =>
        intro cell hk hni hnp
        by_cases h : cell < offs.length
        · cases hoc : offs.getD cell none with
          | none =>
              rw [compress_size_inactive fe offs inds tags cell h hoc,
                compressSizeSpecFrom_inactive offs inds cell h hoc]
              exact ih (cell + 1) (by omega) (fun c hc => hni c (by omega))
                (fun c hc => hnp c (by omega))
          | some off =>
              have hce : ¬ is_compressed_entry (tags.getD cell default) = true := by
                intro hbad
                exact hni cell le_rfl ⟨off, hoc, hbad⟩
              have hcf : (tags.getD cell default).compressed = false :=
                not_compressed_of_guard hce
              have hlc : ¬ (nextOffsetVal offs inds cell - off ≠
                  fe (tags.getD cell default).variant) := by
                intro hbad
                exact hnp cell le_rfl ⟨off, hoc, hcf, hbad⟩
              have hnc_ge := nextActive_ge offs (cell + 1)
              have hnc_le := nextActive_le_length offs (cell + 1) (by omega)
              rw [compress_size_active fe offs inds tags cell off h hoc, if_neg hce,
                if_neg hlc,
                ih (nextActive offs (cell + 1)) (by omega)
                  (fun c hc => hni c (by omega)) (fun c hc => hnp c (by omega))]
              rw [compressSizeSpecFrom_active offs inds cell off h hoc,
                compressSizeSpecFrom_skip offs inds (cell + 1) (nextActive offs (cell + 1))
                  hnc_ge (fun c h1 h2 => nextActive_between offs (cell + 1) c h1 h2),
                collapses_active offs inds cell off hoc]
              by_cases hfe : off < nextOffsetVal offs inds cell
              · by_cases hbc : blockCompressible inds off (nextOffsetVal offs inds cell) = true
                · rw [if_pos hfe, hbc, if_pos (by simp [hfe])]
                  simp [hfe]
                · have hbcf : blockCompressible inds off (nextOffsetVal offs inds cell) = false := by
                    revert hbc
                    cases blockCompressible inds off (nextOffsetVal offs inds cell) <;> simp
                  rw [if_pos hfe, hbcf, if_neg (by simp)]
                  simp [hfe]
              · rw [if_neg hfe, if_neg (by simp [hfe])]
                have h0 : nextOffsetVal offs inds cell - off = 0 := by omega
                rw [h0]
        · rw [compress_size_end fe offs inds tags cell (by omega),
            compressSizeSpecFrom_end offs inds cell (by omega)]
  intro cell hni hnp
  exact main (offs.length - cell) cell le_rfl hni hnp

theorem compress_write_ok_of_no_violation (fe : Nat → Nat) (offs : List (Option Nat))
    (inds : List Nat)
    (hrange : ∀ c off, offs.getD c none = some off →
      off ≤ nextOffsetVal offs inds c ∧ nextOffsetVal offs inds c ≤ inds.length) :
    ∀ cell acc noffs tags,
      (∀ c, cell ≤ c → ¬ invalidIndexViolation offs tags c) →
      (∀ c, cell ≤ c → ¬ plainLenViolation fe offs inds tags c) →
      ∃ oI oO oT, compress_write fe offs inds cell acc noffs tags = .ok (oI, oO, oT) ∧
        oI.length = acc.length + compressSizeSpecFrom offs inds cell := by
  have main : ∀ k cell acc noffs tags, offs.length - cell ≤ k →
      (∀ c, cell ≤ c → ¬ invalidIndexViolation offs tags c) →
      (∀ c, cell ≤ c → ¬ plainLenViolation fe offs inds tags c) →
      ∃ oI oO oT, compress_write fe offs inds cell acc noffs tags = .ok (oI, oO, oT) ∧
        oI.length = acc.length + compressSizeSpecFrom offs inds cell := by
    intro k
    induction k with
    | zero =>
        intro cell acc noffs tags hk _ _
        refine ⟨acc, noffs, tags,
          compress_write_end fe offs inds cell acc noffs tags (by omega), ?_⟩
        rw [compressSizeSpecFrom_end offs inds cell (by omega)]
        omega
    | succ k ih =>
        intro cell acc noffs tags hk hni hnp
        by_cases h : cell < offs.length
        · cases hoc : offs.getD cell none with
          | none =>
              rw [compress_write_inactive fe offs inds cell acc noffs tags h hoc,
                compressSizeSpecFrom_inactive offs inds cell h hoc]
              exact ih (cell + 1) acc noffs tags (by omega)
                (fun c hc => hni c (by omega)) (fun c hc => hnp c (by omega))
          | some off =>
              have hce : ¬ is_compressed_entry (tags.getD cell default) = true := by
                intro hbad
                exact hni cell le_rfl ⟨off, hoc, hbad⟩
              have hcf : (tags.getD cell default).compressed = false :=
                not_compressed_of_guard hce
              have hlc : ¬ (nextOffsetVal offs inds cell - off ≠
                  fe (tags.getD cell default).variant) := by
                intro hbad
                exact hnp cell le_rfl ⟨off, hoc, hcf, hbad⟩
              have hnc_ge := nextActive_ge offs (cell + 1)
              have hnc_le := nextActive_le_length offs (cell + 1) (by omega)
              have hskip := compressSizeSpecFrom_skip offs inds (cell + 1)
                (nextActive offs (cell + 1)) hnc_ge
                (fun c h1 h2 => nextActive_between offs (cell + 1) c h1 h2)
              rw [compress_write_active fe offs inds cell acc noffs tags off h hoc,
                if_neg hce, if_neg hlc,
                compressSizeSpecFrom_active offs inds cell off h hoc, hskip]
              by_cases hfe : off < nextOffsetVal offs inds cell
              · by_cases hbc : blockCompressible inds off
                    (nextOffsetVal offs inds cell) = true
                · have hclp : collapses offs inds cell = true := by
                    rw [collapses_active offs inds cell off hoc, hbc, Bool.and_true,
                      decide_eq_true_eq]
                    exact hfe
                  rw [if_pos hfe, if_pos hbc, if_neg hce]
                  set tags2 := tags.set cell
                    (get_toggled_compression_state (tags.getD cell default)) with htags2
                  have htags2_ne : ∀ c2, c2 ≠ cell →
                      tags2.getD c2 default = tags.getD c2 default :=
                    fun c2 hcne => getD_of_set_ne tags cell c2 _ default
                      (fun he => hcne he.symm)
                  obtain ⟨oI, oO, oT, hw, hlen⟩ :=
                    ih (nextActive offs (cell + 1)) (acc ++ [inds.getD off 0])
                      (noffs.set cell (some acc.length)) tags2 (by omega)
                      (fun c hc hbad => by
                        obtain ⟨off2, hoff2, hbad2⟩ := hbad
                        rw [htags2_ne c (by omega)] at hbad2
                        exact hni c (by omega) ⟨off2, hoff2, hbad2⟩)
                      (fun c hc hbad => by
                        obtain ⟨off2, hoff2, hb2, hb3⟩ := hbad
                        rw [htags2_ne c (by omega)] at hb2 hb3
                        exact hnp c (by omega) ⟨off2, hoff2, hb2, hb3⟩)
                  refine ⟨oI, oO, oT, hw, ?_⟩
                  rw [hlen, if_pos hclp]
                  simp only [List.length_append, List.length_cons, List.length_nil]
                  omega
                · have hclp : collapses offs inds cell = false := by
                    have hbcf : blockCompressible inds off
                        (nextOffsetVal offs inds cell) = false := by
                      revert hbc
                      cases blockCompressible inds off (nextOffsetVal offs inds cell) <;> simp
                    rw [collapses_active offs inds cell off hoc, hbcf, Bool.and_false]
                  rw [if_pos hfe, if_neg hbc]
                  obtain ⟨oI, oO, oT, hw, hlen⟩ :=
                    ih (nextActive offs (cell + 1))
                      (acc ++ blockSlice inds off (nextOffsetVal offs inds cell))
                      (noffs.set cell (some acc.length)) tags (by omega)
                      (fun c hc => hni c (by omega)) (fun c hc => hnp c (by omega))
                  refine ⟨oI, oO, oT, hw, ?_⟩
                  rw [hlen, if_neg (by rw [hclp]; simp)]
                  simp only [List.length_append]
                  rw [blockSlice_length inds off (nextOffsetVal offs inds cell)
                    (hrange cell off hoc).2]
                  omega
              · have hclp : collapses offs inds cell = false := by
                  rw [collapses_active offs inds cell off hoc, decide_eq_false hfe,
                    Bool.false_and]
                rw [if_neg hfe]
                obtain ⟨oI, oO, oT, hw, hlen⟩ :=
                  ih (nextActive offs (cell + 1)) acc
                    (noffs.set cell (some acc.length)) tags (by omega)
                    (fun c hc => hni c (by omega)) (fun c hc => hnp c (by omega))
                refine ⟨oI, oO, oT, hw, ?_⟩
                rw [hlen, if_neg (by rw [hclp]; simp)]
                omega
        · refine ⟨acc, noffs, tags,
            compress_write_end fe offs inds cell acc noffs tags (by omega), ?_⟩
          rw [compressSizeSpecFrom_end offs inds cell (by omega)]
          omega
  intro cell acc noffs tags hni hnp
  exact main (offs.length - cell) cell acc noffs tags le_rfl hni hnp


theorem uncompress_size_congr_variants (fe : Nat → Nat) (offs : List (Option Nat))
    (tags1 tags2 : List FeTag) :
    ∀ cell, (∀ c, cell ≤ c →
        (tags1.getD c default).variant = (tags2.getD c default).variant) →
      uncompress_size fe offs tags1 cell = uncompress_size fe offs tags2 cell := by
  have main : ∀ k cell, offs.length - cell ≤ k →
      (∀ c, cell ≤ c →
        (tags1.getD c default).variant = (tags2.getD c default).variant) →
      uncompress_size fe offs tags1 cell = uncompress_size fe offs tags2 cell := by
    intro k
    induction k with
    | zero =>
        intro cell hk _
        rw [uncompress_size_end fe offs tags1 cell (by omega),
          uncompress_size_end fe offs tags2 cell (by omega)]
    | succ k ih =>
        intro cell hk hv
        by_cases h : cell < offs.length
        · cases hoc : offs.getD cell none with
          | none =>
              rw [uncompress_size_inactive fe offs tags1 cell h hoc,
                uncompress_size_inactive fe offs tags2 cell h hoc]
              exact ih (cell + 1) (by omega) fun c hc => hv c (by omega)
          | some off =>
              rw [uncompress_size_active fe offs tags1 cell off h hoc,
                uncompress_size_active fe offs tags2 cell off h hoc,
                hv cell le_rfl,
                ih (cell + 1) (by omega) fun c hc => hv c (by omega)]
        · rw [uncompress_size_end fe offs tags1 cell (by omega),
            uncompress_size_end fe offs tags2 cell (by omega)]
  intro cell hv
  exact main (offs.length - cell) cell le_rfl hv

theorem uncompress_write_err_of_violation (fe : Nat → Nat) (offs : List (Option Nat))
    (inds : List Nat) :
    ∀ cell acc noffs tags,
      (∃ c, cell ≤ c ∧ (plainLenViolation fe offs inds tags c ∨
        compressedLenViolation offs inds tags c)) →
      ∃ f, uncompress_write fe offs inds cell acc noffs tags = .error f := by
  have main : ∀ k cell acc noffs tags, offs.length - cell ≤ k →
      (∃ c, cell ≤ c ∧ (plainLenViolation fe offs inds tags c ∨
        compressedLenViolation offs inds tags c)) →
      ∃ f, uncompress_write fe offs inds cell acc noffs tags = .error f := by
    intro k
    induction k with
    | zero =>
        intro cell acc noffs tags hk ⟨c, hc, hviol⟩
        exfalso
        rcases hviol with ⟨off, hoff, _⟩ | ⟨off, hoff, _⟩ <;>
          (rw [List.getD_eq_default offs none (by omega)] at hoff
           exact Option.noConfusion hoff)
    | succ k ih =>
        intro cell acc noffs tags hk hv
        obtain ⟨c, hc, hviol⟩ := hv
        by_cases h : cell < offs.length
        · cases hoc : offs.getD cell none with
          | none =>
              rw [uncompress_write_inactive fe offs inds cell acc noffs tags h hoc]
              have hne : cell ≠ c := by
                intro he
                rcases hviol with ⟨off, hoff, _⟩ | ⟨off, hoff, _⟩ <;>
                  (rw [he, hoff] at hoc; exact Option.noConfusion hoc)
              exact ih (cell + 1) acc noffs tags (by omega) ⟨c, by omega, hviol⟩
          | some off =>
              rw [uncompress_write_active fe offs inds cell acc noffs tags off h hoc]
              have hnc_ge := nextActive_ge offs (cell + 1)
              have hbetween : ∀ c2, cell + 1 ≤ c2 → c2 < nextActive offs (cell + 1) →
                  activeAt offs c2 = false :=
                fun c2 h1 h2 => nextActive_between offs (cell + 1) c2 h1 h2
              have hcfar : cell ≠ c → nextActive offs (cell + 1) ≤ c := by
                intro hne
                by_contra hcon
                have hinact : activeAt offs c = false :=
                  hbetween c (by omega) (by omega)
                rcases hviol with ⟨off2, hoff2, _⟩ | ⟨off2, hoff2, _⟩ <;>
                  (rw [getD_none_of_inactive hinact] at hoff2
                   exact Option.noConfusion hoff2)
              by_cases hcm : is_compressed_entry (tags.getD cell default) = false
              · rw [if_pos hcm]
                by_cases hlc : nextOffsetVal offs inds cell - off ≠
                    fe (tags.getD cell default).variant
                · rw [if_pos hlc]
                  exact ⟨_, rfl⟩
                · rw [if_neg hlc]
                  have hne : cell ≠ c := by
                    intro he
                    subst he
                    rcases hviol with ⟨off2, hoff2, _, hbad⟩ | ⟨off2, hoff2, hcmp2, _⟩
                    · rw [hoc] at hoff2
                      have : off = off2 := Option.some.inj hoff2
                      subst this
                      exact hlc hbad
                    · rw [show is_compressed_entry (tags.getD cell default) =
                        (tags.getD cell default).compressed from rfl, hcmp2] at hcm
                      exact Bool.noConfusion hcm
                  exact ih (nextActive offs (cell + 1)) _ _ tags (by omega)
                    ⟨c, hcfar hne, hviol⟩
              · rw [if_neg hcm]
                by_cases hlc : nextOffsetVal offs inds cell - off ≠ 1
                · rw [if_pos hlc]
                  exact ⟨_, rfl⟩
                · rw [if_neg hlc]
                  have hcmp : (tags.getD cell default).compressed = true := by
                    have hx : is_compressed_entry (tags.getD cell default) = true := by
                      revert hcm
                      cases is_compressed_entry (tags.getD cell default) <;> simp
                    exact hx
                  have hne : cell ≠ c := by
                    intro he
                    subst he
                    rcases hviol with ⟨off2, hoff2, hcmp2, _⟩ | ⟨off2, hoff2, _, hbad⟩
                    · rw [hcmp] at hcmp2
                      exact Bool.noConfusion hcmp2
                    · rw [hoc] at hoff2
                      have : off = off2 := Option.some.inj hoff2
                      subst this
                      exact hlc hbad
                  set tags2 := tags.set cell
                    (get_toggled_compression_state (tags.getD cell default)) with htags2
                  have htags2_ne : ∀ c2, c2 ≠ cell →
                      tags2.getD c2 default = tags.getD c2 default :=
                    fun c2 hcne => getD_of_set_ne tags cell c2 _ default
                      (fun he => hcne he.symm)
                  apply ih (nextActive offs (cell + 1)) _ _ tags2 (by omega)
                  refine ⟨c, hcfar hne, ?_⟩
                  rcases hviol with ⟨off2, hoff2, hcmp2, hbad⟩ | ⟨off2, hoff2, hcmp2, hbad⟩
                  · exact Or.inl ⟨off2, hoff2, by
                      rw [htags2_ne c (fun he => hne he.symm)]
                      exact hcmp2, by
                      rw [htags2_ne c (fun he => hne he.symm)]
                      exact hbad⟩
                  · exact Or.inr ⟨off2, hoff2, by
                      rw [htags2_ne c (fun he => hne he.symm)]
                      exact hcmp2, hbad⟩
        · exfalso
          rcases hviol with ⟨off, hoff, _⟩ | ⟨off, hoff, _⟩ <;>
            (rw [List.getD_eq_default offs none (by omega)] at hoff
             exact Option.noConfusion hoff)
  intro cell acc noffs tags hv
  exact main (offs.length - cell) cell acc noffs tags le_rfl hv

theorem uncompress_write_violation_of_err (fe : Nat → Nat) (offs : List (Option Nat))
    (inds : List Nat) :
    ∀ cell acc noffs tags f,
      uncompress_write fe offs inds cell acc noffs tags = .error f →
      ∃ c, cell ≤ c ∧ (plainLenViolation fe offs inds tags c ∨
        compressedLenViolation offs inds tags c) := by
  have main : ∀ k cell acc noffs tags f, offs.length - cell ≤ k →
      uncompress_write fe offs inds cell acc noffs tags = .error f →
      ∃ c, cell ≤ c ∧ (plainLenViolation fe offs inds tags c ∨
        compressedLenViolation offs inds tags c) := by
    intro k
    induction k with
    | zero =>
        intro cell acc noffs tags f hk hw
        rw [uncompress_write_end fe offs inds cell acc noffs tags (by omega)] at hw
        exact absurd hw (by simp)
    | succ k ih =>
        intro cell acc noffs tags f hk hw
        by_cases h : cell < offs.length
        · cases hoc : offs.getD cell none with
          | none =>
              rw [uncompress_write_inactive fe offs inds cell acc noffs tags h hoc] at hw
              obtain ⟨c, hc, hviol⟩ := ih (cell + 1) acc noffs tags f (by omega) hw
              exact ⟨c, by omega, hviol⟩
          | some off =>
              rw [uncompress_write_active fe offs inds cell acc noffs tags off h hoc] at hw
              have hnc_ge := nextActive_ge offs (cell + 1)
              by_cases hcm : is_compressed_entry (tags.getD cell default) = false
              · rw [if_pos hcm] at hw
                by_cases hlc : nextOffsetVal offs inds cell - off ≠
                    fe (tags.getD cell default).variant
                · exact ⟨cell, le_rfl, Or.inl ⟨off, hoc, hcm, hlc⟩⟩
                · rw [if_neg hlc] at hw
                  obtain ⟨c, hc, hviol⟩ :=
                    ih (nextActive offs (cell + 1)) _ _ tags f (by omega) hw
                  exact ⟨c, by omega, hviol⟩
              · rw [if_neg hcm] at hw
                have hcmp : (tags.getD cell default).compressed = true := by
                  have hx : is_compressed_entry (tags.getD cell default) = true := by
                    revert hcm
                    cases is_compressed_entry (tags.getD cell default) <;> simp
                  exact hx
                by_cases hlc : nextOffsetVal offs inds cell - off ≠ 1
                · exact ⟨cell, le_rfl, Or.inr ⟨off, hoc, hcmp, hlc⟩⟩
                · rw [if_neg hlc] at hw
                  set tags2 := tags.set cell
                    (get_toggled_compression_state (tags.getD cell default)) with htags2
                  have htags2_ne : ∀ c2, c2 ≠ cell →
                      tags2.getD c2 default = tags.getD c2 default :=
                    fun c2 hcne => getD_of_set_ne tags cell c2 _ default
                      (fun he => hcne he.symm)
                  obtain ⟨c, hc, hviol⟩ :=
                    ih (nextActive offs (cell + 1)) _ _ tags2 f (by omega) hw
                  refine ⟨c, by omega, ?_⟩
                  rcases hviol with ⟨off2, hoff2, hcmp2, hbad⟩ | ⟨off2, hoff2, hcmp2, hbad⟩
                  · rw [htags2_ne c (by omega)] at hcmp2 hbad
                    exact Or.inl ⟨off2, hoff2, hcmp2, hbad⟩
                  · rw [htags2_ne c (by omega)] at hcmp2
                    exact Or.inr ⟨off2, hoff2, hcmp2, hbad⟩
        · rw [uncompress_write_end fe offs inds cell acc noffs tags (by omega)] at hw
          exact absurd hw (by simp)
  intro cell acc noffs tags f hw
  exact main (offs.length - cell) cell acc noffs tags f le_rfl hw

theorem uncompress_write_ok_of_no_violation (fe : Nat → Nat) (offs : List (Option Nat))
    (inds : List Nat)
    (hrange : ∀ c off, offs.getD c none = some off →
      off ≤ nextOffsetVal offs inds c ∧ nextOffsetVal offs inds c ≤ inds.length) :
    ∀ cell acc noffs tags,
      (∀ c, cell ≤ c → ¬ plainLenViolation fe offs inds tags c) →
      (∀ c, cell ≤ c → ¬ compressedLenViolation offs inds tags c) →
      ∃ oI oO oT, uncompress_write fe offs inds cell acc noffs tags = .ok (oI, oO, oT) ∧
        oI.length = acc.length + uncompress_size fe offs tags cell := by
  have main : ∀ k cell acc noffs tags, offs.length - cell ≤ k →
      (∀ c, cell ≤ c → ¬ plainLenViolation fe offs inds tags c) →
      (∀ c, cell ≤ c → ¬ compressedLenViolation offs inds tags c) →
      ∃ oI oO oT, uncompress_write fe offs inds cell acc noffs tags = .ok (oI, oO, oT) ∧
        oI.length = acc.length + uncompress_size fe offs tags cell := by
    intro k
    induction k with
    | zero =>
        intro cell acc noffs tags hk _ _
        refine ⟨acc, noffs, tags,
          uncompress_write_end fe offs inds cell acc noffs tags (by omega), ?_⟩
        rw [uncompress_size_end fe offs tags cell (by omega)]
        omega
    | succ k ih =>
        intro cell acc noffs tags hk hnp hncp
        by_cases h : cell < offs.length
        · cases hoc : offs.getD cell none with
          | none =>
              rw [uncompress_write_inactive fe offs inds cell acc noffs tags h hoc,
                uncompress_size_inactive fe offs tags cell h hoc]
              exact ih (cell + 1) acc noffs tags (by omega)
                (fun c hc => hnp c (by omega)) (fun c hc => hncp c (by omega))
          | some off =>
              have hnc_ge := nextActive_ge offs (cell + 1)
              have hnc_le := nextActive_le_length offs (cell + 1) (by omega)
              have hskip := uncompress_size_skip fe offs tags (cell + 1)
                (nextActive offs (cell + 1)) hnc_ge
                (fun c h1 h2 => nextActive_between offs (cell + 1) c h1 h2)
              rw [uncompress_write_active fe offs inds cell acc noffs tags off h hoc,
                uncompress_size_active fe offs tags cell off h hoc, hskip]
              by_cases hcm : is_compressed_entry (tags.getD cell default) = false
              · rw [if_pos hcm]
                have hlc : ¬ (nextOffsetVal offs inds cell - off ≠
                    fe (tags.getD cell default).variant) := by
                  intro hbad
                  exact hnp cell le_rfl ⟨off, hoc, hcm, hbad⟩
                rw [if_neg hlc]
                obtain ⟨oI, oO, oT, hw, hlen⟩ :=
                  ih (nextActive offs (cell + 1))
                    (acc ++ blockSlice inds off (nextOffsetVal offs inds cell))
                    (noffs.set cell (some acc.length)) tags (by omega)
                    (fun c hc => hnp c (by omega)) (fun c hc => hncp c (by omega))
                refine ⟨oI, oO, oT, hw, ?_⟩
                rw [hlen]
                simp only [List.length_append]
                rw [blockSlice_length inds off (nextOffsetVal offs inds cell)
                  (hrange cell off hoc).2]
                omega
              · rw [if_neg hcm]
                have hcmp : (tags.getD cell default).compressed = true := by
                  have hx : is_compressed_entry (tags.getD cell default) = true := by
                    revert hcm
                    cases is_compressed_entry (tags.getD cell default) <;> simp
                  exact hx
                have hlc : ¬ (nextOffsetVal offs inds cell - off ≠ 1) := by
                  intro hbad
                  exact hncp cell le_rfl ⟨off, hoc, hcmp, hbad⟩
                rw [if_neg hlc]
                set tags2 := tags.set cell
                  (get_toggled_compression_state (tags.getD cell default)) with htags2
                have htags2_ne : ∀ c2, c2 ≠ cell →
                    tags2.getD c2 default = tags.getD c2 default :=
                  fun c2 hcne => getD_of_set_ne tags cell c2 _ default
                    (fun he => hcne he.symm)
                obtain ⟨oI, oO, oT, hw, hlen⟩ :=
                  ih (nextActive offs (cell + 1))
                    (acc ++ (List.range
                      (fe (get_toggled_compression_state (tags.getD cell default)).variant)).map
                      (fun i => inds.getD off 0 + i))
                    (noffs.set cell (some acc.length)) tags2 (by omega)
                    (fun c hc hbad => by
                      obtain ⟨off2, hoff2, hcmp2, hbad2⟩ := hbad
                      rw [htags2_ne c (by omega)] at hcmp2 hbad2
                      exact hnp c (by omega) ⟨off2, hoff2, hcmp2, hbad2⟩)
                    (fun c hc hbad => by
                      obtain ⟨off2, hoff2, hcmp2, hbad2⟩ := hbad
                      rw [htags2_ne c (by omega)] at hcmp2
                      exact hncp c (by omega) ⟨off2, hoff2, hcmp2, hbad2⟩)
                refine ⟨oI, oO, oT, hw, ?_⟩
                rw [hlen,
                  uncompress_size_congr_variants fe offs tags2 tags
                    (nextActive offs (cell + 1))
                    (fun c hc => by rw [htags2_ne c (by omega)])]
                simp only [List.length_append, List.length_map, List.length_range]
                have hv : (get_toggled_compression_state (tags.getD cell default)).variant =
                    (tags.getD cell default).variant := rfl
                rw [hv]
                omega
        · refine ⟨acc, noffs, tags,
            uncompress_write_end fe offs inds cell acc noffs tags (by omega), ?_⟩
          rw [uncompress_size_end fe offs tags cell (by omega)]
          omega
  intro cell acc noffs tags hnp hncp
  exact main (offs.length - cell) cell acc noffs tags le_rfl hnp hncp

theorem runCheck_of_getD (inds : List Nat) (a noff : Nat)
    (h : ∀ j, a ≤ j → j < noff → inds.getD j 0 = inds.getD (j - 1) 0 + 1) :
    runCheck inds a noff = true := by
  have main : ∀ k j, noff - j ≤ k → a ≤ j → runCheck inds j noff = true := by
    intro k
    induction k with
    | zero =>
        intro j hk _
        exact runCheck_end inds j noff (by omega)
    | succ k ih =>
        intro j hk hj
        by_cases hlt : j < noff
        · rw [runCheck_step inds j noff hlt, h j hj hlt]
          simp only [beq_self_eq_true, Bool.true_and]
          exact ih (j + 1) (by omega) (by omega)
        · exact runCheck_end inds j noff (by omega)
  exact main (noff - a) a le_rfl le_rfl

theorem compress_data_error_iff (fe : Nat → Nat) (L : DoFLevel)
    (hrange : offsetsInRangeB L.dof_offsets L.dof_indices = true)
    (hne : ¬ (L.dof_offsets.length = 0 ∨ L.dof_indices.length = 0)) :
    (∃ f, L.compress_data fe = .error f) ↔
      ((∃ c, invalidIndexViolation L.dof_offsets L.active_fe_indices c) ∨
        (∃ c, plainLenViolation fe L.dof_offsets L.dof_indices
          L.active_fe_indices c)) := by
  constructor
  · rintro ⟨f, hw⟩
    by_contra hv
    push_neg at hv
    obtain ⟨hv1, hv2⟩ := hv
    have hsz := compress_size_ok_of_no_violation fe L.dof_offsets L.dof_indices
      L.active_fe_indices 0 (fun c _ => hv1 c) (fun c _ => hv2 c)
    obtain ⟨oI, oO, oT, hwr, hlen⟩ :=
      compress_write_ok_of_no_violation fe L.dof_offsets L.dof_indices
        (offsetsInRangeB_spec L.dof_offsets L.dof_indices hrange) 0 []
        (List.replicate L.dof_offsets.length none) L.active_fe_indices
        (fun c _ => hv1 c) (fun c _ => hv2 c)
    have hok : L.compress_data fe = .ok ⟨oO, oI, oT⟩ := by
      unfold DoFLevel.compress_data
      rw [if_neg hne, hsz, hwr]
      simp only [List.length_nil, Nat.zero_add] at hlen
      simp only [hlen]
      rw [if_neg (by omega)]
    rw [hok] at hw
    exact absurd hw (by simp)
  · intro hv
    have hv2 : ∃ c, 0 ≤ c ∧ (invalidIndexViolation L.dof_offsets
        L.active_fe_indices c ∨ plainLenViolation fe L.dof_offsets L.dof_indices
        L.active_fe_indices c) := by
      rcases hv with ⟨c, hviol⟩ | ⟨c, hviol⟩
      · exact ⟨c, Nat.zero_le c, Or.inl hviol⟩
      · exact ⟨c, Nat.zero_le c, Or.inr hviol⟩
    obtain ⟨e, hsz⟩ := compress_size_err_of_violation fe L.dof_offsets
      L.dof_indices L.active_fe_indices 0 hv2
    refine ⟨⟨e, L⟩, ?_⟩
    unfold DoFLevel.compress_data
    rw [if_neg hne, hsz]

theorem uncompress_data_error_iff (fe : Nat → Nat) (L : DoFLevel)
    (hrange : offsetsInRangeB L.dof_offsets L.dof_indices = true)
    (hne : ¬ (L.dof_offsets.length = 0 ∨ L.dof_indices.length = 0)) :
    (∃ f, L.uncompress_data fe = .error f) ↔
      ((∃ c, plainLenViolation fe L.dof_offsets L.dof_indices
          L.active_fe_indices c) ∨
        (∃ c, compressedLenViolation L.dof_offsets L.dof_indices
          L.active_fe_indices c)) := by
  constructor
  · rintro ⟨f, hw⟩
    by_contra hv
    push_neg at hv
    obtain ⟨hv1, hv2⟩ := hv
    obtain ⟨oI, oO, oT, hwr, hlen⟩ :=
      uncompress_write_ok_of_no_violation fe L.dof_offsets L.dof_indices
        (offsetsInRangeB_spec L.dof_offsets L.dof_indices hrange) 0 []
        (List.replicate L.dof_offsets.length none) L.active_fe_indices
        (fun c _ => hv1 c) (fun c _ => hv2 c)
    have hok : L.uncompress_data fe = .ok ⟨oO, oI, oT⟩ := by
      unfold DoFLevel.uncompress_data
      rw [if_neg hne, hwr]
      simp only [List.length_nil, Nat.zero_add] at hlen
      simp only [hlen]
      rw [if_neg (by omega)]
    rw [hok] at hw
    exact absurd hw (by simp)
  · intro hv
    have hv2 : ∃ c, 0 ≤ c ∧ (plainLenViolation fe L.dof_offsets L.dof_indices
        L.active_fe_indices c ∨ compressedLenViolation L.dof_offsets L.dof_indices
        L.active_fe_indices c) := by
      rcases hv with ⟨c, hviol⟩ | ⟨c, hviol⟩
      · exact ⟨c, Nat.zero_le c, Or.inl hviol⟩
      · exact ⟨c, Nat.zero_le c, Or.inr hviol⟩
    obtain ⟨f, hwr⟩ := uncompress_write_err_of_violation fe L.dof_offsets
      L.dof_indices 0 [] (List.replicate L.dof_offsets.length none)
      L.active_fe_indices hv2
    refine ⟨f, ?_⟩
    unfold DoFLevel.uncompress_data
    rw [if_neg hne, hwr]

/-! ## The claims -/

/-- C1: for a level in fully uncompressed form (canonical layout, no tag
marked compressed, one tag slot per cell), running `compress_data` and then
`uncompress_data` restores the original level exactly — in particular the
index array and every decoded per-cell block value are identical to the
original's, with blocks in the same relative order. -/
theorem claim_C1_roundtrip (fe : Nat → Nat) (L : DoFLevel)
    (hcan : canonicalFromB fe L.dof_offsets L.dof_indices L.active_fe_indices 0 0 = true)
    (hunc : allUncompressed L.active_fe_indices = true)
    (htl : L.active_fe_indices.length = L.dof_offsets.length) :
    ∃ M, L.compress_data fe = .ok M ∧ M.uncompress_data fe = .ok L :=
  compress_uncompress_roundtrip fe L hcan hunc htl

/-- C1 witness: the round trip at the spec's worked scenario (three cells,
catalog length 4, cell 0 compressible, cell 1 inactive, cell 2 not
compressible). -/
theorem claim_C1_roundtrip_witness :
    ∃ M, (DoFLevel.mk [some 0, none, some 4] [10, 11, 12, 13, 20, 22, 23, 21]
        [⟨0, false⟩, ⟨0, false⟩, ⟨0, false⟩]).compress_data (fun _ => 4) = .ok M ∧
      M.uncompress_data (fun _ => 4) =
        .ok (DoFLevel.mk [some 0, none, some 4] [10, 11, 12, 13, 20, 22, 23, 21]
          [⟨0, false⟩, ⟨0, false⟩, ⟨0, false⟩]) :=
  claim_C1_roundtrip (fun _ => 4)
    ⟨[some 0, none, some 4], [10, 11, 12, 13, 20, 22, 23, 21],
      [⟨0, false⟩, ⟨0, false⟩, ⟨0, false⟩]⟩
    (by simp [canonicalFromB, nextActive, skipInactive, storedLen])
    (by decide) (by decide)

/-- C2: during `compress_data` on a canonical fully uncompressed level, an
active cell's block is collapsed to its single first value exactly when the
block is non-empty and every value after the first equals its predecessor
plus one; otherwise the block is copied verbatim in full, all values
preserved in order. -/
theorem claim_C2_compressibility (fe : Nat → Nat) (L : DoFLevel)
    (hcan : canonicalFromB fe L.dof_offsets L.dof_indices L.active_fe_indices 0 0 = true)
    (hunc : allUncompressed L.active_fe_indices = true)
    (htl : L.active_fe_indices.length = L.dof_offsets.length) :
    ∃ M, L.compress_data fe = .ok M ∧
      ∀ c, activeAt L.dof_offsets c = true →
        M.cellBlock c =
          (if collapses L.dof_offsets L.dof_indices c then
             [(L.cellBlock c).getD 0 0]
           else L.cellBlock c) ∧
        (collapses L.dof_offsets L.dof_indices c = true ↔
          (L.cellBlock c ≠ [] ∧
            ∀ i, i + 1 < (L.cellBlock c).length →
              (L.cellBlock c).getD (i + 1) 0 = (L.cellBlock c).getD i 0 + 1)) := by
  obtain ⟨M, hok, hs⟩ := compress_data_ok fe L hcan hunc htl
  refine ⟨M, hok, fun c hc => ?_⟩
  obtain ⟨off, hoc⟩ : ∃ off, L.dof_offsets.getD c none = some off := by
    unfold activeAt at hc
    cases hoc : L.dof_offsets.getD c none with
    | none => rw [hoc] at hc; exact Bool.noConfusion hc
    | some v => exact ⟨v, rfl⟩
  obtain ⟨hno, hbd⟩ := canonicalFromB_block fe L.dof_offsets L.dof_indices
    L.active_fe_indices 0 0 hcan c (Nat.zero_le c) off hoc
  have hr : nextOffsetVal L.dof_offsets L.dof_indices c ≤ L.dof_indices.length := by
    omega
  have hcb : L.cellBlock c = blockSlice L.dof_indices off
      (nextOffsetVal L.dof_offsets L.dof_indices c) :=
    cellBlockArr_some L.dof_offsets L.dof_indices c off hoc
  have hlen : (L.cellBlock c).length =
      nextOffsetVal L.dof_offsets L.dof_indices c - off := by
    rw [hcb]
    exact blockSlice_length L.dof_indices off _ hr
  constructor
  · have hb := hs.blocks c hc
    by_cases hclp : collapses L.dof_offsets L.dof_indices c = true
    · rw [if_pos hclp] at hb
      rw [if_pos hclp, hb, hoc]
      have hlt : off < nextOffsetVal L.dof_offsets L.dof_indices c := by
        rw [collapses_active L.dof_offsets L.dof_indices c off hoc] at hclp
        simp only [Bool.and_eq_true] at hclp
        exact of_decide_eq_true hclp.1
      have h0 : (L.cellBlock c).getD 0 0 = L.dof_indices.getD (off + 0) 0 := by
        rw [hcb]
        exact blockSlice_getD L.dof_indices off _ 0 (by omega)
      rw [h0]
      rfl
    · rw [if_neg hclp] at hb
      rw [if_neg hclp, hb]
  · rw [collapses_active L.dof_offsets L.dof_indices c off hoc]
    constructor
    · intro hclp
      simp only [Bool.and_eq_true] at hclp
      obtain ⟨hlt', hcmp⟩ := hclp
      have hlt : off < nextOffsetVal L.dof_offsets L.dof_indices c :=
        of_decide_eq_true hlt'
      constructor
      · intro hnil
        rw [hnil] at hlen
        simp only [List.length_nil] at hlen
        omega
      · intro i hi
        rw [hlen] at hi
        rw [hcb, blockSlice_getD L.dof_indices off _ (i + 1) (by omega),
          blockSlice_getD L.dof_indices off _ i (by omega)]
        have h1 := blockCompressible_getD L.dof_indices off _ hcmp (i + 1) (by omega)
        have h2 := blockCompressible_getD L.dof_indices off _ hcmp i (by omega)
        omega
    · rintro ⟨hne, hpt⟩
      have hlt : off < nextOffsetVal L.dof_offsets L.dof_indices c := by
        rcases Nat.lt_or_ge off (nextOffsetVal L.dof_offsets L.dof_indices c) with h | h
        · exact h
        · exfalso
          apply hne
          have h0 : (L.cellBlock c).length = 0 := by omega
          exact List.length_eq_zero.mp h0
      have hcmp : blockCompressible L.dof_indices off
          (nextOffsetVal L.dof_offsets L.dof_indices c) = true := by
        unfold blockCompressible
        apply runCheck_of_getD
        intro j hj hjlt
        have hij : j - off - 1 + 1 < (L.cellBlock c).length := by omega
        have hpti := hpt (j - off - 1) hij
        rw [hlen] at hij
        rw [hcb, blockSlice_getD L.dof_indices off _ (j - off - 1 + 1) (by omega),
          blockSlice_getD L.dof_indices off _ (j - off - 1) (by omega)] at hpti
        have heq1 : off + (j - off - 1 + 1) = j := by omega
        have heq2 : off + (j - off - 1) = j - 1 := by omega
        rw [heq1, heq2] at hpti
        exact hpti
      rw [decide_eq_true hlt, hcmp]
      rfl

/-- C2 witness: a two-cell level whose first block `[5,6,7,8]` collapses to
its first value and whose second block `[5,6,8,9]` is copied verbatim. -/
theorem claim_C2_compressibility_witness :
    ∃ M, (DoFLevel.mk [some 0, some 4] [5, 6, 7, 8, 5, 6, 8, 9]
        [⟨0, false⟩, ⟨0, false⟩]).compress_data (fun _ => 4) = .ok M ∧
      ∀ c, activeAt (DoFLevel.mk [some 0, some 4] [5, 6, 7, 8, 5, 6, 8, 9]
          [⟨0, false⟩, ⟨0, false⟩]).dof_offsets c = true →
        M.cellBlock c =
          (if collapses (DoFLevel.mk [some 0, some 4] [5, 6, 7, 8, 5, 6, 8, 9]
              [⟨0, false⟩, ⟨0, false⟩]).dof_offsets
              (DoFLevel.mk [some 0, some 4] [5, 6, 7, 8, 5, 6, 8, 9]
                [⟨0, false⟩, ⟨0, false⟩]).dof_indices c then
             [((DoFLevel.mk [some 0, some 4] [5, 6, 7, 8, 5, 6, 8, 9]
                 [⟨0, false⟩, ⟨0, false⟩]).cellBlock c).getD 0 0]
           else (DoFLevel.mk [some 0, some 4] [5, 6, 7, 8, 5, 6, 8, 9]
             [⟨0, false⟩, ⟨0, false⟩]).cellBlock c) ∧
        (collapses (DoFLevel.mk [some 0, some 4] [5, 6, 7, 8, 5, 6, 8, 9]
            [⟨0, false⟩, ⟨0, false⟩]).dof_offsets
            (DoFLevel.mk [some 0, some 4] [5, 6, 7, 8, 5, 6, 8, 9]
              [⟨0, false⟩, ⟨0, false⟩]).dof_indices c = true ↔
          ((DoFLevel.mk [some 0, some 4] [5, 6, 7, 8, 5, 6, 8, 9]
              [⟨0, false⟩, ⟨0, false⟩]).cellBlock c ≠ [] ∧
            ∀ i, i + 1 < ((DoFLevel.mk [some 0, some 4] [5, 6, 7, 8, 5, 6, 8, 9]
                [⟨0, false⟩, ⟨0, false⟩]).cellBlock c).length →
              ((DoFLevel.mk [some 0, some 4] [5, 6, 7, 8, 5, 6, 8, 9]
                [⟨0, false⟩, ⟨0, false⟩]).cellBlock c).getD (i + 1) 0 =
                ((DoFLevel.mk [some 0, some 4] [5, 6, 7, 8, 5, 6, 8, 9]
                  [⟨0, false⟩, ⟨0, false⟩]).cellBlock c).getD i 0 + 1)) :=
  claim_C2_compressibility (fun _ => 4)
    ⟨[some 0, some 4], [5, 6, 7, 8, 5, 6, 8, 9], [⟨0, false⟩, ⟨0, false⟩]⟩
    (by simp [canonicalFromB, nextActive, skipInactive, storedLen])
    (by decide) (by decide)

/-- C3: on a canonical level, `uncompress_data` expands every active
compressed cell's single stored value `v` into the run `v, v+1, …, v+L-1`,
where `L` is the catalog block length for the variant id of the tag with its
compression bit untoggled, and untoggles the cell's flag; a non-compressed
active cell's block is copied verbatim and its tag is unchanged. -/
theorem claim_C3_uncompress_blocks (fe : Nat → Nat) (L : DoFLevel)
    (hcan : canonicalFromB fe L.dof_offsets L.dof_indices L.active_fe_indices 0 0 = true)
    (htl : L.active_fe_indices.length = L.dof_offsets.length) :
    ∃ M, L.uncompress_data fe = .ok M ∧
      ∀ c, activeAt L.dof_offsets c = true →
        M.cellBlock c =
          (if (L.active_fe_indices.getD c default).compressed then
             (List.range
               (fe (get_toggled_compression_state
                 (L.active_fe_indices.getD c default)).variant)).map
               (fun i =>
                 L.dof_indices.getD ((L.dof_offsets.getD c none).getD 0) 0 + i)
           else L.cellBlock c) ∧
        M.active_fe_indices.getD c default =
          (if (L.active_fe_indices.getD c default).compressed then
             get_toggled_compression_state (L.active_fe_indices.getD c default)
           else L.active_fe_indices.getD c default) := by
  obtain ⟨M, hok, hs⟩ := uncompress_data_ok fe L hcan htl
  refine ⟨M, hok, fun c hc => ⟨hs.blocks c hc, ?_⟩⟩
  have ht := hs.tag_desc c
  rw [if_pos hc] at ht
  rw [ht]
  rfl

/-- C3 witness: a two-cell canonical level whose first cell is compressed
(stored value 5, catalog length 2) and whose second cell is stored plainly. -/
theorem claim_C3_uncompress_blocks_witness :
    ∃ M, (DoFLevel.mk [some 0, some 1] [5, 9, 8]
        [⟨0, true⟩, ⟨1, false⟩]).uncompress_data (fun _ => 2) = .ok M ∧
      ∀ c, activeAt (DoFLevel.mk [some 0, some 1] [5, 9, 8]
          [⟨0, true⟩, ⟨1, false⟩]).dof_offsets c = true →
        M.cellBlock c =
          (if ((DoFLevel.mk [some 0, some 1] [5, 9, 8]
              [⟨0, true⟩, ⟨1, false⟩]).active_fe_indices.getD c default).compressed then
             (List.range
               ((fun _ => 2) (get_toggled_compression_state
                 ((DoFLevel.mk [some 0, some 1] [5, 9, 8]
                   [⟨0, true⟩, ⟨1, false⟩]).active_fe_indices.getD c default)).variant)).map
               (fun i =>
                 (DoFLevel.mk [some 0, some 1] [5, 9, 8]
                   [⟨0, true⟩, ⟨1, false⟩]).dof_indices.getD
                   (((DoFLevel.mk [some 0, some 1] [5, 9, 8]
                     [⟨0, true⟩, ⟨1, false⟩]).dof_offsets.getD c none).getD 0) 0 + i)
           else (DoFLevel.mk [some 0, some 1] [5, 9, 8]
             [⟨0, true⟩, ⟨1, false⟩]).cellBlock c) ∧
        M.active_fe_indices.getD c default =
          (if ((DoFLevel.mk [some 0, some 1] [5, 9, 8]
              [⟨0, true⟩, ⟨1, false⟩]).active_fe_indices.getD c default).compressed then
             get_toggled_compression_state
               ((DoFLevel.mk [some 0, some 1] [5, 9, 8]
                 [⟨0, true⟩, ⟨1, false⟩]).active_fe_indices.getD c default)
           else (DoFLevel.mk [some 0, some 1] [5, 9, 8]
             [⟨0, true⟩, ⟨1, false⟩]).active_fe_indices.getD c default) :=
  claim_C3_uncompress_blocks (fun _ => 2)
    ⟨[some 0, some 1], [5, 9, 8], [⟨0, true⟩, ⟨1, false⟩]⟩
    (by simp [canonicalFromB, nextActive, skipInactive, storedLen])
    (by decide)

/-- C5: cells inactive before a pass (sentinel offset) remain inactive after
both passes, and neither pass activates or deactivates any cell. -/
theorem claim_C5_sentinel_preservation (fe : Nat → Nat) (L M N : DoFLevel)
    (hc : L.compress_data fe = .ok M) (hu : L.uncompress_data fe = .ok N) :
    ∀ c, (activeAt M.dof_offsets c = activeAt L.dof_offsets c ∧
        activeAt N.dof_offsets c = activeAt L.dof_offsets c) ∧
      (L.dof_offsets.getD c none = none →
        M.dof_offsets.getD c none = none ∧ N.dof_offsets.getD c none = none) := by
  intro c
  have hM := compress_data_activity fe L M hc c
  have hN := uncompress_data_activity fe L N hu c
  refine ⟨⟨hM, hN⟩, fun hnone => ?_⟩
  have hLa : activeAt L.dof_offsets c = false := activeAt_of_getD_none hnone
  exact ⟨getD_none_of_inactive (by rw [hM, hLa]),
    getD_none_of_inactive (by rw [hN, hLa])⟩

/-- C5 witness: sentinel preservation at cell 0 of a two-cell level whose
first cell is inactive. -/
theorem claim_C5_sentinel_preservation_witness :
    (activeAt (DoFLevel.mk [none, some 0] [7] [⟨0, false⟩, ⟨0, true⟩]).dof_offsets 0 =
        activeAt (DoFLevel.mk [none, some 0] [7] [⟨0, false⟩, ⟨0, false⟩]).dof_offsets 0 ∧
      activeAt (DoFLevel.mk [none, some 0] [7] [⟨0, false⟩, ⟨0, false⟩]).dof_offsets 0 =
        activeAt (DoFLevel.mk [none, some 0] [7] [⟨0, false⟩, ⟨0, false⟩]).dof_offsets 0) ∧
    ((DoFLevel.mk [none, some 0] [7] [⟨0, false⟩, ⟨0, false⟩]).dof_offsets.getD 0 none = none →
      (DoFLevel.mk [none, some 0] [7] [⟨0, false⟩, ⟨0, true⟩]).dof_offsets.getD 0 none = none ∧
      (DoFLevel.mk [none, some 0] [7] [⟨0, false⟩, ⟨0, false⟩]).dof_offsets.getD 0 none = none) :=
  claim_C5_sentinel_preservation (fun _ => 1)
    ⟨[none, some 0], [7], [⟨0, false⟩, ⟨0, false⟩]⟩
    ⟨[none, some 0], [7], [⟨0, false⟩, ⟨0, true⟩]⟩
    ⟨[none, some 0], [7], [⟨0, false⟩, ⟨0, false⟩]⟩
    (by simp [DoFLevel.compress_data, compress_size, compress_write, nextActive,
      skipInactive, nextOffsetVal, blockCompressible, runCheck, blockSlice,
      is_compressed_entry, get_toggled_compression_state, List.replicate])
    (by simp [DoFLevel.uncompress_data, uncompress_size, uncompress_write, nextActive,
      skipInactive, nextOffsetVal, blockSlice, is_compressed_entry,
      get_toggled_compression_state, List.replicate])
    0

/-- C6: (corrected) with in-range offsets and nonempty arrays,
`compress_data` fails exactly when some active cell's raw stored tag still
carries the compression bit — the length assertion then indexes the catalog
with an invalid id, which is what the pass actually hits where the claim
expected the double-compression assertion — or some non-compressed active
cell's stored block length disagrees with the catalog; `uncompress_data`
fails exactly when some non-compressed cell's stored length disagrees with
the catalog or some compressed cell's stored length is not exactly 1.  In
particular the final-size assertion never fires on its own, and the
double-compression assertion is never reached. -/
theorem claim_C6_failure_characterization (fe : Nat → Nat) (L : DoFLevel)
    (hrange : offsetsInRangeB L.dof_offsets L.dof_indices = true)
    (hne : ¬ (L.dof_offsets.length = 0 ∨ L.dof_indices.length = 0)) :
    ((∃ f, L.compress_data fe = .error f) ↔
      ((∃ c, invalidIndexViolation L.dof_offsets L.active_fe_indices c) ∨
        (∃ c, plainLenViolation fe L.dof_offsets L.dof_indices
          L.active_fe_indices c))) ∧
    ((∃ f, L.uncompress_data fe = .error f) ↔
      ((∃ c, plainLenViolation fe L.dof_offsets L.dof_indices
          L.active_fe_indices c) ∨
        (∃ c, compressedLenViolation L.dof_offsets L.dof_indices
          L.active_fe_indices c))) :=
  ⟨compress_data_error_iff fe L hrange hne, uncompress_data_error_iff fe L hrange hne⟩

/-- C6 counterexample: on the level with one active cell, stored block
`[5, 7]`, raw tag `⟨0, true⟩` (compression bit set) and catalog length 2,
the compress pass fails — its length assertion indexes the catalog with the
raw compressed tag, an invalid id — although no cell's stored block length
disagrees with the catalog length for its variant and no cell's block would
be collapsed while already marked compressed (`[5, 7]` is not a run, so it
never collapses): the original claim's enumeration of the failure
conditions misses this case. -/
theorem claim_C6_counterexample :
    (∃ f, (DoFLevel.mk [some 0] [5, 7] [⟨0, true⟩]).compress_data
        (fun _ => 2) = .error f) ∧
    offsetsInRangeB [some 0] [5, 7] = true ∧
    ¬ (∃ c, lengthViolation (fun _ => 2) [some 0] [5, 7] [⟨0, true⟩] c) ∧
    ¬ (∃ c, doubleCompressionViolation [some 0] [5, 7] [⟨0, true⟩] c) := by
  refine ⟨⟨⟨.invalidFeIndex, ⟨[some 0], [5, 7], [⟨0, true⟩]⟩⟩, ?_⟩,
    by decide, ?_, ?_⟩
  · simp [DoFLevel.compress_data, compress_size, compress_write, nextActive,
      skipInactive, nextOffsetVal, blockCompressible, runCheck, blockSlice,
      is_compressed_entry, get_toggled_compression_state, List.replicate]
  · rintro ⟨c, off, hoc, hbad⟩
    cases c with
    | zero =>
        rw [List.getD_cons_zero] at hoc
        obtain rfl := Option.some.inj hoc
        exact hbad (by decide)
    | succ c => simp at hoc
  · rintro ⟨c, hclp, hcmp⟩
    cases c with
    | zero =>
        simp [collapses, nextOffsetVal, nextActive, skipInactive,
          blockCompressible, runCheck] at hclp
    | succ c =>
        rw [collapses_of_inactive [some 0] [5, 7] (c + 1)
          (activeAt_of_getD_none (List.getD_eq_default _ _
            (by simp only [List.length_cons, List.length_nil]; omega)))] at hclp
        exact Bool.noConfusion hclp

/-- C6 witness: a one-cell level whose stored block has length 2 while the
catalog demands 3, making both passes fail through the length violation. -/
theorem claim_C6_failure_characterization_witness :
    ((∃ f, (DoFLevel.mk [some 0] [5, 6] [⟨0, false⟩]).compress_data
        (fun _ => 3) = .error f) ↔
      ((∃ c, invalidIndexViolation (DoFLevel.mk [some 0] [5, 6]
          [⟨0, false⟩]).dof_offsets (DoFLevel.mk [some 0] [5, 6]
          [⟨0, false⟩]).active_fe_indices c) ∨
        (∃ c, plainLenViolation (fun _ => 3) (DoFLevel.mk [some 0] [5, 6]
          [⟨0, false⟩]).dof_offsets (DoFLevel.mk [some 0] [5, 6]
          [⟨0, false⟩]).dof_indices (DoFLevel.mk [some 0] [5, 6]
          [⟨0, false⟩]).active_fe_indices c))) ∧
    ((∃ f, (DoFLevel.mk [some 0] [5, 6] [⟨0, false⟩]).uncompress_data
        (fun _ => 3) = .error f) ↔
      ((∃ c, plainLenViolation (fun _ => 3) (DoFLevel.mk [some 0] [5, 6]
          [⟨0, false⟩]).dof_offsets (DoFLevel.mk [some 0] [5, 6]
          [⟨0, false⟩]).dof_indices (DoFLevel.mk [some 0] [5, 6]
          [⟨0, false⟩]).active_fe_indices c) ∨
        (∃ c, compressedLenViolation (DoFLevel.mk [some 0] [5, 6]
          [⟨0, false⟩]).dof_offsets (DoFLevel.mk [some 0] [5, 6]
          [⟨0, false⟩]).dof_indices (DoFLevel.mk [some 0] [5, 6]
          [⟨0, false⟩]).active_fe_indices c))) :=
  claim_C6_failure_characterization (fun _ => 3)
    ⟨[some 0], [5, 6], [⟨0, false⟩]⟩ (by decide) (by decide)

/-- C7: (corrected) when the offset table or the index array is empty —
either one — both passes return immediately as no-ops, leaving the level
unchanged; the source does not distinguish the one-empty case from the
both-empty case, so no internal-consistency failure is raised. -/
theorem claim_C7_empty_shortcut (fe : Nat → Nat) (L : DoFLevel)
    (h : L.dof_offsets.length = 0 ∨ L.dof_indices.length = 0) :
    L.compress_data fe = .ok L ∧ L.uncompress_data fe = .ok L := by
  unfold DoFLevel.compress_data DoFLevel.uncompress_data
  rw [if_pos h, if_pos h]
  exact ⟨rfl, rfl⟩

/-- C7 witness: the empty-array shortcut on a level with one cell slot and
an empty index array. -/
theorem claim_C7_empty_shortcut_witness :
    (DoFLevel.mk [some 0] [] [⟨0, false⟩]).compress_data (fun _ => 4) =
        .ok (DoFLevel.mk [some 0] [] [⟨0, false⟩]) ∧
      (DoFLevel.mk [some 0] [] [⟨0, false⟩]).uncompress_data (fun _ => 4) =
        .ok (DoFLevel.mk [some 0] [] [⟨0, false⟩]) :=
  claim_C7_empty_shortcut (fun _ => 4) ⟨[some 0], [], [⟨0, false⟩]⟩ (Or.inr rfl)

/-- C7 counterexample: a level whose offset table is nonempty while its index
array is empty is not an internal-consistency failure — both passes return
`.ok` with the level unchanged, contradicting the claim that exactly one
empty array is a failure. -/
theorem claim_C7_counterexample :
    (DoFLevel.mk [some 0] [] [⟨0, false⟩]).dof_offsets.length ≠ 0 ∧
      (DoFLevel.mk [some 0] [] [⟨0, false⟩]).dof_indices.length = 0 ∧
      (DoFLevel.mk [some 0] [] [⟨0, false⟩]).compress_data (fun _ => 4) =
        .ok (DoFLevel.mk [some 0] [] [⟨0, false⟩]) ∧
      (DoFLevel.mk [some 0] [] [⟨0, false⟩]).uncompress_data (fun _ => 4) =
        .ok (DoFLevel.mk [some 0] [] [⟨0, false⟩]) :=
  ⟨by decide, rfl, rfl, rfl⟩

/-- C8: (corrected) on failure neither pass swaps in the newly built offset
and index arrays — the failure state carries the original `dof_offsets` and
`dof_indices` unchanged — but tag-flag mutations made in place before the
failing assertion persist, so the tag table is not in general restored (see
the counterexample). -/
theorem claim_C8_failure_frame (fe : Nat → Nat) (L : DoFLevel) (f g : Failure)
    (hc : L.compress_data fe = .error f) (hu : L.uncompress_data fe = .error g) :
    f.state.dof_offsets = L.dof_offsets ∧ f.state.dof_indices = L.dof_indices ∧
    g.state.dof_offsets = L.dof_offsets ∧ g.state.dof_indices = L.dof_indices := by
  obtain ⟨h1, h2⟩ := compress_data_err_state fe L f hc
  obtain ⟨h3, h4⟩ := uncompress_data_err_state fe L g hu
  exact ⟨h1, h2, h3, h4⟩

/-- C8 witness: both passes fail on a one-cell level whose block length
disagrees with the catalog, and the failure states keep the original
offset and index arrays. -/
theorem claim_C8_failure_frame_witness :
    (Failure.mk .blockLengthMismatch
        ⟨[some 0], [5, 6], [⟨0, false⟩]⟩).state.dof_offsets =
        (DoFLevel.mk [some 0] [5, 6] [⟨0, false⟩]).dof_offsets ∧
      (Failure.mk .blockLengthMismatch
        ⟨[some 0], [5, 6], [⟨0, false⟩]⟩).state.dof_indices =
        (DoFLevel.mk [some 0] [5, 6] [⟨0, false⟩]).dof_indices ∧
      (Failure.mk .blockLengthMismatch
        ⟨[some 0], [5, 6], [⟨0, false⟩]⟩).state.dof_offsets =
        (DoFLevel.mk [some 0] [5, 6] [⟨0, false⟩]).dof_offsets ∧
      (Failure.mk .blockLengthMismatch
        ⟨[some 0], [5, 6], [⟨0, false⟩]⟩).state.dof_indices =
        (DoFLevel.mk [some 0] [5, 6] [⟨0, false⟩]).dof_indices :=
  claim_C8_failure_frame (fun _ => 3) ⟨[some 0], [5, 6], [⟨0, false⟩]⟩
    ⟨.blockLengthMismatch, ⟨[some 0], [5, 6], [⟨0, false⟩]⟩⟩
    ⟨.blockLengthMismatch, ⟨[some 0], [5, 6], [⟨0, false⟩]⟩⟩
    (by simp [DoFLevel.compress_data, compress_size, compress_write, nextActive,
      skipInactive, nextOffsetVal, blockCompressible, runCheck, blockSlice,
      is_compressed_entry, get_toggled_compression_state, List.replicate])
    (by simp [DoFLevel.uncompress_data, uncompress_size, uncompress_write, nextActive,
      skipInactive, nextOffsetVal, blockSlice, is_compressed_entry,
      get_toggled_compression_state, List.replicate])

/-- C8 counterexample: `uncompress_data` can fail only after having
untoggled an earlier cell's compression flag in place — the failure state's
tag table differs from the original — so partial tag mutations are
observable on failure, contradicting the claim that no partial computation
is observable. -/
theorem claim_C8_counterexample :
    (DoFLevel.mk [some 0, some 1] [5, 6, 7]
        [⟨1, true⟩, ⟨2, true⟩]).uncompress_data (fun _ => 3) =
      .error ⟨.compressedLengthNotOne,
        ⟨[some 0, some 1], [5, 6, 7], [⟨1, false⟩, ⟨2, true⟩]⟩⟩ ∧
    (DoFLevel.mk [some 0, some 1] [5, 6, 7]
        [⟨1, true⟩, ⟨2, true⟩]).active_fe_indices ≠ [⟨1, false⟩, ⟨2, true⟩] := by
  constructor
  · simp [DoFLevel.uncompress_data, uncompress_size, uncompress_write, nextActive,
      skipInactive, nextOffsetVal, blockSlice, is_compressed_entry,
      get_toggled_compression_state, List.replicate]
  · decide

/-- C9: `normalize_active_fe_indices` untoggles the compression flag of every
tag that is marked compressed, leaves the offset and index arrays untouched,
and is idempotent. -/
theorem claim_C9_normalize (L : DoFLevel) :
    L.normalize_active_fe_indices.dof_offsets = L.dof_offsets ∧
    L.normalize_active_fe_indices.dof_indices = L.dof_indices ∧
    (∀ c, L.normalize_active_fe_indices.active_fe_indices.getD c default =
      (if is_compressed_entry (L.active_fe_indices.getD c default) then
         get_toggled_compression_state (L.active_fe_indices.getD c default)
       else L.active_fe_indices.getD c default)) ∧
    L.normalize_active_fe_indices.normalize_active_fe_indices =
      L.normalize_active_fe_indices := by
  refine ⟨normalize_offs_eq L, normalize_inds_eq L, fun c => ?_, normalize_idem L⟩
  rw [normalize_getD L c]
  rfl

/-- C10: on a canonical fully uncompressed level, every active cell whose
stored block has length exactly 1 is classified compressible — the interior
run check is vacuously true — so `compress_data` stores its single value and
toggles the cell's compression flag; no length-1 block is left with its flag
unmarked. -/
theorem claim_C10_singleton_blocks (fe : Nat → Nat) (L : DoFLevel)
    (hcan : canonicalFromB fe L.dof_offsets L.dof_indices L.active_fe_indices 0 0 = true)
    (hunc : allUncompressed L.active_fe_indices = true)
    (htl : L.active_fe_indices.length = L.dof_offsets.length) :
    ∃ M, L.compress_data fe = .ok M ∧
      ∀ c off, L.dof_offsets.getD c none = some off →
        nextOffsetVal L.dof_offsets L.dof_indices c = off + 1 →
        collapses L.dof_offsets L.dof_indices c = true ∧
        M.cellBlock c = [L.dof_indices.getD off 0] ∧
        (M.active_fe_indices.getD c default).compressed = true := by
  obtain ⟨M, hok, hs⟩ := compress_data_ok fe L hcan hunc htl
  refine ⟨M, hok, fun c off hoc hlen => ?_⟩
  have hclp : collapses L.dof_offsets L.dof_indices c = true := by
    rw [collapses_active L.dof_offsets L.dof_indices c off hoc, hlen,
      decide_eq_true (by omega),
      show blockCompressible L.dof_indices off (off + 1) = true from
        runCheck_end L.dof_indices (off + 1) (off + 1) le_rfl]
    rfl
  refine ⟨hclp, ?_, ?_⟩
  · have hb := hs.blocks c (activeAt_of_getD_some hoc)
    rw [if_pos hclp] at hb
    rw [hb, hoc]
    rfl
  · have ht := hs.tag_desc c
    rw [if_pos hclp] at ht
    rw [ht]
    have hf : (L.active_fe_indices.getD c default).compressed = false :=
      uncompressedFrom_of_all L.active_fe_indices hunc 0 c (Nat.zero_le c)
    show (!(L.active_fe_indices.getD c default).compressed) = true
    rw [hf]
    rfl

/-- C10 witness: a one-cell level with a single length-1 block (stored value
42, catalog length 1) collapses and gets its flag toggled. -/
theorem claim_C10_singleton_blocks_witness :
    ∃ M, (DoFLevel.mk [some 0] [42] [⟨0, false⟩]).compress_data (fun _ => 1) = .ok M ∧
      ∀ c off, (DoFLevel.mk [some 0] [42]
          [⟨0, false⟩]).dof_offsets.getD c none = some off →
        nextOffsetVal (DoFLevel.mk [some 0] [42] [⟨0, false⟩]).dof_offsets
          (DoFLevel.mk [some 0] [42] [⟨0, false⟩]).dof_indices c = off + 1 →
        collapses (DoFLevel.mk [some 0] [42] [⟨0, false⟩]).dof_offsets
          (DoFLevel.mk [some 0] [42] [⟨0, false⟩]).dof_indices c = true ∧
        M.cellBlock c =
          [(DoFLevel.mk [some 0] [42] [⟨0, false⟩]).dof_indices.getD off 0] ∧
        (M.active_fe_indices.getD c default).compressed = true :=
  claim_C10_singleton_blocks (fun _ => 1) ⟨[some 0], [42], [⟨0, false⟩]⟩
    (by simp [canonicalFromB, nextActive, skipInactive, storedLen])
    (by decide) (by decide)

end DealII
